import Mathlib

set_option autoImplicit false

/-!
Verification development for the memtrace ud-graph core
(`memtrace_ext.cpp`).  The C++ code is shallowly embedded: every
stateful component becomes a pure Lean structure and every operation a
total (or `Option`-valued, for fallible code) function.  Machine
integers of width `W` bytes are modelled as `Nat` together with an
explicit modulus `M = 2^(8*W)` applied exactly where the C++ unsigned
arithmetic can wrap.  A C++ `assert` that can fail, and error returns
such as `-EINVAL`, are modelled by `Option`/`none`.
-/

/-- Range `Def {startAddr, endAddr}`: a half-open byte range written by one
dynamic instruction (C++ `struct Def`). -/
structure Def where
  startAddr : Nat
  endAddr : Nat
deriving DecidableEq

instance : Inhabited Def := ⟨⟨0, 0⟩⟩

/-- Sentinel key marking an empty hash-table slot
(C++ `static_cast<std::uint32_t>(-1)`). -/
def kEmpty : Nat := 2 ^ 32 - 1

/-- Hash-table slot `PartialUse {first = useIndex, second = range}`
(C++ `struct PartialUse`). -/
structure PartialUse where
  first : Nat
  second : Def
deriving DecidableEq

instance : Inhabited PartialUse := ⟨⟨kEmpty, ⟨0, 0⟩⟩⟩

/-- Predicate used by `ScanPartialUses`: a slot stops the linear probe if it
holds the key or is empty. -/
def puMatches (useIndex : Nat) (pu : PartialUse) : Bool :=
  pu.first == useIndex || pu.first == kEmpty

/-- Linear scan for the first slot holding `useIndex` or empty
(C++ `ScanPartialUses`); returns the offset into the scanned slice. -/
def scanPartialUses (useIndex : Nat) : List PartialUse → Option Nat
  | [] => none
  | pu :: rest =>
    if puMatches useIndex pu then some 0
    else (scanPartialUses useIndex rest).map (· + 1)

/-- Probe starting at `useIndex % size`, scanning to the end of the table and
then wrapping to the front (C++ `FindPartialUse`); returns the slot index.
`none` models the C++ `assert(use != nullptr)` failing (table full). -/
def findPartialUse (entries : List PartialUse) (useIndex : Nat) : Option Nat :=
  let i := useIndex % entries.length
  match scanPartialUses useIndex (entries.drop i) with
  | some j => some (i + j)
  | none => scanPartialUses useIndex (entries.take i)

/-- Boolean primality test by trial division, used to model the memoized
prime list of `GetFirstPrimeGreaterThanOrEqualTo`. -/
def isPrimeB (p : Nat) : Bool :=
  decide (2 ≤ p) &&
    (List.range p).all fun d => !(decide (2 ≤ d) && decide (p % d = 0))

/-- Divisibility check of one candidate in
`GetFirstPrimeGreaterThanOrEqualTo`: `x` survives if no prime `p` with
`3 ≤ p` and `p*p ≤ x` divides it (the C++ loop tests exactly the odd primes
up to `sqrt x`; `p ≤ sqrt x` is written `p*p ≤ x`). -/
def gCheck (x : Nat) : Bool :=
  (List.range x).all fun p =>
    !(decide (3 ≤ p) && decide (p * p ≤ x) && isPrimeB p && decide (x % p = 0))

/-- Step of the candidate search of `GetFirstPrimeGreaterThanOrEqualTo`:
odd candidates are tried in increasing order.  The structural fuel is large
enough to reach a prime (see `gSearch_spec`); the C++ loop is unbounded. -/
def gSearch : Nat → Nat → Nat
  | 0, x => x
  | fuel + 1, x => if gCheck x then x else gSearch fuel (x + 2)

/-- Candidate search entry point (C++ `GetFirstPrimeGreaterThanOrEqualTo`):
`value |= 1`, then try odd candidates upward. -/
def getFirstPrimeGreaterThanOrEqualTo (value : Nat) : Nat :=
  gSearch (value + 1) (value ||| 1)

/-- Open-addressed partial-use table (C++ `class PartialUses`): the slot
vector plus the load bookkeeping. -/
structure PartialUses where
  entries : List PartialUse
  load : Nat
  maxLoad : Nat
deriving DecidableEq

/-- Freshly opened table (C++ `PartialUses::Init` for a create mode):
11 empty slots, `maxLoad = size / 2`. -/
def PartialUses.freshInit : PartialUses :=
  { entries := List.replicate 11 ⟨kEmpty, ⟨0, 0⟩⟩, load := 0, maxLoad := 11 / 2 }

/-- Reinsertion of one surviving entry during a rehash; `none` models the
C++ `assert(newEntry.first == -1)` failing. -/
def puRehashInsert (entries : List PartialUse) (old : PartialUse) :
    Option (List PartialUse) :=
  match findPartialUse entries old.first with
  | none => none
  | some i =>
    if (entries.getD i default).first = kEmpty then some (entries.set i old)
    else none

/-- Rehash (C++ `PartialUses::reserve`): the new size is
`GetFirstPrimeGreaterThanOrEqualTo (n * 2)`; all slots are cleared and the
old non-empty entries reinserted; `maxLoad` becomes `newSize / 2`. -/
def PartialUses.reserve (t : PartialUses) (n : Nat) : Option PartialUses :=
  let newSize := getFirstPrimeGreaterThanOrEqualTo (n * 2)
  let cleared : List PartialUse := List.replicate newSize ⟨kEmpty, ⟨0, 0⟩⟩
  match t.entries.foldlM
      (fun acc old =>
        if old.first = kEmpty then some acc else puRehashInsert acc old)
      cleared with
  | none => none
  | some es => some { entries := es, load := t.load, maxLoad := newSize / 2 }

/-- Insertion `partialUses_[useIndex] = d` (C++ `PartialUses::operator[]`
followed by the caller's assignment): find the slot; overwrite if the key is
present; otherwise claim the slot, bump the load and rehash when the load
factor would exceed one half. -/
def PartialUses.setAt (t : PartialUses) (useIndex : Nat) (d : Def) :
    Option PartialUses :=
  match findPartialUse t.entries useIndex with
  | none => none
  | some i =>
    let slot := t.entries.getD i default
    if slot.first = useIndex then
      some { t with entries := t.entries.set i ⟨useIndex, d⟩ }
    else
      let claimed := t.entries.set i ⟨useIndex, slot.second⟩
      let load1 := t.load + 1
      if load1 ≤ t.maxLoad then
        some { entries := claimed.set i ⟨useIndex, d⟩, load := load1,
               maxLoad := t.maxLoad }
      else
        match PartialUses.reserve
            { entries := claimed, load := load1, maxLoad := t.maxLoad }
            (load1 * 2) with
        | none => none
        | some t2 =>
          match findPartialUse t2.entries useIndex with
          | none => none
          | some j =>
            if (t2.entries.getD j default).first = useIndex then
              some { t2 with entries := t2.entries.set j ⟨useIndex, d⟩ }
            else none

/-- Lookup (C++ `PartialUses::find`): `some` when the probed slot holds the
key, `none` when it is empty. -/
def PartialUses.lookup (t : PartialUses) (useIndex : Nat) : Option Def :=
  match findPartialUse t.entries useIndex with
  | none => none
  | some i =>
    let slot := t.entries.getD i default
    if slot.first = useIndex then some slot.second else none

/-- Value part of the live-writer interval map (C++ `UdState::EntryValue`). -/
structure EntryValue where
  startAddr : Nat
  defIndex : Nat
deriving DecidableEq

/-- Live-writer interval map, `endAddr -> EntryValue`
(C++ `std::map<W, EntryValue>`), modelled as a key-sorted association
list. -/
abbrev AddressSpace := List (Nat × EntryValue)

/-- Insert-or-assign `addressSpace_[k] = v` on the sorted association
list. -/
def mapInsert (k : Nat) (v : EntryValue) : AddressSpace → AddressSpace
  | [] => [(k, v)]
  | (k1, v1) :: rest =>
    if k < k1 then (k, v) :: (k1, v1) :: rest
    else if k = k1 then (k, v) :: rest
    else (k1, v1) :: mapInsert k v rest

/-- Suffix of the map at `lower_bound lb` restricted to the entries the
`AddUses`/`AddDefs` walk visits (walk while `entry.startAddr < endAddr`). -/
def affectedEntries (m : AddressSpace) (lb endAddr : Nat) :
    List (Nat × EntryValue) :=
  (m.dropWhile fun en => en.1 < lb).takeWhile fun en => en.2.startAddr < endAddr

/-- Per-address-space analyzer state (C++ `UdState<W>`): the `uses` stream,
the `defs` stream, the partial-use table and the in-core interval map. -/
structure UdState where
  uses : List Nat
  partialUses : PartialUses
  defs : List Def
  addressSpace : AddressSpace
deriving DecidableEq

/-- Append a def and make `[startAddr, endAddr)` live
(C++ `UdState::AddDef`). -/
def UdState.addDef (st : UdState) (startAddr endAddr : Nat) : UdState :=
  let defIndex := st.defs.length
  { st with
    defs := st.defs ++ [⟨startAddr, endAddr⟩],
    addressSpace := mapInsert endAddr ⟨startAddr, defIndex⟩ st.addressSpace }

/-- Body of the `AddUses` loop for one overlapping entry: append the use,
and record a partial use when the overlap differs from the stored def. -/
def UdState.addUsesStep (startAddr endAddr : Nat) (st : UdState)
    (en : Nat × EntryValue) : Option UdState :=
  let useIndex := st.uses.length
  let st1 := { st with uses := st.uses ++ [en.2.defIndex] }
  let d := st1.defs.getD en.2.defIndex ⟨0, 0⟩
  let maxStartAddr := max startAddr en.2.startAddr
  let minEndAddr := min endAddr en.1
  if d.startAddr = maxStartAddr ∧ d.endAddr = minEndAddr then some st1
  else
    (st1.partialUses.setAt useIndex ⟨maxStartAddr, minEndAddr⟩).map
      fun pu => { st1 with partialUses := pu }

/-- Record a read of `[startAddr, startAddr + size)`
(C++ `UdState::AddUses`); `M` is `2^(8*W)`, applied where the `W`-wide
additions can wrap. -/
def UdState.addUses (M : Nat) (st : UdState) (startAddr size : Nat) :
    Option UdState :=
  let endAddr := (startAddr + size) % M
  (affectedEntries st.addressSpace ((startAddr + 1) % M) endAddr).foldlM
    (UdState.addUsesStep startAddr endAddr) st

/-- Residue reinsertion for one erased entry (the four overlap cases of
C++ `UdState::AddDefs`). -/
def addDefsResidues (startAddr endAddr : Nat) (m : AddressSpace)
    (en : Nat × EntryValue) : AddressSpace :=
  let entryStartAddr := en.2.startAddr
  let entryEndAddr := en.1
  let entryDefIndex := en.2.defIndex
  if startAddr ≤ entryStartAddr then
    if endAddr < entryEndAddr then
      mapInsert entryEndAddr ⟨endAddr, entryDefIndex⟩ m
    else m
  else
    if endAddr < entryEndAddr then
      mapInsert entryEndAddr ⟨endAddr, entryDefIndex⟩
        (mapInsert startAddr ⟨entryStartAddr, entryDefIndex⟩ m)
    else
      mapInsert startAddr ⟨entryStartAddr, entryDefIndex⟩ m

/-- Record a write of `[startAddr, startAddr + size)`
(C++ `UdState::AddDefs`): fail with `none` (`-EINVAL`) if more than 32 live
intervals are affected, before anything is modified; otherwise erase the
affected entries, reinsert their residues and add the new def. -/
def UdState.addDefs (M : Nat) (st : UdState) (startAddr size : Nat) :
    Option UdState :=
  let endAddr := (startAddr + size) % M
  let lb := (startAddr + 1) % M
  let affected := affectedEntries st.addressSpace lb endAddr
  if 32 < affected.length then none
  else
    let remaining := (st.addressSpace.takeWhile fun en => en.1 < lb) ++
      ((st.addressSpace.dropWhile fun en => en.1 < lb).dropWhile
        fun en => en.2.startAddr < endAddr)
    let m1 := affected.foldl (addDefsResidues startAddr endAddr) remaining
    some (UdState.addDef { st with addressSpace := m1 } startAddr endAddr)

/-- Per-dynamic-instruction record (C++ `struct InsnInTrace`). -/
structure InsnInTrace where
  codeIndex : Nat
  regUseStartIndex : Nat
  regUseEndIndex : Nat
  memUseStartIndex : Nat
  memUseEndIndex : Nat
  regDefStartIndex : Nat
  regDefEndIndex : Nat
  memDefStartIndex : Nat
  memDefEndIndex : Nat
deriving DecidableEq

instance : Inhabited InsnInTrace := ⟨⟨0, 0, 0, 0, 0, 0, 0, 0, 0⟩⟩

/-- Per-static-instruction record (C++ `struct InsnInCode`). -/
structure InsnInCode where
  pc : Nat
  textIndex : Nat
  textSize : Nat
deriving DecidableEq

/-- Index of `std::upper_bound` over a list sorted on `fld`: the first
position whose field exceeds `x` (list length if none).  On the sorted
traces the builder produces this coincides with the C++ binary search. -/
def upperBoundIdx {α : Type} (fld : α → Nat) (x : Nat) : List α → Nat
  | [] => 0
  | a :: rest => if x < fld a then 0 else upperBoundIdx fld x rest + 1

/-- Resolution of one use (C++ free function `ResolveUse`): the effective
def comes from the probed partial-use slot when it holds the key, else from
`defs[uses[useIndex]]`; the trace index is `upper_bound` on the given
start-def-index field, stepped back one.  `none` models the
`FindPartialUse` assertion failing; the step back one behind `begin`
(undefined in C++) cannot happen under the stated hypotheses. -/
def resolveUseRaw (uses : List Nat) (defs : List Def)
    (partialEntries : List PartialUse) (trace : List InsnInTrace)
    (startDefIndex : InsnInTrace → Nat) (useIndex : Nat) :
    Option (Def × Nat) :=
  let defIndex := uses.getD useIndex 0
  match findPartialUse partialEntries useIndex with
  | none => none
  | some i =>
    let slot := partialEntries.getD i default
    let d := if slot.first = kEmpty then defs.getD defIndex ⟨0, 0⟩
             else slot.second
    some (d, upperBoundIdx startDefIndex defIndex trace - 1)

/-- Wrapper `UdState::ResolveUse`. -/
def UdState.resolveUse (st : UdState) (trace : List InsnInTrace)
    (startDefIndex : InsnInTrace → Nat) (useIndex : Nat) :
    Option (Def × Nat) :=
  resolveUseRaw st.uses st.defs st.partialUses.entries trace startDefIndex
    useIndex

/-- Trace record tags (C++ `enum class Tag`). -/
inductive Tag where
  | load
  | store
  | reg
  | insn
  | getReg
  | putReg
  | insnExec
  | getRegNx
  | putRegNx
  | mmap
deriving DecidableEq

/-- Decoded trace records, one constructor per entry class dispatched by
`VisitOne` (`LdStEntry`, `InsnEntry`, `InsnExecEntry`, `LdStNxEntry`,
`MmapEntry`).  An `ldSt` record carries the tag because five tags share the
`LdStEntry` layout; `size` is the byte count of the value payload. -/
inductive Record where
  | ldSt (tag : Tag) (insnSeq addr size : Nat)
  | insn (insnSeq pc : Nat) (value : List Nat)
  | insnExec (insnSeq : Nat)
  | ldStNx (tag : Tag) (insnSeq addr size : Nat)
  | mmap (startAddr endAddr flags : Nat)
deriving DecidableEq

/-- Builder state (C++ `class Ud<W>`), without the external disassembler
strings. -/
structure Ud where
  trace : List InsnInTrace
  code : List InsnInCode
  text : List Nat
  regState : UdState
  memState : UdState
deriving DecidableEq

/-- Open a new trace entry (C++ `Ud::AddTrace`): the start indices snapshot
the current use/def counts; the end indices are the zero of the
value-initialized `emplace_back` until `Flush` sets them. -/
def Ud.addTrace (st : Ud) (codeIndex : Nat) : Ud :=
  { st with
    trace := st.trace ++ [{
      codeIndex := codeIndex
      regUseStartIndex := st.regState.uses.length
      regUseEndIndex := 0
      memUseStartIndex := st.memState.uses.length
      memUseEndIndex := 0
      regDefStartIndex := st.regState.defs.length
      regDefEndIndex := 0
      memDefStartIndex := st.memState.defs.length
      memDefEndIndex := 0 }] }

/-- Close the open trace entry (C++ `Ud::Flush`): record the end indices on
`trace.back()`. -/
def Ud.flush (st : Ud) : Ud :=
  match st.trace.getLast? with
  | none => st
  | some last =>
    { st with
      trace := st.trace.dropLast ++ [{ last with
        regUseEndIndex := st.regState.uses.length
        memUseEndIndex := st.memState.uses.length
        regDefEndIndex := st.regState.defs.length
        memDefEndIndex := st.memState.defs.length }] }

/-- Instruction-boundary detection (C++ `Ud::HandleInsnSeq`): compare the
record's `insnSeq` with the `codeIndex` of the open trace entry; on a
mismatch flush and open a new entry. -/
def Ud.handleInsnSeq (st : Ud) (insnSeq : Nat) : Ud :=
  if (st.trace.getLast?.getD default).codeIndex = insnSeq then st
  else (st.flush).addTrace insnSeq

/-- Per-address-space initialization (C++ `UdState::Init` in a create mode):
a fresh 11-slot table immediately rehashed to the expected partial-use
count. -/
def UdState.mkInit (expectedPartialUseCount : Nat) : Option UdState :=
  (PartialUses.freshInit.reserve expectedPartialUseCount).map fun pu =>
    { uses := [], partialUses := pu, defs := [], addressSpace := [] }

/-- Builder initialization (C++ `Ud::Init` in a create mode): seed
`code[0] = <unknown>`, open `trace[0]` against it, then install the
catch-all defs `AddDef(0, numeric_limits<W>::max())`, i.e.
`Def(0, M - 1)`, in both address spaces.  The builder passes
`expectedInsnCount = fileLength / 128` down to the expected use, def and
partial-use counts. -/
def Ud.mkInit (M : Nat) (expectedInsnCount : Nat) : Option Ud := do
  let reg ← UdState.mkInit (expectedInsnCount / 10)
  let mem ← UdState.mkInit (expectedInsnCount / 20)
  let st : Ud := { trace := [], code := [⟨0, 0, 0⟩], text := [],
                   regState := reg, memState := mem }
  let st := st.addTrace 0
  let st := { st with
    regState := st.regState.addDef 0 (M - 1),
    memState := st.memState.addDef 0 (M - 1) }
  some st

/-- Replay of one record (the C++ `Ud::operator()` overloads dispatched by
`VisitOne`); `none` models an `-EINVAL` return. -/
def Ud.step (M : Nat) (st : Ud) (r : Record) : Option Ud :=
  match r with
  | .ldSt tag insnSeq addr size =>
    let st := st.handleInsnSeq insnSeq
    match tag with
    | .load => (st.memState.addUses M addr size).map
        fun s => { st with memState := s }
    | .store => (st.memState.addDefs M addr size).map
        fun s => { st with memState := s }
    | .reg => some st
    | .getReg => (st.regState.addUses M addr size).map
        fun s => { st with regState := s }
    | .putReg => (st.regState.addDefs M addr size).map
        fun s => { st with regState := s }
    | _ => none
  | .insn insnSeq pc value =>
    if insnSeq = st.code.length then
      some { st with
        code := st.code ++ [⟨pc, st.text.length, value.length⟩],
        text := st.text ++ value }
    else none
  | .insnExec insnSeq => some (st.handleInsnSeq insnSeq)
  | .ldStNx tag insnSeq addr size =>
    let st := st.handleInsnSeq insnSeq
    match tag with
    | .getRegNx => (st.regState.addUses M addr size).map
        fun s => { st with regState := s }
    | .putRegNx => (st.regState.addDefs M addr size).map
        fun s => { st with regState := s }
    | _ => none
  | .mmap _ _ _ => some st

/-- Build a ud graph from a decoded record stream: initialize, replay every
record in order, and flush the last open trace entry (the `Flush` performed
by `Ud::Complete`). -/
def buildUd (M : Nat) (expectedInsnCount : Nat) (records : List Record) :
    Option Ud := do
  let st ← Ud.mkInit M expectedInsnCount
  let st ← records.foldlM (Ud.step M) st
  some st.flush

/-- Query `Ud::GetTraceForRegUse`. -/
def Ud.getTraceForRegUse (st : Ud) (regUse : Nat) : Option Nat :=
  (st.regState.resolveUse st.trace (fun tr => tr.regDefStartIndex)
    regUse).map (fun u => u.2)

/-- Query `Ud::GetTraceForMemUse`. -/
def Ud.getTraceForMemUse (st : Ud) (memUse : Nat) : Option Nat :=
  (st.memState.resolveUse st.trace (fun tr => tr.memDefStartIndex)
    memUse).map (fun u => u.2)

/-- State of the seek walk (C++ `struct Seek`): `insnIndex` starts at
`SIZE_MAX` and `prevInsnSeq` at `UINT32_MAX`. -/
structure SeekState where
  insnIndex : Nat
  prevInsnSeq : Nat
deriving DecidableEq

/-- Initial seek state. -/
def seekInit : SeekState := ⟨2 ^ 64 - 1, 2 ^ 32 - 1⟩

/-- Seek counter update (C++ `Seek::HandleInsnSeq`): a sequence number
different from the previous one advances `insnIndex` (with the `size_t`
wrap made explicit). -/
def SeekState.handleInsnSeq (s : SeekState) (insnSeq : Nat) : SeekState :=
  if insnSeq ≠ s.prevInsnSeq then ⟨(s.insnIndex + 1) % 2 ^ 64, insnSeq⟩ else s

/-- Sequence number a record contributes to the seek walk: the `LdSt`,
`InsnExec` and `LdStNx` entry classes carry one (the `Seek` visitor calls
`HandleInsnSeq` for them); `Insn` and `Mmap` do not. -/
def recordInsnSeq? : Record → Option Nat
  | .ldSt _ insnSeq _ _ => some insnSeq
  | .insn _ _ _ => none
  | .insnExec insnSeq => some insnSeq
  | .ldStNx _ insnSeq _ _ => some insnSeq
  | .mmap _ _ _ => none

/-- One record of the seek walk. -/
def SeekState.step (s : SeekState) (r : Record) : SeekState :=
  match recordInsnSeq? r with
  | some q => s.handleInsnSeq q
  | none => s

/-- Loop of `TraceMm::SeekInsn`: process records until `insnIndex` equals
the target, returning the index of the record the cursor is left at (the
cursor is moved back onto the matching record); `none` models the
"No such insn" failure at end of stream. -/
def seekLoop (s : SeekState) (index : Nat) : List Record → Option Nat
  | [] => none
  | r :: rest =>
    let s1 := s.step r
    if s1.insnIndex = index then some 0
    else (seekLoop s1 index rest).map (· + 1)

/-- Seek to dynamic instruction `index` (C++ `TraceMm::SeekInsn`), over the
records following the header. -/
def seekInsn (records : List Record) (index : Nat) : Option Nat :=
  seekLoop seekInit index records

/-! ### Helper lemmas on the builder -/

/-- Flushing never changes the number of trace entries. -/
theorem Ud.flush_trace_length (st : Ud) :
    (st.flush).trace.length = st.trace.length := by
  unfold Ud.flush
  cases h : st.trace.getLast? with
  | none => rfl
  | some last =>
    have hne : st.trace ≠ [] := by
      intro he
      rw [he] at h
      simp at h
    have hpos : 0 < st.trace.length := List.length_pos.mpr hne
    simp [List.length_dropLast]
    omega

/-- Successful per-address-space initialization yields empty streams and an
empty map. -/
theorem UdState.mkInit_eq (n : Nat) (s : UdState) (h : UdState.mkInit n = some s) :
    s.uses = [] ∧ s.defs = [] ∧ s.addressSpace = [] := by
  unfold UdState.mkInit at h
  cases hr : PartialUses.freshInit.reserve n with
  | none => rw [hr] at h; simp at h
  | some pu =>
    rw [hr] at h
    simp at h
    subst h
    exact ⟨rfl, rfl, rfl⟩

/-! ### Claim theorems (part 1: concrete runs and easy characterizations) -/

/-- Literal record stream of the section-8 end-to-end scenario (after the
header): PUT_REG seq=1 addr=0 4-byte value, INSN seq=1 pc=0x400000,
INSN_EXEC seq=1, GET_REG seq=2 addr=0 4-byte value, INSN_EXEC seq=2. -/
def c6Records : List Record :=
  [ .ldSt .putReg 1 0 4,
    .insn 1 4194304 [144],
    .insnExec 1,
    .ldSt .getReg 2 0 4,
    .insnExec 2 ]

/-- C6: building the ud graph from the section-8 little-endian 4-byte trace
yields trace length 3 (seed plus two dynamic instructions), code length 2,
register defs equal to the catch-all plus one def `[0,4)`, exactly one
register use, and `trace_for_reg_use(0) = 1`.  (`expectedInsnCount` is
`72 / 128 = 0` for the 72-byte literal file.) -/
theorem end_to_end_trace :
    ((buildUd (2 ^ 32) 0 c6Records).map fun g => g.trace.length) = some 3 ∧
    ((buildUd (2 ^ 32) 0 c6Records).map fun g => g.code.length) = some 2 ∧
    ((buildUd (2 ^ 32) 0 c6Records).map fun g => g.regState.defs) =
      some [⟨0, 2 ^ 32 - 1⟩, ⟨0, 4⟩] ∧
    ((buildUd (2 ^ 32) 0 c6Records).map fun g => g.regState.uses.length) =
      some 1 ∧
    ((buildUd (2 ^ 32) 0 c6Records).bind fun g => g.getTraceForRegUse 0) =
      some 1 :=
  ⟨by decide, by decide, by decide, by decide, by decide⟩

/-- C8: `AddDefs` succeeds exactly when the write overlaps at most 32 live
intervals; with more it returns the `-EINVAL` error before the map or the
defs vector is touched (the model returns `none` producing no state at
all). -/
theorem addDefs_cap (M : Nat) (st : UdState) (startAddr size : Nat) :
    (UdState.addDefs M st startAddr size).isSome ↔
      (affectedEntries st.addressSpace ((startAddr + 1) % M)
        ((startAddr + size) % M)).length ≤ 32 := by
  by_cases h : 32 < (affectedEntries st.addressSpace ((startAddr + 1) % M)
      ((startAddr + size) % M)).length
  · simp [UdState.addDefs, h]
  · simp [UdState.addDefs, h]
    omega

/-- C10: the builder detects a new instruction by comparing the record's
`insnSeq` with the `codeIndex` of the open trace entry: an equal value
leaves the state untouched, a different one flushes and opens a new entry;
the seed entry opened by `Init` has `codeIndex = 0`, so records with
`insnSeq = 0` at the start of the stream are merged into trace entry 0. -/
theorem handleInsnSeq_spec :
    (∀ (st : Ud) (insnSeq : Nat),
      ((st.trace.getLast?.getD default).codeIndex = insnSeq →
        st.handleInsnSeq insnSeq = st) ∧
      ((st.trace.getLast?.getD default).codeIndex ≠ insnSeq →
        st.handleInsnSeq insnSeq = st.flush.addTrace insnSeq ∧
        (st.handleInsnSeq insnSeq).trace.length = st.trace.length + 1)) ∧
    (∀ M e g, Ud.mkInit M e = some g →
      (g.trace.getLast?.getD default).codeIndex = 0 ∧
      g.handleInsnSeq 0 = g) := by
  constructor
  · intro st insnSeq
    constructor
    · intro h
      simp [Ud.handleInsnSeq, h]
    · intro h
      refine ⟨by simp [Ud.handleInsnSeq, h], ?_⟩
      simp [Ud.handleInsnSeq, h, Ud.addTrace, Ud.flush_trace_length]
  · intro M e g hg
    unfold Ud.mkInit at hg
    cases hreg : UdState.mkInit (e / 10) with
    | none => rw [hreg] at hg; simp at hg
    | some reg =>
      cases hmem : UdState.mkInit (e / 20) with
      | none => rw [hreg, hmem] at hg; simp at hg
      | some mem =>
        rw [hreg, hmem] at hg
        simp at hg
        obtain ⟨hru, _, _⟩ := UdState.mkInit_eq _ _ hreg
        obtain ⟨hmu, _, _⟩ := UdState.mkInit_eq _ _ hmem
        subst hg
        constructor
        · simp [Ud.addTrace]
        · simp [Ud.handleInsnSeq, Ud.addTrace]

/-- Concrete builder state used to witness C10. -/
def c10Ud : Ud :=
  { trace := [⟨0, 0, 0, 0, 0, 0, 0, 0, 0⟩], code := [⟨0, 0, 0⟩], text := [],
    regState := { uses := [], partialUses := PartialUses.freshInit,
                  defs := [], addressSpace := [] },
    memState := { uses := [], partialUses := PartialUses.freshInit,
                  defs := [], addressSpace := [] } }

/-- Witness for C10 at a concrete builder state: a matching `insnSeq` leaves
the state untouched, a differing one opens one new trace entry. -/
theorem handleInsnSeq_spec_witness :
    c10Ud.handleInsnSeq 0 = c10Ud ∧
    (c10Ud.handleInsnSeq 7).trace.length = c10Ud.trace.length + 1 :=
  ⟨(handleInsnSeq_spec.1 c10Ud 0).1 (by decide),
   ((handleInsnSeq_spec.1 c10Ud 7).2 (by decide)).2⟩

/-! ### Counterexamples -/

/-- Record stream for the C4 counterexample: one instruction that stores to
`[0,4)` and then loads `[0,4)` back. -/
def c4Records : List Record := [.ldSt .store 1 0 4, .ldSt .load 1 0 4]

/-- Counterexample to C4 as stated: in the graph built from `c4Records`,
memory use 0 is recorded while trace entry 1 is open (its use range is
`[0,1)`), yet `ResolveUse` yields producing trace index 1, not a strictly
smaller one: the load reads bytes its own instruction wrote. -/
theorem resolve_same_trace_cex :
    ((buildUd (2 ^ 32) 0 c4Records).map fun g =>
      ((g.trace.getD 1 default).memUseStartIndex,
       (g.trace.getD 1 default).memUseEndIndex)) = some (0, 1) ∧
    ((buildUd (2 ^ 32) 0 c4Records).bind fun g => g.getTraceForMemUse 0) =
      some 1 ∧
    ¬(1 < 1) :=
  ⟨by decide, by decide, by decide⟩

/-- Counterexample to C5 as stated: the catch-all installed by `Init` is
`Def(0, 2^(8W) - 1)` (from `std::numeric_limits<W>::max()`), not
`Def(0, 2^(8W))`; shown for `W = 4` in both address spaces. -/
theorem catchall_def_cex :
    (Ud.mkInit (2 ^ 32) 0).map (fun g => g.regState.defs) =
      some [⟨0, 2 ^ 32 - 1⟩] ∧
    (Ud.mkInit (2 ^ 32) 0).map (fun g => g.memState.defs) =
      some [⟨0, 2 ^ 32 - 1⟩] ∧
    (⟨0, 2 ^ 32 - 1⟩ : Def) ≠ ⟨0, 2 ^ 32⟩ :=
  ⟨by decide, by decide, by decide⟩

/-- State for the C2 counterexample: one live interval `[0, 10)` owned by
def 0. -/
def c2State : UdState :=
  { uses := [], partialUses := PartialUses.freshInit, defs := [⟨0, 10⟩],
    addressSpace := [(10, ⟨0, 0⟩)] }

/-- Counterexample to C2 as stated: `AddDefs(4, 0)` on the live interval
`[0, 10)` is an inner overlap per the claim's case split (`4 > 0` and
`4 < 10`), so the claim requires both residues `[0, 4)` and `[4, 10)` to
remain with the old def; the code instead overwrites the `[0, 4)` residue
when `AddDef` inserts the empty range `[4, 4)` under the same key 4, so no
interval starting at 0 survives. -/
theorem addDefs_zero_size_cex :
    ((UdState.addDefs (2 ^ 32) c2State 4 0).map fun s => s.addressSpace) =
      some [(4, ⟨4, 1⟩), (10, ⟨4, 0⟩)] ∧
    ((UdState.addDefs (2 ^ 32) c2State 4 0).map fun s =>
      decide (∀ en ∈ s.addressSpace,
        ¬(en.2.startAddr = 0 ∧ en.1 = 4 ∧ en.2.defIndex = 0))) = some true :=
  ⟨by decide, by decide⟩

/-- Tags the C7 claim text lists as advancing the seek counter (`REG` is
absent from the list). -/
def claimSeqTag : Tag → Bool
  | .load => true
  | .store => true
  | .getReg => true
  | .putReg => true
  | .insnExec => true
  | .getRegNx => true
  | .putRegNx => true
  | _ => false

/-- Modelled from the claim: the sequence number a record contributes to the
walk according to C7's tag list (`MMAP` and `INSN` never advance, and `REG`
is not listed either). -/
def claimRecordInsnSeq? : Record → Option Nat
  | .ldSt tag insnSeq _ _ => if claimSeqTag tag then some insnSeq else none
  | .insn _ _ _ => none
  | .insnExec insnSeq => some insnSeq
  | .ldStNx tag insnSeq _ _ => if claimSeqTag tag then some insnSeq else none
  | .mmap _ _ _ => none

/-- Modelled from the claim: one record of the walk described by C7. -/
def claimSeekStep (s : SeekState) (r : Record) : SeekState :=
  match claimRecordInsnSeq? r with
  | some q => s.handleInsnSeq q
  | none => s

/-- Modelled from the claim: the seek loop described by C7. -/
def claimSeekLoop (s : SeekState) (index : Nat) : List Record → Option Nat
  | [] => none
  | r :: rest =>
    let s1 := claimSeekStep s r
    if s1.insnIndex = index then some 0
    else (claimSeekLoop s1 index rest).map (· + 1)

/-- Modelled from the claim: seeking as described by C7. -/
def claimSeekInsn (records : List Record) (index : Nat) : Option Nat :=
  claimSeekLoop seekInit index records

/-- Counterexample to C7 as stated: a `REG` (0x5252) record also carries an
`insnSeq` and advances `insnIndex` (it is decoded as an `LdStEntry`), but
C7's tag list omits it: on the one-record stream `[REG seq=7]` the code's
seek finds instruction 0 at record 0 while the walk described by the claim
reports not-found. -/
theorem seek_reg_tag_cex :
    seekInsn [.ldSt .reg 7 0 0] 0 = some 0 ∧
    claimSeekInsn [.ldSt .reg 7 0 0] 0 = none :=
  ⟨by decide, by decide⟩

/-- Counterexample to C9 as stated: `reserve 0` (reachable from
`UdState::Init` whenever `expectedInsnCount / 10 = 0`, i.e. for any trace
file shorter than 1280 bytes) makes the table size 1, which is neither
prime nor at least 11; and `reserve 1` makes the size 3 although the least
prime greater than or equal to `2 * 1` is 2. -/
theorem reserve_small_cex :
    (PartialUses.freshInit.reserve 0).map (fun t => t.entries.length) =
      some 1 ∧
    (UdState.mkInit 0).map (fun s => s.partialUses.entries.length) =
      some 1 ∧
    ¬Nat.Prime 1 ∧
    ¬(11 ≤ 1) ∧
    (PartialUses.freshInit.reserve 1).map (fun t => t.entries.length) =
      some 3 ∧
    Nat.Prime 2 ∧ 2 * 1 ≤ 2 ∧ ¬(3 ≤ 2) :=
  ⟨by decide, by decide, Nat.not_prime_one, by decide, by decide,
   Nat.prime_two, by decide, by decide⟩

/-! ### Hash-table machinery: list index helpers -/

/-- Index into a dropped list. -/
theorem getD_drop {α : Type} [Inhabited α] (l : List α) (i j : Nat) :
    (l.drop i).getD j default = l.getD (i + j) default := by
  induction i generalizing l with
  | zero => simp
  | succ i ih =>
    cases l with
    | nil => simp
    | cons a as =>
      have : i + 1 + j = (i + j) + 1 := by omega
      rw [this]
      simp only [List.drop_succ_cons, List.getD_cons_succ]
      exact ih as

/-- Index into a taken prefix, below the cut. -/
theorem getD_take {α : Type} [Inhabited α] (l : List α) (i j : Nat)
    (h : j < i) : (l.take i).getD j default = l.getD j default := by
  induction l generalizing i j with
  | nil => simp
  | cons a as ih =>
    cases i with
    | zero => omega
    | succ i =>
      cases j with
      | zero => simp
      | succ j =>
        simp only [List.take_succ_cons, List.getD_cons_succ]
        exact ih i j (by omega)

/-- Writing one slot leaves the others unchanged. -/
theorem getD_set_ne {α : Type} [Inhabited α] (l : List α) (i j : Nat) (x : α)
    (h : i ≠ j) : (l.set i x).getD j default = l.getD j default := by
  induction l generalizing i j with
  | nil => simp
  | cons a as ih =>
    cases i with
    | zero =>
      cases j with
      | zero => omega
      | succ j => simp
    | succ i =>
      cases j with
      | zero => simp
      | succ j =>
        simp only [List.set_cons_succ, List.getD_cons_succ]
        exact ih i j (by omega)

/-- Reading back the written slot. -/
theorem getD_set_self {α : Type} [Inhabited α] (l : List α) (i : Nat) (x : α)
    (h : i < l.length) : (l.set i x).getD i default = x := by
  induction l generalizing i with
  | nil => simp at h
  | cons a as ih =>
    cases i with
    | zero => simp
    | succ i =>
      simp only [List.set_cons_succ, List.getD_cons_succ]
      exact ih i (by simpa using h)

/-! ### Hash-table machinery: scan characterization -/

/-- Elimination for a successful scan: the found slot matches and nothing
before it does. -/
theorem scan_eq_some (u : Nat) (l : List PartialUse) (j : Nat)
    (h : scanPartialUses u l = some j) :
    j < l.length ∧ puMatches u (l.getD j default) = true ∧
    ∀ i, i < j → puMatches u (l.getD i default) = false := by
  induction l generalizing j with
  | nil => simp [scanPartialUses] at h
  | cons pu rest ih =>
    by_cases hm : puMatches u pu
    · simp [scanPartialUses, hm] at h
      subst h
      exact ⟨by simp, by simpa using hm, by omega⟩
    · simp [scanPartialUses, hm] at h
      obtain ⟨j', hj', rfl⟩ := h
      obtain ⟨h1, h2, h3⟩ := ih j' hj'
      refine ⟨by simpa using h1, by simpa using h2, ?_⟩
      intro i hi
      cases i with
      | zero => simpa using hm
      | succ i =>
        simpa using h3 i (by omega)

/-- Elimination for a failed scan: nothing matches. -/
theorem scan_eq_none (u : Nat) (l : List PartialUse)
    (h : scanPartialUses u l = none) :
    ∀ i, i < l.length → puMatches u (l.getD i default) = false := by
  induction l with
  | nil => intro i hi; simp at hi
  | cons pu rest ih =>
    by_cases hm : puMatches u pu
    · simp [scanPartialUses, hm] at h
    · simp [scanPartialUses, hm] at h
      intro i hi
      cases i with
      | zero => simpa using hm
      | succ i => simpa using ih h i (by simpa using hi)

/-- Introduction for the scan: the first matching slot is found. -/
theorem scan_intro (u : Nat) (l : List PartialUse) (j : Nat)
    (hj : j < l.length) (hm : puMatches u (l.getD j default) = true)
    (hpre : ∀ i, i < j → puMatches u (l.getD i default) = false) :
    scanPartialUses u l = some j := by
  induction l generalizing j with
  | nil => simp at hj
  | cons pu rest ih =>
    cases j with
    | zero =>
      simp only [List.getD_cons_zero] at hm
      simp [scanPartialUses, hm]
    | succ j =>
      have h0 : puMatches u pu = false := by simpa using hpre 0 (by omega)
      simp only [scanPartialUses, h0, if_neg (by simp [h0] : ¬puMatches u pu = true)]
      rw [ih j (by simpa using hj) (by simpa using hm)
        (fun i hi => by simpa using hpre (i + 1) (by omega))]
      rfl

/-- Probe distance from the hash position `i` to slot `x` in a table of `n`
slots: the number of steps the wrapping linear scan takes to reach `x`. -/
def probeDist (n i x : Nat) : Nat := if i ≤ x then x - i else x + n - i

/-- Probe distances identify slots. -/
theorem probeDist_inj (n i a b : Nat) (hi : i < n) (ha : a < n) (hb : b < n)
    (h : probeDist n i a = probeDist n i b) : a = b := by
  unfold probeDist at h
  split at h <;> split at h <;> omega

/-- Elimination for a successful probe: the found slot matches and every
slot at a strictly smaller probe distance does not. -/
theorem findPartialUse_some_char (entries : List PartialUse) (u a : Nat)
    (h : findPartialUse entries u = some a) :
    a < entries.length ∧ puMatches u (entries.getD a default) = true ∧
    ∀ b, b < entries.length →
      probeDist entries.length (u % entries.length) b <
        probeDist entries.length (u % entries.length) a →
      puMatches u (entries.getD b default) = false := by
  simp only [findPartialUse] at h
  cases hd : scanPartialUses u (entries.drop (u % entries.length)) with
  | some j =>
    rw [hd] at h
    simp at h
    subst h
    obtain ⟨hj, hm, hpre⟩ := scan_eq_some _ _ _ hd
    rw [List.length_drop] at hj
    rw [getD_drop] at hm
    refine ⟨by omega, hm, ?_⟩
    intro b hb hdist
    have hdista : probeDist entries.length (u % entries.length)
        (u % entries.length + j) = j := by
      unfold probeDist
      split <;> omega
    rw [hdista] at hdist
    by_cases hbi : u % entries.length ≤ b
    · have : b - u % entries.length < j := by
        unfold probeDist at hdist
        split at hdist <;> omega
      have := hpre (b - u % entries.length) this
      rw [getD_drop] at this
      have heq : u % entries.length + (b - u % entries.length) = b := by omega
      rwa [heq] at this
    · exfalso
      unfold probeDist at hdist
      split at hdist <;> omega
  | none =>
    rw [hd] at h
    have hnone := scan_eq_none _ _ hd
    obtain ⟨ha, hm, hpre⟩ := scan_eq_some _ _ _ h
    rw [List.length_take] at ha
    have hai : a < u % entries.length := by omega
    have han : a < entries.length := by omega
    rw [getD_take _ _ _ hai] at hm
    refine ⟨han, hm, ?_⟩
    intro b hb hdist
    by_cases hbi : u % entries.length ≤ b
    · have hj := hnone (b - u % entries.length)
        (by rw [List.length_drop]; omega)
      rw [getD_drop] at hj
      have heq : u % entries.length + (b - u % entries.length) = b := by omega
      rwa [heq] at hj
    · have hba : b < a := by
        unfold probeDist at hdist
        split at hdist <;> split at hdist <;> omega
      have := hpre b hba
      rwa [getD_take _ _ _ (by omega)] at this

/-- Elimination for a failed probe: no slot matches at all. -/
theorem findPartialUse_none_char (entries : List PartialUse) (u : Nat)
    (h : findPartialUse entries u = none) :
    ∀ b, b < entries.length → puMatches u (entries.getD b default) = false := by
  simp only [findPartialUse] at h
  cases hd : scanPartialUses u (entries.drop (u % entries.length)) with
  | some j => rw [hd] at h; simp at h
  | none =>
    rw [hd] at h
    have hdnone := scan_eq_none _ _ hd
    have htnone := scan_eq_none _ _ h
    intro b hb
    by_cases hbi : u % entries.length ≤ b
    · have hj := hdnone (b - u % entries.length)
        (by rw [List.length_drop]; omega)
      rw [getD_drop] at hj
      have heq : u % entries.length + (b - u % entries.length) = b := by omega
      rwa [heq] at hj
    · have hj := htnone b (by rw [List.length_take]; omega)
      rwa [getD_take _ _ _ (by omega)] at hj

/-- Introduction for the probe: a matching slot with no earlier match in
probe order is found. -/
theorem findPartialUse_intro (entries : List PartialUse) (u a : Nat)
    (ha : a < entries.length) (hm : puMatches u (entries.getD a default) = true)
    (hpre : ∀ b, b < entries.length →
      probeDist entries.length (u % entries.length) b <
        probeDist entries.length (u % entries.length) a →
      puMatches u (entries.getD b default) = false) :
    findPartialUse entries u = some a := by
  cases hf : findPartialUse entries u with
  | none =>
    have := findPartialUse_none_char _ _ hf a ha
    rw [hm] at this
    exact absurd this (by simp)
  | some a' =>
    obtain ⟨ha', hm', hpre'⟩ := findPartialUse_some_char _ _ _ hf
    have hin : u % entries.length < entries.length := Nat.mod_lt _ (by omega)
    rcases Nat.lt_trichotomy
        (probeDist entries.length (u % entries.length) a')
        (probeDist entries.length (u % entries.length) a) with hlt | heq | hgt
    · have := hpre a' ha' hlt
      rw [hm'] at this
      exact absurd this (by simp)
    · rw [probeDist_inj _ _ _ _ hin ha' ha heq]
    · have := hpre' a ha hgt
      rw [hm] at this
      exact absurd this (by simp)

/-! ### Hash-table machinery: the invariant and its consequences -/

/-- Abstract content of a slot vector: the value stored under a key (the
first slot holding it). -/
def keyLookup (entries : List PartialUse) (k : Nat) : Option Def :=
  (entries.find? fun pu => pu.first == k).map fun pu => pu.second

/-- Number of occupied slots. -/
def occupiedCount : List PartialUse → Nat
  | [] => 0
  | pu :: rest => (if pu.first = kEmpty then 0 else 1) + occupiedCount rest

/-- Probe invariant: every occupied slot is the one its key's probe
reaches. -/
def foundAll (entries : List PartialUse) : Prop :=
  ∀ s, s < entries.length → (entries.getD s default).first ≠ kEmpty →
    findPartialUse entries ((entries.getD s default).first) = some s

/-- Invariant of the open-addressed partial-use table. -/
def tableWF (t : PartialUses) : Prop :=
  0 < t.entries.length ∧
  t.maxLoad = t.entries.length / 2 ∧
  t.load = occupiedCount t.entries ∧
  t.load ≤ t.maxLoad ∧
  foundAll t.entries

/-- Occupied slots hold pairwise distinct keys under the probe invariant. -/
theorem foundAll_nodup (entries : List PartialUse) (hf : foundAll entries)
    (s s' : Nat) (hs : s < entries.length) (hs' : s' < entries.length)
    (hne : (entries.getD s default).first ≠ kEmpty)
    (heq : (entries.getD s default).first = (entries.getD s' default).first) :
    s = s' := by
  have h1 := hf s hs hne
  have h2 := hf s' hs' (by rw [← heq]; exact hne)
  rw [← heq] at h2
  rw [h1] at h2
  exact Option.some_injective _ h2

/-- Lookup misses when no slot holds the key. -/
theorem keyLookup_eq_none (entries : List PartialUse) (k : Nat)
    (h : ∀ s, s < entries.length → (entries.getD s default).first ≠ k) :
    keyLookup entries k = none := by
  unfold keyLookup
  rw [List.find?_eq_none.mpr]
  · rfl
  · intro pu hmem
    obtain ⟨s, hs, rfl⟩ := List.mem_iff_getElem.mp hmem
    have := h s hs
    rw [List.getD_eq_getElem _ _ hs] at this
    simpa using this

/-- Lookup hits the unique slot holding the key. -/
theorem keyLookup_eq_some (entries : List PartialUse) (k : Nat) (s : Nat)
    (hs : s < entries.length) (hk : (entries.getD s default).first = k)
    (huniq : ∀ s', s' < entries.length → s' ≠ s →
      (entries.getD s' default).first ≠ k) :
    keyLookup entries k = some (entries.getD s default).second := by
  induction entries generalizing s with
  | nil => simp at hs
  | cons pu rest ih =>
    cases s with
    | zero =>
      simp only [List.getD_cons_zero] at hk
      simp only [keyLookup, List.getD_cons_zero]
      rw [List.find?_cons_of_pos _ (by simpa using hk)]
      rfl
    | succ s =>
      have h0 : pu.first ≠ k := by
        have := huniq 0 (by omega) (by omega)
        simpa using this
      simp only [keyLookup, List.getD_cons_succ] at ih ⊢
      rw [List.find?_cons_of_neg _ (by simpa using h0)]
      simp only [List.getD_cons_succ] at hk
      exact ih s (by simpa using hs) hk
        (fun s' hs' hne => by
          have := huniq (s' + 1) (by simp only [List.length_cons]; omega)
            (by omega)
          simpa using this)

/-- Setting a slot whose occupancy status does not change preserves the
occupied count. -/
theorem occ_set_same (entries : List PartialUse) (i : Nat) (x : PartialUse)
    (h : (x.first = kEmpty) ↔ ((entries.getD i default).first = kEmpty)) :
    occupiedCount (entries.set i x) = occupiedCount entries := by
  induction entries generalizing i with
  | nil => simp
  | cons pu rest ih =>
    cases i with
    | zero =>
      simp only [List.getD_cons_zero] at h
      simp only [List.set_cons_zero, occupiedCount]
      by_cases hx : x.first = kEmpty
      · rw [if_pos hx, if_pos (h.mp hx)]
      · rw [if_neg hx, if_neg (fun hc => hx (h.mpr hc))]
    | succ i =>
      simp only [List.getD_cons_succ] at h
      simp only [List.set_cons_succ, occupiedCount]
      rw [ih i h]

/-- Filling an empty slot with an occupied entry adds one to the occupied
count. -/
theorem occ_set_fill (entries : List PartialUse) (i : Nat) (x : PartialUse)
    (hi : i < entries.length)
    (hold : (entries.getD i default).first = kEmpty)
    (hnew : x.first ≠ kEmpty) :
    occupiedCount (entries.set i x) = occupiedCount entries + 1 := by
  induction entries generalizing i with
  | nil => simp at hi
  | cons pu rest ih =>
    cases i with
    | zero =>
      simp only [List.getD_cons_zero] at hold
      simp only [List.set_cons_zero, occupiedCount]
      rw [if_pos hold, if_neg hnew]
      omega
    | succ i =>
      simp only [List.getD_cons_succ] at hold
      simp only [List.set_cons_succ, occupiedCount]
      rw [ih i (by simpa using hi) hold]
      omega

/-- A table with fewer occupied slots than slots has an empty slot. -/
theorem exists_empty_slot (entries : List PartialUse)
    (h : occupiedCount entries < entries.length) :
    ∃ e, e < entries.length ∧ (entries.getD e default).first = kEmpty := by
  induction entries with
  | nil => simp at h
  | cons pu rest ih =>
    by_cases hp : pu.first = kEmpty
    · exact ⟨0, by simp, by simpa using hp⟩
    · have : occupiedCount (pu :: rest) = occupiedCount rest + 1 := by
        simp only [occupiedCount]
        rw [if_neg hp]
        omega
      rw [this] at h
      obtain ⟨e, he, hke⟩ := ih (by simpa using h)
      exact ⟨e + 1, by simpa using he, by simpa using hke⟩

/-- Probe matching only inspects the key of a slot. -/
theorem puMatches_congr (u : Nat) (x y : PartialUse) (h : x.first = y.first) :
    puMatches u x = puMatches u y := by
  unfold puMatches
  rw [h]

/-- The probe only inspects slot keys. -/
theorem findPartialUse_congr (l l' : List PartialUse) (u : Nat)
    (hlen : l.length = l'.length)
    (hfst : ∀ b, b < l.length →
      (l.getD b default).first = (l'.getD b default).first) :
    findPartialUse l u = findPartialUse l' u := by
  cases hf : findPartialUse l u with
  | some a =>
    obtain ⟨ha, hm, hpre⟩ := findPartialUse_some_char _ _ _ hf
    refine (findPartialUse_intro l' u a (hlen ▸ ha) ?_ ?_).symm
    · rw [← puMatches_congr u _ _ (hfst a ha)]
      exact hm
    · intro b hb hd
      rw [← puMatches_congr u _ _ (hfst b (hlen ▸ hb))]
      exact hpre b (hlen ▸ hb) (by rw [hlen]; exact hd)
  | none =>
    cases hf' : findPartialUse l' u with
    | none => rfl
    | some a =>
      obtain ⟨ha, hm, _⟩ := findPartialUse_some_char _ _ _ hf'
      have := findPartialUse_none_char _ _ hf a (hlen ▸ ha)
      rw [puMatches_congr u _ _ (hfst a (hlen ▸ ha))] at this
      rw [hm] at this
      exact absurd this (by simp)

/-- The probe finds an occupied slot by its key. -/
theorem find_present (l : List PartialUse) (hfound : foundAll l) (u s : Nat)
    (hu : u ≠ kEmpty) (hs : s < l.length)
    (hk : (l.getD s default).first = u) :
    findPartialUse l u = some s := by
  have := hfound s hs (by rw [hk]; exact hu)
  rwa [hk] at this

/-- On an absent key the probe lands on an empty slot (some slot is empty
because the table is not full). -/
theorem find_absent (l : List PartialUse) (hfound : foundAll l) (u : Nat)
    (hroom : occupiedCount l < l.length)
    (habs : ∀ s, s < l.length → (l.getD s default).first ≠ u) :
    ∃ e, findPartialUse l u = some e ∧ e < l.length ∧
      (l.getD e default).first = kEmpty := by
  obtain ⟨e0, he0, hke0⟩ := exists_empty_slot l hroom
  cases hf : findPartialUse l u with
  | none =>
    have hfalse := findPartialUse_none_char _ _ hf e0 he0
    have htrue : puMatches u (l.getD e0 default) = true := by
      unfold puMatches
      rw [hke0]
      simp
    rw [htrue] at hfalse
    exact absurd hfalse (by simp)
  | some a =>
    obtain ⟨ha, hm, _⟩ := findPartialUse_some_char _ _ _ hf
    simp only [puMatches, Bool.or_eq_true, beq_iff_eq] at hm
    cases hm with
    | inl h => exact absurd h (habs a ha)
    | inr h => exact ⟨a, rfl, ha, h⟩

/-- Filling the empty slot the probe found for an absent key preserves the
probe invariant. -/
theorem foundAll_fill (l : List PartialUse) (u e : Nat) (d2 : Def)
    (hfound : foundAll l) (hu : u ≠ kEmpty)
    (habs : ∀ s, s < l.length → (l.getD s default).first ≠ u)
    (hfs : findPartialUse l u = some e)
    (hemp : (l.getD e default).first = kEmpty) :
    foundAll (l.set e ⟨u, d2⟩) := by
  obtain ⟨he, _, hpre⟩ := findPartialUse_some_char _ _ _ hfs
  intro s hs hne
  rw [List.length_set] at hs
  by_cases hse : s = e
  · rw [hse] at hne ⊢
    rw [getD_set_self _ _ _ he] at hne ⊢
    refine findPartialUse_intro _ _ _ (by rw [List.length_set]; exact he) ?_ ?_
    · rw [getD_set_self _ _ _ he]
      simp [puMatches]
    · intro b hb hd
      rw [List.length_set] at hb hd
      have hbe : b ≠ e := by
        intro hbe
        rw [hbe] at hd
        exact Nat.lt_irrefl _ hd
      rw [getD_set_ne _ _ _ _ (fun hc => hbe hc.symm)]
      exact hpre b hb hd
  · rw [getD_set_ne _ _ _ _ (fun hc => hse hc.symm)] at hne ⊢
    have hkey := hfound s hs hne
    obtain ⟨_, hm, hpre'⟩ := findPartialUse_some_char _ _ _ hkey
    refine findPartialUse_intro _ _ _ (by rw [List.length_set]; exact hs) ?_ ?_
    · rw [getD_set_ne _ _ _ _ (fun hc => hse hc.symm)]
      exact hm
    · intro b hb hd
      rw [List.length_set] at hb hd
      have hbe : b ≠ e := by
        intro hbe
        have hfalse := hpre' b hb hd
        rw [hbe] at hfalse
        have htrue : puMatches ((l.getD s default).first)
            (l.getD e default) = true := by
          unfold puMatches
          rw [hemp]
          simp
        rw [htrue] at hfalse
        exact absurd hfalse (by simp)
      rw [getD_set_ne _ _ _ _ (fun hc => hbe hc.symm)]
      exact hpre' b hb hd

/-- Overwriting a slot with an entry of the same key preserves the probe
invariant. -/
theorem foundAll_overwrite (l : List PartialUse) (s : Nat) (x : PartialUse)
    (hfound : foundAll l) (hs : s < l.length)
    (hfirst : x.first = (l.getD s default).first) :
    foundAll (l.set s x) := by
  intro b hb hne
  rw [List.length_set] at hb
  have hcongr := findPartialUse_congr (l.set s x) l
    ((l.set s x).getD b default).first
    (by rw [List.length_set])
    (fun c hc => by
      rw [List.length_set] at hc
      by_cases hcs : c = s
      · rw [hcs, getD_set_self _ _ _ hs, hfirst]
      · rw [getD_set_ne _ _ _ _ (fun h => hcs h.symm)])
  rw [hcongr]
  by_cases hbs : b = s
  · rw [hbs] at hne ⊢
    rw [getD_set_self _ _ _ hs, hfirst] at hne ⊢
    exact hfound s hs hne
  · rw [getD_set_ne _ _ _ _ (fun h => hbs h.symm)] at hne ⊢
    exact hfound b hb hne

/-- First-match-wins choice between two optional values. -/
def optOr {α : Type} : Option α → Option α → Option α
  | some v, _ => some v
  | none, o => o

/-- Lookup skips a slot holding a different key. -/
theorem keyLookup_cons_of_ne (pu : PartialUse) (rest : List PartialUse)
    (k : Nat) (h : pu.first ≠ k) :
    keyLookup (pu :: rest) k = keyLookup rest k := by
  unfold keyLookup
  rw [List.find?_cons_of_neg _ (by simpa using h)]

/-- Lookup stops at a slot holding the key. -/
theorem keyLookup_cons_self (pu : PartialUse) (rest : List PartialUse)
    (k : Nat) (h : pu.first = k) :
    keyLookup (pu :: rest) k = some pu.second := by
  unfold keyLookup
  rw [List.find?_cons_of_pos _ (by simpa using h)]
  rfl

/-- Setting a slot that holds neither `k` before nor after leaves the
lookup of `k` unchanged. -/
theorem keyLookup_set_irrel (l : List PartialUse) (i : Nat) (x : PartialUse)
    (k : Nat) (hold : (l.getD i default).first ≠ k) (hnew : x.first ≠ k) :
    keyLookup (l.set i x) k = keyLookup l k := by
  induction l generalizing i with
  | nil => rfl
  | cons pu rest ih =>
    cases i with
    | zero =>
      simp only [List.getD_cons_zero] at hold
      rw [List.set_cons_zero, keyLookup_cons_of_ne _ _ _ hnew,
        keyLookup_cons_of_ne _ _ _ hold]
    | succ i =>
      simp only [List.getD_cons_succ] at hold
      rw [List.set_cons_succ]
      by_cases hp : pu.first = k
      · rw [keyLookup_cons_self _ _ _ hp, keyLookup_cons_self _ _ _ hp]
      · rw [keyLookup_cons_of_ne _ _ _ hp, keyLookup_cons_of_ne _ _ _ hp]
        exact ih i hold

/-- Reinsertion of a list of slots with pairwise-distinct non-empty keys
into a table with room: the fold of `PartialUses.reserve` succeeds,
preserves the probe invariant, and the resulting content is the union of
the reinserted entries and the accumulator. -/
theorem rehashFold_spec (src : List PartialUse) : ∀ (acc : List PartialUse),
    (∀ i j, i < src.length → j < src.length → i ≠ j →
      (src.getD i default).first ≠ kEmpty →
      (src.getD i default).first ≠ (src.getD j default).first) →
    foundAll acc →
    occupiedCount acc + occupiedCount src < acc.length →
    (∀ k, k ≠ kEmpty →
      (∃ i, i < src.length ∧ (src.getD i default).first = k) →
      ∀ s, s < acc.length → (acc.getD s default).first ≠ k) →
    ∃ es, (src.foldlM (fun acc2 old =>
        if old.first = kEmpty then some acc2 else puRehashInsert acc2 old) acc)
      = some es ∧
      es.length = acc.length ∧ foundAll es ∧
      occupiedCount es = occupiedCount acc + occupiedCount src ∧
      ∀ k, k ≠ kEmpty →
        keyLookup es k = optOr (keyLookup src k) (keyLookup acc k) := by
  induction src with
  | nil =>
    intro acc _ hfound hroom _
    refine ⟨acc, by simp, rfl, hfound, by simp [occupiedCount], ?_⟩
    intro k _
    simp [keyLookup, optOr]
  | cons pu rest ih =>
    intro acc hnodup hfound hroom hdisj
    have hlc : (pu :: rest).length = rest.length + 1 := List.length_cons _ _
    by_cases hp : pu.first = kEmpty
    · have hocc : occupiedCount (pu :: rest) = occupiedCount rest := by
        simp [occupiedCount, hp]
      obtain ⟨es, hes, hlen, hfnd, hocc2, hlk⟩ := ih acc
        (fun i j hi hj hij hne => by
          have := hnodup (i + 1) (j + 1) (by omega) (by omega) (by omega)
            (by simpa using hne)
          simpa using this)
        hfound (by rw [hocc] at hroom; exact hroom)
        (fun k hk hex => by
          obtain ⟨i, hi, hki⟩ := hex
          exact hdisj k hk ⟨i + 1, by simpa using Nat.succ_lt_succ hi,
            by simpa using hki⟩)
      refine ⟨es, ?_, hlen, hfnd, ?_, ?_⟩
      · rw [List.foldlM_cons, if_pos hp]
        simpa using hes
      · rw [hocc]
        exact hocc2
      · intro k hk
        rw [hlk k hk, keyLookup_cons_of_ne _ _ _
          (fun h => hk ((hp.symm.trans h).symm))]
    · have hocc : occupiedCount (pu :: rest) = 1 + occupiedCount rest := by
        simp [occupiedCount, hp]
      have habs : ∀ s, s < acc.length → (acc.getD s default).first ≠ pu.first :=
        hdisj pu.first hp ⟨0, by omega, by simp⟩
      have hroom0 : occupiedCount acc < acc.length := by
        rw [hocc] at hroom
        omega
      obtain ⟨e, hfe, he, hke⟩ := find_absent acc hfound pu.first hroom0 habs
      have hinsert : puRehashInsert acc pu = some (acc.set e pu) := by
        simp only [puRehashInsert, hfe]
        rw [if_pos hke]
      have heta : (⟨pu.first, pu.second⟩ : PartialUse) = pu := rfl
      have hfound2 : foundAll (acc.set e pu) := by
        have := foundAll_fill acc pu.first e pu.second hfound hp habs hfe hke
        rwa [heta] at this
      have hlen2 : (acc.set e pu).length = acc.length := List.length_set _ _ _
      have hocc2a : occupiedCount (acc.set e pu) = occupiedCount acc + 1 :=
        occ_set_fill acc e pu he hke hp
      obtain ⟨es, hes, hlen3, hfnd, hocc3, hlk⟩ := ih (acc.set e pu)
        (fun i j hi hj hij hne => by
          have := hnodup (i + 1) (j + 1) (by omega) (by omega) (by omega)
            (by simpa using hne)
          simpa using this)
        hfound2
        (by rw [hlen2, hocc2a]; rw [hocc] at hroom; omega)
        (fun k hk hex => by
          obtain ⟨i, hi, hki⟩ := hex
          intro s hsl
          rw [hlen2] at hsl
          by_cases hse : s = e
          · rw [hse, getD_set_self _ _ _ he]
            have := hnodup (i + 1) 0 (by omega) (by omega) (by omega)
              (by simpa using (hki ▸ hk : (rest.getD i default).first ≠ kEmpty))
            simp only [List.getD_cons_succ, List.getD_cons_zero] at this
            rw [hki] at this
            exact this.symm
          · rw [getD_set_ne _ _ _ _ (fun h => hse h.symm)]
            exact hdisj k hk ⟨i + 1, by simpa using Nat.succ_lt_succ hi,
              by simpa using hki⟩ s hsl)
      refine ⟨es, ?_, by rw [hlen3, hlen2], hfnd, ?_, ?_⟩
      · rw [List.foldlM_cons, if_neg hp, hinsert]
        simpa using hes
      · rw [hocc3, hocc2a, hocc]
        omega
      · intro k hk
        rw [hlk k hk]
        by_cases hkp : k = pu.first
        · rw [keyLookup_cons_self _ _ _ hkp.symm]
          have hrest : keyLookup rest k = none := by
            apply keyLookup_eq_none
            intro s hsl
            have := hnodup 0 (s + 1) (by omega) (by omega) (by omega) (by simpa using hp)
            simp only [List.getD_cons_zero, List.getD_cons_succ] at this
            rw [hkp]
            exact fun h => this h.symm
          have hacc' : keyLookup (acc.set e pu) k = some pu.second := by
            have := keyLookup_eq_some (acc.set e pu) k e
              (by rw [hlen2]; exact he)
              (by rw [getD_set_self _ _ _ he]; exact hkp.symm)
              (fun s' hs' hne => by
                rw [hlen2] at hs'
                rw [getD_set_ne _ _ _ _ (fun h => hne h.symm), hkp]
                exact habs s' hs')
            rwa [getD_set_self _ _ _ he] at this
          rw [hrest, hacc']
          rfl
        · rw [keyLookup_cons_of_ne _ _ _ (fun h => hkp h.symm)]
          rw [keyLookup_set_irrel acc e pu k (by rw [hke]; exact fun h => hk h.symm)
            (fun h => hkp h.symm)]

/-! ### Properties of the prime search -/

/-- Bitwise `or` with 1 forces the low bit. -/
theorem or_one_eq (v : Nat) : v ||| 1 = 2 * (v / 2) + 1 := by
  have h1 : v = Nat.bit (Nat.bodd v) (Nat.div2 v) := (Nat.bit_decomp v).symm
  have h2 : (1 : Nat) = Nat.bit true 0 := rfl
  rw [h1, h2, Nat.lor_bit]
  simp [Nat.bit, Nat.div2_val]
  cases hb : Nat.bodd v <;> simp [Nat.bit] <;> omega

/-- The candidate search never goes below its start. -/
theorem gSearch_ge (fuel : Nat) : ∀ x, x ≤ gSearch fuel x := by
  induction fuel with
  | zero => intro x; simp [gSearch]
  | succ fuel ih =>
    intro x
    simp only [gSearch]
    split
    · exact Nat.le_refl x
    · exact Nat.le_trans (by omega) (ih (x + 2))

/-- `GetFirstPrimeGreaterThanOrEqualTo` never returns below its argument. -/
theorem getFirstPrime_ge (value : Nat) :
    value ≤ getFirstPrimeGreaterThanOrEqualTo value := by
  unfold getFirstPrimeGreaterThanOrEqualTo
  exact Nat.le_trans (by rw [or_one_eq]; omega) (gSearch_ge _ _)

/-- Correctness of the trial-division primality test. -/
theorem isPrimeB_iff (p : Nat) : isPrimeB p = true ↔ Nat.Prime p := by
  rw [Nat.prime_def_lt]
  unfold isPrimeB
  simp only [Bool.and_eq_true, decide_eq_true_eq, List.all_eq_true,
    List.mem_range, Bool.not_eq_true', Bool.and_eq_false_iff,
    decide_eq_false_iff_not]
  constructor
  · rintro ⟨h2, hdiv⟩
    refine ⟨h2, fun m hm hdvd => ?_⟩
    by_contra hm1
    have hm0 : m ≠ 0 := by
      rintro rfl
      have := Nat.eq_zero_of_zero_dvd hdvd
      omega
    have hm2 : 2 ≤ m := by omega
    have hmod : p % m = 0 := Nat.dvd_iff_mod_eq_zero.mp hdvd
    rcases hdiv m hm with h | h
    · omega
    · omega
  · rintro ⟨h2, hmin⟩
    refine ⟨h2, fun d hd => ?_⟩
    by_cases hd2 : 2 ≤ d
    · by_cases hdm : p % d = 0
      · exfalso
        have : d ∣ p := Nat.dvd_of_mod_eq_zero hdm
        have := hmin d hd this
        omega
      · right
        exact hdm
    · left
      omega

/-- Propositional reading of one candidate test inside `gCheck`. -/
theorem gCheckElem_iff (x p : Nat) :
    ((!(decide (3 ≤ p) && decide (p * p ≤ x) && isPrimeB p &&
        decide (x % p = 0))) = true) ↔
      ¬(3 ≤ p ∧ p * p ≤ x ∧ Nat.Prime p ∧ x % p = 0) := by
  rw [Bool.not_eq_true', Bool.eq_false_iff]
  constructor
  · intro h hc
    apply h
    obtain ⟨h1, h2, h3, h4⟩ := hc
    simp [h1, h2, h4, (isPrimeB_iff p).mpr h3]
  · intro hn hb
    simp only [Bool.and_eq_true, decide_eq_true_eq] at hb
    obtain ⟨⟨⟨h1, h2⟩, h3⟩, h4⟩ := hb
    exact hn ⟨h1, h2, (isPrimeB_iff p).mp h3, h4⟩

/-- Propositional reading of the odd-candidate divisibility check. -/
theorem gCheck_iff_forall (x : Nat) :
    gCheck x = true ↔
      ∀ p, p < x → ¬(3 ≤ p ∧ p * p ≤ x ∧ Nat.Prime p ∧ x % p = 0) := by
  unfold gCheck
  rw [List.all_eq_true]
  constructor
  · intro hall p hplt
    exact (gCheckElem_iff x p).mp (hall p (List.mem_range.mpr hplt))
  · intro hall p hmem
    exact (gCheckElem_iff x p).mpr (hall p (List.mem_range.mp hmem))

/-- Correctness of the odd-candidate divisibility check: for odd candidates
at least 3 it coincides with primality. -/
theorem gCheck_iff (x : Nat) (hodd : x % 2 = 1) (h3 : 3 ≤ x) :
    gCheck x = true ↔ Nat.Prime x := by
  rw [gCheck_iff_forall]
  constructor
  · intro hall
    by_contra hnp
    set q := Nat.minFac x with hq
    have hqprime : Nat.Prime q := Nat.minFac_prime (by omega)
    have hqdvd : q ∣ x := Nat.minFac_dvd x
    have hqsq : q * q ≤ x := by
      have := Nat.minFac_sq_le_self (by omega) hnp
      rwa [Nat.pow_two] at this
    have hq2 : 2 ≤ q := hqprime.two_le
    have hqne2 : q ≠ 2 := by
      rintro h2
      rw [h2] at hqdvd
      have := Nat.dvd_iff_mod_eq_zero.mp hqdvd
      omega
    have hq3 : 3 ≤ q := by omega
    have hqlt : q < x := by nlinarith
    have hqmod : x % q = 0 := Nat.dvd_iff_mod_eq_zero.mp hqdvd
    exact hall q hqlt ⟨hq3, hqsq, hqprime, hqmod⟩
  · intro hp p hplt
    rintro ⟨h3p, hsq, hpp, hmod⟩
    have hdvd : p ∣ x := Nat.dvd_of_mod_eq_zero hmod
    rcases Nat.Prime.eq_one_or_self_of_dvd hp p hdvd with h | h
    · omega
    · nlinarith

/-- With enough fuel to reach a prime, the candidate search returns the
least prime greater than or equal to its odd starting point. -/
theorem gSearch_spec (fuel : Nat) : ∀ x, x % 2 = 1 → 3 ≤ x →
    (∃ k, k ≤ fuel ∧ Nat.Prime (x + 2 * k)) →
    Nat.Prime (gSearch fuel x) ∧ x ≤ gSearch fuel x ∧
      ∀ q, Nat.Prime q → x ≤ q → gSearch fuel x ≤ q := by
  induction fuel with
  | zero =>
    intro x hodd h3 hex
    obtain ⟨k, hk, hp⟩ := hex
    have hk0 : k = 0 := by omega
    subst hk0
    simp only [Nat.mul_zero, Nat.add_zero] at hp
    exact ⟨by simpa [gSearch] using hp, by simp [gSearch],
      fun q _ hq => by simpa [gSearch] using hq⟩
  | succ fuel ih =>
    intro x hodd h3 hex
    by_cases hc : gCheck x = true
    · have hp : Nat.Prime x := (gCheck_iff x hodd h3).mp hc
      simp only [gSearch, hc, if_true]
      exact ⟨hp, Nat.le_refl x, fun q _ hq => hq⟩
    · have hxnp : ¬Nat.Prime x := fun hp => hc ((gCheck_iff x hodd h3).mpr hp)
      have hred : gSearch (fuel + 1) x = gSearch fuel (x + 2) := by
        simp [gSearch, hc]
      rw [hred]
      have hex' : ∃ k, k ≤ fuel ∧ Nat.Prime (x + 2 + 2 * k) := by
        obtain ⟨k, hk, hp⟩ := hex
        have hk0 : k ≠ 0 := by
          rintro rfl
          simp only [Nat.mul_zero, Nat.add_zero] at hp
          exact hxnp hp
        exact ⟨k - 1, by omega, by
          have : x + 2 + 2 * (k - 1) = x + 2 * k := by omega
          rw [this]
          exact hp⟩
      obtain ⟨hprime, hge, hleast⟩ := ih (x + 2) (by omega) (by omega) hex'
      refine ⟨hprime, by omega, ?_⟩
      intro q hq hxq
      have hqx : q ≠ x := fun h => hxnp (h ▸ hq)
      have hqx1 : q ≠ x + 1 := by
        rintro rfl
        have h2dvd : 2 ∣ x + 1 := Nat.dvd_of_mod_eq_zero (by omega)
        rcases (Nat.Prime.eq_one_or_self_of_dvd hq 2 h2dvd) with h | h
        · omega
        · omega
      exact hleast q hq (by omega)

/-- `GetFirstPrimeGreaterThanOrEqualTo value` for `value ≥ 2` is prime, at
least `value`, and for `value ≥ 3` it is the least such prime (for
`value = 2` the even prime 2 is skipped and 3 is returned). -/
theorem getFirstPrime_spec (value : Nat) (h2 : 2 ≤ value) :
    Nat.Prime (getFirstPrimeGreaterThanOrEqualTo value) ∧
    value ≤ getFirstPrimeGreaterThanOrEqualTo value ∧
    (3 ≤ value → ∀ q, Nat.Prime q → value ≤ q →
      getFirstPrimeGreaterThanOrEqualTo value ≤ q) := by
  unfold getFirstPrimeGreaterThanOrEqualTo
  have hx := or_one_eq value
  set c := value ||| 1 with hcdef
  have hodd : c % 2 = 1 := by omega
  have h3 : 3 ≤ c := by omega
  have hvle : value ≤ c := by omega
  have hle1 : c ≤ value + 1 := by omega
  obtain ⟨p, hpprime, hplt, hple⟩ :=
    Nat.exists_prime_lt_and_le_two_mul c (by omega)
  have hpodd : p % 2 = 1 := by
    by_cases hd : 2 ∣ p
    · rcases Nat.Prime.eq_one_or_self_of_dvd hpprime 2 hd with h | h <;> omega
    · rcases Nat.mod_two_eq_zero_or_one p with h | h
      · exact absurd (Nat.dvd_of_mod_eq_zero h) hd
      · exact h
  have hex : ∃ k, k ≤ value + 1 ∧ Nat.Prime (c + 2 * k) := by
    have hkb : (p - c) / 2 ≤ value + 1 := by omega
    have hpk : c + 2 * ((p - c) / 2) = p := by omega
    exact ⟨(p - c) / 2, hkb, by rw [hpk]; exact hpprime⟩
  obtain ⟨hprime, hge, hleast⟩ := gSearch_spec (value + 1) c hodd h3 hex
  refine ⟨hprime, Nat.le_trans hvle hge, ?_⟩
  intro hv3 q hq hvq
  apply hleast q hq
  by_cases hqv : q = value
  · subst hqv
    by_cases hparity : q % 2 = 1
    · omega
    · exfalso
      have h2dvd : 2 ∣ q := Nat.dvd_of_mod_eq_zero (by omega)
      rcases Nat.Prime.eq_one_or_self_of_dvd hq 2 h2dvd with h | h <;> omega
  · omega

/-! ### Rehash and insertion specifications -/

/-- Reading a replicated list. -/
theorem getD_replicate (m i : Nat) (x : PartialUse) (hi : i < m) :
    ((List.replicate m x).getD i default) = x := by
  induction m generalizing i with
  | zero => omega
  | succ m ih =>
    cases i with
    | zero => simp [List.replicate]
    | succ i =>
      simp only [List.replicate, List.getD_cons_succ]
      exact ih i (by omega)

/-- A cleared table has no occupied slots. -/
theorem occ_replicate_empty (m : Nat) (d : Def) :
    occupiedCount (List.replicate m ⟨kEmpty, d⟩) = 0 := by
  induction m with
  | zero => rfl
  | succ m ih =>
    simp only [List.replicate, occupiedCount, ih]
    simp

/-- A hit of `keyLookup` comes from some slot. -/
theorem keyLookup_some_exists (l : List PartialUse) (k : Nat) (v : Def)
    (h : keyLookup l k = some v) :
    ∃ s, s < l.length ∧ (l.getD s default).first = k ∧
      (l.getD s default).second = v := by
  induction l with
  | nil => simp [keyLookup] at h
  | cons pu rest ih =>
    by_cases hp : pu.first = k
    · rw [keyLookup_cons_self _ _ _ hp] at h
      exact ⟨0, by simp, by simpa using hp, by simpa using Option.some_injective _ h⟩
    · rw [keyLookup_cons_of_ne _ _ _ hp] at h
      obtain ⟨s, hs, hks, hvs⟩ := ih h
      exact ⟨s + 1, by simp only [List.length_cons]; omega,
        by simpa using hks, by simpa using hvs⟩

/-- Specification of `PartialUses::reserve`: with a consistent source table
and enough room in the target, the rehash succeeds, preserves the content,
and installs the new size and `maxLoad`. -/
theorem reserve_spec (t : PartialUses) (n : Nat)
    (hfound : foundAll t.entries)
    (hroom : occupiedCount t.entries <
      getFirstPrimeGreaterThanOrEqualTo (n * 2)) :
    ∃ t2, t.reserve n = some t2 ∧
      t2.entries.length = getFirstPrimeGreaterThanOrEqualTo (n * 2) ∧
      foundAll t2.entries ∧
      t2.load = t.load ∧
      t2.maxLoad = getFirstPrimeGreaterThanOrEqualTo (n * 2) / 2 ∧
      occupiedCount t2.entries = occupiedCount t.entries ∧
      ∀ k, k ≠ kEmpty → keyLookup t2.entries k = keyLookup t.entries k := by
  have hlenrep : (List.replicate (getFirstPrimeGreaterThanOrEqualTo (n * 2))
      (⟨kEmpty, ⟨0, 0⟩⟩ : PartialUse)).length =
      getFirstPrimeGreaterThanOrEqualTo (n * 2) := List.length_replicate _ _
  obtain ⟨es, hes, hlen, hfnd, hocc, hlk⟩ := rehashFold_spec t.entries
    (List.replicate (getFirstPrimeGreaterThanOrEqualTo (n * 2))
      ⟨kEmpty, ⟨0, 0⟩⟩)
    (fun i j hi hj hij hne heq =>
      hij (foundAll_nodup t.entries hfound i j hi hj hne heq))
    (fun s hs hne => by
      rw [hlenrep] at hs
      rw [getD_replicate _ _ _ hs] at hne
      exact absurd rfl hne)
    (by rw [hlenrep, occ_replicate_empty]; omega)
    (fun k hk hex s hs hke => by
      rw [hlenrep] at hs
      rw [getD_replicate _ _ _ hs] at hke
      exact hk hke.symm)
  refine ⟨{ entries := es, load := t.load,
            maxLoad := getFirstPrimeGreaterThanOrEqualTo (n * 2) / 2 }, ?_,
    by rw [hlen, hlenrep], hfnd, rfl, rfl, ?_, ?_⟩
  · simp only [PartialUses.reserve, hes]
  · rw [hocc, occ_replicate_empty]
    omega
  · intro k hk
    rw [hlk k hk]
    have hnone : keyLookup (List.replicate
        (getFirstPrimeGreaterThanOrEqualTo (n * 2))
        (⟨kEmpty, ⟨0, 0⟩⟩ : PartialUse)) k = none := by
      apply keyLookup_eq_none
      intro s hs
      rw [hlenrep] at hs
      rw [getD_replicate _ _ _ hs]
      exact fun h => hk h.symm
    rw [hnone]
    cases keyLookup t.entries k <;> rfl

/-- Specification of one insertion `partialUses_[u] = d`: under the table
invariant it succeeds, preserves the invariant, updates the content at `u`
and leaves every other key unchanged; the size changes only by the rehash
triggered when the load factor would exceed one half. -/
theorem setAt_spec (t : PartialUses) (u : Nat) (d : Def)
    (hWF : tableWF t) (hu : u ≠ kEmpty) :
    ∃ t2, t.setAt u d = some t2 ∧ tableWF t2 ∧
      (∀ k, k ≠ kEmpty → keyLookup t2.entries k =
        if k = u then some d else keyLookup t.entries k) ∧
      (t2.entries.length = t.entries.length ∨
        (t.maxLoad < t.load + 1 ∧ t2.entries.length =
          getFirstPrimeGreaterThanOrEqualTo ((t.load + 1) * 2 * 2))) := by
  obtain ⟨hpos, hml, hld, hlle, hfound⟩ := hWF
  by_cases hpres : ∃ s, s < t.entries.length ∧
      (t.entries.getD s default).first = u
  · obtain ⟨s, hs, hks⟩ := hpres
    have hfind : findPartialUse t.entries u = some s :=
      find_present _ hfound u s hu hs hks
    refine ⟨{ t with entries := t.entries.set s ⟨u, d⟩ }, ?_, ?_, ?_,
      Or.inl (List.length_set _ _ _)⟩
    · simp only [PartialUses.setAt, hfind]
      rw [if_pos hks]
    · exact ⟨by rw [List.length_set]; exact hpos,
        by rw [List.length_set]; exact hml,
        by rw [occ_set_same _ s ⟨u, d⟩ (by rw [hks])]; exact hld,
        hlle,
        foundAll_overwrite _ s ⟨u, d⟩ hfound hs (by rw [hks])⟩
    · intro k hk
      by_cases hku : k = u
      · subst hku
        rw [if_pos rfl]
        have huniq : ∀ s', s' < (t.entries.set s ⟨k, d⟩).length → s' ≠ s →
            ((t.entries.set s ⟨k, d⟩).getD s' default).first ≠ k := by
          intro s' hs' hne
          rw [List.length_set] at hs'
          rw [getD_set_ne _ _ _ _ (fun h => hne h.symm)]
          intro hk'
          exact hne (foundAll_nodup t.entries hfound s' s hs' hs
            (by rw [hk']; exact hk) (by rw [hk', hks]))
        have := keyLookup_eq_some (t.entries.set s ⟨k, d⟩) k s
          (by rw [List.length_set]; exact hs)
          (by rw [getD_set_self _ _ _ hs]) huniq
        rwa [getD_set_self _ _ _ hs] at this
      · rw [if_neg hku]
        exact keyLookup_set_irrel _ s ⟨u, d⟩ k
          (by rw [hks]; exact fun h => hku h.symm) (fun h => hku h.symm)
  · push_neg at hpres
    have hroom : occupiedCount t.entries < t.entries.length := by omega
    obtain ⟨e, hfind, he, hke⟩ := find_absent t.entries hfound u hroom hpres
    have hslotne : (t.entries.getD e default).first ≠ u := hpres e he
    have hofill : occupiedCount (t.entries.set e ⟨u, d⟩) =
        occupiedCount t.entries + 1 := occ_set_fill _ _ _ he hke hu
    by_cases hcap : t.load + 1 ≤ t.maxLoad
    · refine ⟨{ entries := t.entries.set e ⟨u, d⟩
                load := t.load + 1
                maxLoad := t.maxLoad }, ?_, ?_, ?_,
        Or.inl (List.length_set _ _ _)⟩
      · simp only [PartialUses.setAt, hfind]
        rw [if_neg hslotne, if_pos hcap, List.set_set]
      · exact ⟨by rw [List.length_set]; exact hpos,
          by rw [List.length_set]; exact hml,
          by rw [hofill, ← hld],
          hcap,
          foundAll_fill t.entries u e d hfound hu hpres hfind hke⟩
      · intro k hk
        by_cases hku : k = u
        · subst hku
          rw [if_pos rfl]
          have huniq : ∀ s', s' < (t.entries.set e ⟨k, d⟩).length → s' ≠ e →
              ((t.entries.set e ⟨k, d⟩).getD s' default).first ≠ k := by
            intro s' hs' hne
            rw [List.length_set] at hs'
            rw [getD_set_ne _ _ _ _ (fun h => hne h.symm)]
            exact hpres s' hs'
          have := keyLookup_eq_some (t.entries.set e ⟨k, d⟩) k e
            (by rw [List.length_set]; exact he)
            (by rw [getD_set_self _ _ _ he]) huniq
          rwa [getD_set_self _ _ _ he] at this
        · rw [if_neg hku]
          exact keyLookup_set_irrel _ e ⟨u, d⟩ k
            (by rw [hke]; exact fun h => hk h.symm) (fun h => hku h.symm)
    · have hcap' : t.maxLoad < t.load + 1 := by omega
      have hfoundc : foundAll
          (t.entries.set e ⟨u, (t.entries.getD e default).second⟩) :=
        foundAll_fill t.entries u e _ hfound hu hpres hfind hke
      have hoccc : occupiedCount
          (t.entries.set e ⟨u, (t.entries.getD e default).second⟩) =
          occupiedCount t.entries + 1 := occ_set_fill _ _ _ he hke hu
      have hGge : (t.load + 1) * 2 * 2 ≤
          getFirstPrimeGreaterThanOrEqualTo ((t.load + 1) * 2 * 2) :=
        getFirstPrime_ge _
      obtain ⟨t3, hres, hlen3, hfnd3, hload3, hml3, hocc3, hlk3⟩ :=
        reserve_spec
          { entries := t.entries.set e ⟨u, (t.entries.getD e default).second⟩
            load := t.load + 1
            maxLoad := t.maxLoad } ((t.load + 1) * 2)
          hfoundc (by simp only [hoccc]; omega)
      have hlkc : keyLookup
          (t.entries.set e ⟨u, (t.entries.getD e default).second⟩) u =
          some ((t.entries.getD e default).second) := by
        have huniq : ∀ s', s' <
            (t.entries.set e ⟨u, (t.entries.getD e default).second⟩).length →
            s' ≠ e →
            (((t.entries.set e
                ⟨u, (t.entries.getD e default).second⟩)).getD s'
              default).first ≠ u := by
          intro s' hs' hne
          rw [List.length_set] at hs'
          rw [getD_set_ne _ _ _ _ (fun h => hne h.symm)]
          exact hpres s' hs'
        have := keyLookup_eq_some _ u e
          (by rw [List.length_set]; exact he)
          (by rw [getD_set_self _ _ _ he]) huniq
        rwa [getD_set_self _ _ _ he] at this
      obtain ⟨j, hj, hkj, _⟩ := keyLookup_some_exists t3.entries u _
        (by rw [hlk3 u hu]; exact hlkc)
      have hfind3 : findPartialUse t3.entries u = some j :=
        find_present _ hfnd3 u j hu hj hkj
      refine ⟨{ t3 with entries := t3.entries.set j ⟨u, d⟩ }, ?_, ?_, ?_,
        Or.inr ⟨hcap', by rw [List.length_set]; exact hlen3⟩⟩
      · simp only [PartialUses.setAt, hfind]
        rw [if_neg hslotne, if_neg hcap]
        simp only [hres, hfind3]
        rw [if_pos hkj]
      · refine ⟨?_, ?_, ?_, ?_, foundAll_overwrite _ j ⟨u, d⟩ hfnd3 hj
          (by rw [hkj])⟩
        · rw [List.length_set, hlen3]
          omega
        · rw [List.length_set, hlen3, hml3]
        · rw [occ_set_same _ j ⟨u, d⟩ (by rw [hkj]), hload3, hocc3, hoccc,
            hld]
        · show t3.load ≤ t3.maxLoad
          have hload3b : t3.load = t.load + 1 := hload3
          rw [hml3, hload3b]
          omega
      · intro k hk
        by_cases hku : k = u
        · subst hku
          rw [if_pos rfl]
          have huniq : ∀ s', s' < (t3.entries.set j ⟨k, d⟩).length → s' ≠ j →
              ((t3.entries.set j ⟨k, d⟩).getD s' default).first ≠ k := by
            intro s' hs' hne
            rw [List.length_set] at hs'
            rw [getD_set_ne _ _ _ _ (fun h => hne h.symm)]
            intro hk'
            exact hne (foundAll_nodup t3.entries hfnd3 s' j hs' hj
              (by rw [hk']; exact hk) (by rw [hk', hkj]))
          have := keyLookup_eq_some (t3.entries.set j ⟨k, d⟩) k j
            (by rw [List.length_set]; exact hj)
            (by rw [getD_set_self _ _ _ hj]) huniq
          rwa [getD_set_self _ _ _ hj] at this
        · rw [if_neg hku]
          rw [keyLookup_set_irrel _ j ⟨u, d⟩ k
            (by rw [hkj]; exact fun h => hku h.symm) (fun h => hku h.symm)]
          rw [hlk3 k hk]
          exact keyLookup_set_irrel _ e ⟨u, (t.entries.getD e default).second⟩
            k (by rw [hke]; exact fun h => hk h.symm) (fun h => hku h.symm)

/-- Correctness of `PartialUses::find` under the table invariant: the probe
result agrees with the abstract content. -/
theorem lookup_spec (t : PartialUses) (u : Nat) (hWF : tableWF t)
    (hu : u ≠ kEmpty) :
    t.lookup u = keyLookup t.entries u := by
  obtain ⟨hpos, hml, hld, hlle, hfound⟩ := hWF
  by_cases hpres : ∃ s, s < t.entries.length ∧
      (t.entries.getD s default).first = u
  · obtain ⟨s, hs, hks⟩ := hpres
    have hfind := find_present _ hfound u s hu hs hks
    simp only [PartialUses.lookup, hfind]
    rw [if_pos hks]
    have huniq : ∀ s', s' < t.entries.length → s' ≠ s →
        (t.entries.getD s' default).first ≠ u := by
      intro s' hs' hne hk'
      exact hne (foundAll_nodup t.entries hfound s' s hs' hs
        (by rw [hk']; exact hu) (by rw [hk', hks]))
    rw [keyLookup_eq_some t.entries u s hs hks huniq]
  · push_neg at hpres
    have hroom : occupiedCount t.entries < t.entries.length := by omega
    obtain ⟨e, hfind, he, hke⟩ := find_absent t.entries hfound u hroom hpres
    simp only [PartialUses.lookup, hfind]
    rw [if_neg (by rw [hke]; exact fun h => hu h.symm)]
    rw [keyLookup_eq_none t.entries u hpres]

/-- The freshly opened 11-slot table satisfies the invariant. -/
theorem tableWF_freshInit : tableWF PartialUses.freshInit := by
  refine ⟨by decide, by decide, by decide, by decide, ?_⟩
  intro s hs hne
  exfalso
  apply hne
  have hs11 : s < 11 := by simpa [PartialUses.freshInit] using hs
  show (PartialUses.freshInit.entries.getD s default).first = kEmpty
  simp only [PartialUses.freshInit]
  rw [getD_replicate _ _ _ hs11]

/-- Size discipline of the set-driven table: 11 at open, prime afterwards. -/
def sizeOk (t : PartialUses) : Prop :=
  11 ≤ t.entries.length ∧
    (t.entries.length = 11 ∨ Nat.Prime t.entries.length)

/-- One insertion preserves the size discipline: when a rehash fires, the
new size is a prime at least 24. -/
theorem setAt_sizeOk (t t2 : PartialUses) (hWF : tableWF t) (hsz : sizeOk t)
    (hdisj : t2.entries.length = t.entries.length ∨
      (t.maxLoad < t.load + 1 ∧ t2.entries.length =
        getFirstPrimeGreaterThanOrEqualTo ((t.load + 1) * 2 * 2))) :
    sizeOk t2 := by
  obtain ⟨hpos, hml, hld, hlle, hfound⟩ := hWF
  obtain ⟨hsz1, hsz2⟩ := hsz
  rcases hdisj with h | ⟨hcap, h⟩
  · exact ⟨by rw [h]; exact hsz1, by rw [h]; exact hsz2⟩
  · have hload : 5 ≤ t.maxLoad := by
      rw [hml]
      omega
    have harg : 24 ≤ (t.load + 1) * 2 * 2 := by omega
    have hge := getFirstPrime_ge ((t.load + 1) * 2 * 2)
    have hprime := (getFirstPrime_spec ((t.load + 1) * 2 * 2) (by omega)).1
    exact ⟨by rw [h]; omega, Or.inr (by rw [h]; exact hprime)⟩

/-! ### Upper-bound search lemmas -/

/-- The upper bound never exceeds the list length. -/
theorem upperBoundIdx_le_length {α : Type} (fld : α → Nat) (x : Nat)
    (l : List α) : upperBoundIdx fld x l ≤ l.length := by
  induction l with
  | nil => simp [upperBoundIdx]
  | cons a rest ih =>
    simp only [upperBoundIdx, List.length_cons]
    split
    · omega
    · omega

/-- Entries before the upper bound do not exceed the key. -/
theorem upperBoundIdx_prefix {α : Type} [Inhabited α] (fld : α → Nat)
    (x : Nat) (l : List α) :
    ∀ i, i < upperBoundIdx fld x l → fld (l.getD i default) ≤ x := by
  induction l with
  | nil => intro i hi; simp [upperBoundIdx] at hi
  | cons a rest ih =>
    intro i hi
    simp only [upperBoundIdx] at hi
    by_cases hcond : x < fld a
    · rw [if_pos hcond] at hi
      omega
    · rw [if_neg hcond] at hi
      cases i with
      | zero => simpa using Nat.le_of_not_lt hcond
      | succ i =>
        simp only [List.getD_cons_succ]
        exact ih i (by omega)

/-- The entry at the upper bound (when it exists) exceeds the key. -/
theorem upperBoundIdx_at {α : Type} [Inhabited α] (fld : α → Nat) (x : Nat)
    (l : List α) (h : upperBoundIdx fld x l < l.length) :
    x < fld (l.getD (upperBoundIdx fld x l) default) := by
  induction l with
  | nil => simp [upperBoundIdx] at h
  | cons a rest ih =>
    simp only [upperBoundIdx] at h ⊢
    by_cases hcond : x < fld a
    · rw [if_pos hcond] at h ⊢
      simpa using hcond
    · rw [if_neg hcond] at h ⊢
      simp only [List.getD_cons_succ]
      exact ih (by simpa using h)

/-- A list starting below the key has a positive upper bound. -/
theorem upperBoundIdx_pos {α : Type} [Inhabited α] (fld : α → Nat) (x : Nat)
    (l : List α) (hne : l ≠ []) (h0 : fld (l.getD 0 default) ≤ x) :
    1 ≤ upperBoundIdx fld x l := by
  cases l with
  | nil => exact absurd rfl hne
  | cons a rest =>
    simp only [List.getD_cons_zero] at h0
    simp only [upperBoundIdx]
    rw [if_neg (by omega)]
    omega

/-- Replay of a sequence of `partialUses_[u] = d` assignments. -/
def setAll (t : PartialUses) (ops : List (Nat × Def)) : Option PartialUses :=
  ops.foldlM (fun t2 ud => t2.setAt ud.1 ud.2) t

/-- Last value assigned to a key by a sequence of assignments. -/
def lastSet (ops : List (Nat × Def)) (k : Nat) : Option Def :=
  ops.foldl (fun acc ud => if ud.1 = k then some ud.2 else acc) none

/-- Unfolding of the last-assignment fold over a generic accumulator. -/
theorem lastSet_fold (k : Nat) (ops : List (Nat × Def)) :
    ∀ init : Option Def,
      ops.foldl (fun acc ud => if ud.1 = k then some ud.2 else acc) init =
      optOr (lastSet ops k) init := by
  induction ops with
  | nil => intro init; cases init <;> rfl
  | cons a rest ih =>
    intro init
    show rest.foldl _ (if a.1 = k then some a.2 else init) = _
    rw [ih (if a.1 = k then some a.2 else init)]
    show _ = optOr (rest.foldl _ (if a.1 = k then some a.2 else none)) init
    rw [ih (if a.1 = k then some a.2 else none)]
    cases hX : lastSet rest k with
    | some v => rfl
    | none =>
      by_cases hak : a.1 = k
      · simp only [if_pos hak]; rfl
      · simp only [if_neg hak]; rfl

/-- Replaying a sequence of assignments from any well-formed table
succeeds, preserves the invariant and the size discipline, and leaves as
content the pointwise override of the initial content by the last
assignments. -/
theorem setAll_spec (ops : List (Nat × Def)) :
    ∀ t : PartialUses, tableWF t → sizeOk t →
    (∀ ud ∈ ops, ud.1 ≠ kEmpty) →
    ∃ t2, setAll t ops = some t2 ∧ tableWF t2 ∧ sizeOk t2 ∧
      ∀ k, k ≠ kEmpty → keyLookup t2.entries k =
        optOr (lastSet ops k) (keyLookup t.entries k) := by
  induction ops with
  | nil =>
    intro t hWF hsz _
    refine ⟨t, rfl, hWF, hsz, ?_⟩
    intro k _
    rfl
  | cons ud rest ih =>
    intro t hWF hsz hops
    obtain ⟨t1, h1, hWF1, hcontent1, hdisj1⟩ :=
      setAt_spec t ud.1 ud.2 hWF (hops ud (List.mem_cons_self _ _))
    have hsz1 : sizeOk t1 := setAt_sizeOk t t1 hWF hsz hdisj1
    obtain ⟨t2, h2, hWF2, hsz2, hlk2⟩ := ih t1 hWF1 hsz1
      (fun v hv => hops v (List.mem_cons_of_mem _ hv))
    refine ⟨t2, ?_, hWF2, hsz2, ?_⟩
    · show (ud :: rest).foldlM (fun t3 v => t3.setAt v.1 v.2) t = some t2
      rw [List.foldlM_cons, h1]
      exact h2
    · intro k hk
      rw [hlk2 k hk, hcontent1 k hk]
      show _ = optOr (rest.foldl _ (if ud.1 = k then some ud.2 else none))
        (keyLookup t.entries k)
      rw [lastSet_fold k rest (if ud.1 = k then some ud.2 else none)]
      cases hX : lastSet rest k with
      | some v => rfl
      | none =>
        by_cases hku : k = ud.1
        · rw [if_pos hku, if_pos (by rw [hku])]
          rfl
        · rw [if_neg hku, if_neg (fun h => hku h.symm)]
          rfl

/-- The fresh table holds no key. -/
theorem keyLookup_freshInit (k : Nat) (hk : k ≠ kEmpty) :
    keyLookup PartialUses.freshInit.entries k = none := by
  apply keyLookup_eq_none
  intro s hs
  have hs11 : s < 11 := by simpa [PartialUses.freshInit] using hs
  show (PartialUses.freshInit.entries.getD s default).first ≠ k
  simp only [PartialUses.freshInit]
  rw [getD_replicate _ _ _ hs11]
  exact fun h => hk h.symm

/-- C9 (amended): starting from the fresh 11-slot table, after any
sequence of `set(useIndex, def)` calls with genuine use indices the table
size is a prime at least 11, and `lookup k` returns the last value set for
`k` (or none if `k` was never set); moreover every rehash
`reserve(n)` with requested capacity `n ≥ 2` issued on a well-formed table
that is at most half full makes the size the least prime that is at least
`2 n`. (The original claim is refuted for the reachable small rehashes
`reserve(0)` and `reserve(1)`, which produce sizes 1 and 3.) -/
theorem partial_uses_table_spec (ops : List (Nat × Def))
    (hops : ∀ ud ∈ ops, ud.1 ≠ kEmpty) :
    (∃ t2, setAll PartialUses.freshInit ops = some t2 ∧
      Nat.Prime t2.entries.length ∧ 11 ≤ t2.entries.length ∧
      ∀ k, k ≠ kEmpty → t2.lookup k = lastSet ops k) ∧
    (∀ (t : PartialUses) (n : Nat), tableWF t → 2 ≤ n →
      occupiedCount t.entries < 2 * n →
      ∃ t3, t.reserve n = some t3 ∧
        Nat.Prime t3.entries.length ∧ 2 * n ≤ t3.entries.length ∧
        ∀ q, Nat.Prime q → 2 * n ≤ q → t3.entries.length ≤ q) := by
  constructor
  · obtain ⟨t2, h2, hWF2, hsz2, hlk2⟩ := setAll_spec ops
      PartialUses.freshInit tableWF_freshInit
      ⟨by decide, Or.inl (by decide)⟩ hops
    refine ⟨t2, h2, ?_, hsz2.1, ?_⟩
    · rcases hsz2.2 with h | h
      · rw [h]; norm_num
      · exact h
    · intro k hk
      rw [lookup_spec t2 k hWF2 hk, hlk2 k hk, keyLookup_freshInit k hk]
      cases lastSet ops k <;> rfl
  · intro t n hWF h2n hocc
    have hge := getFirstPrime_ge (n * 2)
    obtain ⟨hprime, hle, hleast⟩ := getFirstPrime_spec (n * 2) (by omega)
    obtain ⟨t3, h3, hlen3, _, _, _, _, _⟩ := reserve_spec t n hWF.2.2.2.2
      (by omega)
    refine ⟨t3, h3, ?_, ?_, ?_⟩
    · rw [hlen3]; exact hprime
    · rw [hlen3]; omega
    · intro q hq hqge
      rw [hlen3]
      exact hleast (by omega) q hq (by omega)

/-- Concrete assignment sequence with six distinct keys, enough to push
the load factor past one half and trigger a rehash, plus one overwrite. -/
def c9Ops : List (Nat × Def) :=
  [(0, ⟨1, 2⟩), (1, ⟨3, 4⟩), (2, ⟨5, 6⟩), (3, ⟨7, 8⟩), (4, ⟨9, 10⟩),
   (5, ⟨11, 12⟩), (0, ⟨13, 14⟩)]

/-- Witness instantiating the amended C9 statement on a concrete
rehash-triggering assignment sequence. -/
theorem partial_uses_table_spec_witness :
    (∀ ud ∈ c9Ops, ud.1 ≠ kEmpty) ∧
    ((∃ t2, setAll PartialUses.freshInit c9Ops = some t2 ∧
      Nat.Prime t2.entries.length ∧ 11 ≤ t2.entries.length ∧
      ∀ k, k ≠ kEmpty → t2.lookup k = lastSet c9Ops k) ∧
    (∀ (t : PartialUses) (n : Nat), tableWF t → 2 ≤ n →
      occupiedCount t.entries < 2 * n →
      ∃ t3, t.reserve n = some t3 ∧
        Nat.Prime t3.entries.length ∧ 2 * n ≤ t3.entries.length ∧
        ∀ q, Nat.Prime q → 2 * n ≤ q → t3.entries.length ≤ q)) :=
  ⟨by decide, partial_uses_table_spec c9Ops (by decide)⟩

/-- C3: for a valid use index, `ResolveUse` returns the pair `(d, t)` where
`d` is the partial-use entry for the index when the table holds one and
`defs[uses[u]]` otherwise, and `t` is the largest trace index whose
start-def-index field does not exceed `uses[u]` (computed as `upper_bound`
on that field stepped back one), assuming the table invariant, a trace that
is nonempty and sorted on the field, and a head entry whose field does not
exceed `uses[u]`. -/
theorem resolveUse_spec (uses : List Nat) (defs : List Def)
    (t : PartialUses) (trace : List InsnInTrace)
    (fld : InsnInTrace → Nat) (u : Nat)
    (hWF : tableWF t) (hu : u ≠ kEmpty) (hne : trace ≠ [])
    (hsorted : ∀ i j, i ≤ j → j < trace.length →
      fld (trace.getD i default) ≤ fld (trace.getD j default))
    (h0 : fld (trace.getD 0 default) ≤ uses.getD u 0) :
    ∃ d tt, resolveUseRaw uses defs t.entries trace fld u = some (d, tt) ∧
      d = (keyLookup t.entries u).getD (defs.getD (uses.getD u 0) ⟨0, 0⟩) ∧
      tt < trace.length ∧
      fld (trace.getD tt default) ≤ uses.getD u 0 ∧
      ∀ j, j < trace.length → fld (trace.getD j default) ≤ uses.getD u 0 →
        j ≤ tt := by
  obtain ⟨hpos, hml, hld, hlle, hfound⟩ := hWF
  have hub1 : 1 ≤ upperBoundIdx fld (uses.getD u 0) trace :=
    upperBoundIdx_pos fld (uses.getD u 0) trace hne h0
  have huble : upperBoundIdx fld (uses.getD u 0) trace ≤ trace.length :=
    upperBoundIdx_le_length fld (uses.getD u 0) trace
  have hlen1 : 1 ≤ trace.length := by
    cases trace with
    | nil => exact absurd rfl hne
    | cons a rest => simp
  have htt : upperBoundIdx fld (uses.getD u 0) trace - 1 < trace.length := by
    omega
  have httle : fld (trace.getD
      (upperBoundIdx fld (uses.getD u 0) trace - 1) default) ≤
      uses.getD u 0 :=
    upperBoundIdx_prefix fld (uses.getD u 0) trace _ (by omega)
  have hmax : ∀ j, j < trace.length →
      fld (trace.getD j default) ≤ uses.getD u 0 →
      j ≤ upperBoundIdx fld (uses.getD u 0) trace - 1 := by
    intro j hj hjle
    by_contra hgt
    have hubj : upperBoundIdx fld (uses.getD u 0) trace ≤ j := by omega
    have hublt : upperBoundIdx fld (uses.getD u 0) trace < trace.length := by
      omega
    have h1 := upperBoundIdx_at fld (uses.getD u 0) trace hublt
    have h2 := hsorted (upperBoundIdx fld (uses.getD u 0) trace) j hubj hj
    omega
  by_cases hpres : ∃ s, s < t.entries.length ∧
      (t.entries.getD s default).first = u
  · obtain ⟨s, hs, hks⟩ := hpres
    have hfind : findPartialUse t.entries u = some s :=
      find_present _ hfound u s hu hs hks
    have huniq : ∀ s', s' < t.entries.length → s' ≠ s →
        (t.entries.getD s' default).first ≠ u := by
      intro s' hs' hne' hk'
      exact hne' (foundAll_nodup t.entries hfound s' s hs' hs
        (by rw [hk']; exact hu) (by rw [hk', hks]))
    refine ⟨(t.entries.getD s default).second, _, ?_, ?_, htt, httle, hmax⟩
    · simp only [resolveUseRaw, hfind]
      rw [if_neg (by rw [hks]; exact hu)]
    · rw [keyLookup_eq_some t.entries u s hs hks huniq]
      rfl
  · push_neg at hpres
    have hroom : occupiedCount t.entries < t.entries.length := by omega
    obtain ⟨e, hfind, he, hke⟩ := find_absent t.entries hfound u hroom hpres
    refine ⟨defs.getD (uses.getD u 0) ⟨0, 0⟩, _, ?_, ?_, htt, httle, hmax⟩
    · simp only [resolveUseRaw, hfind]
      rw [if_pos hke]
    · rw [keyLookup_eq_none t.entries u hpres]
      rfl

/-- Concrete three-entry trace used to instantiate the resolution
theorem. -/
def c3Trace : List InsnInTrace :=
  [default, { (default : InsnInTrace) with regUseStartIndex := 1 },
   { (default : InsnInTrace) with regUseStartIndex := 5 }]

/-- Witness instantiating the C3 statement: a fresh table (no partial
entry), `uses[0] = 2`, a trace sorted on the chosen field with values
0, 1, 5; resolution returns `defs[2]` and trace index 1. -/
theorem resolveUse_spec_witness :
    tableWF PartialUses.freshInit ∧
    ∃ d tt, resolveUseRaw [2] [⟨0, 9⟩, ⟨1, 9⟩, ⟨2, 9⟩]
        PartialUses.freshInit.entries c3Trace
        (fun e => e.regUseStartIndex) 0 = some (d, tt) ∧
      d = (keyLookup PartialUses.freshInit.entries 0).getD
        ([⟨0, 9⟩, ⟨1, 9⟩, ⟨2, 9⟩].getD ([2].getD 0 0) ⟨0, 0⟩) ∧
      tt < c3Trace.length ∧
      (fun e => e.regUseStartIndex) (c3Trace.getD tt default) ≤
        [2].getD 0 0 ∧
      ∀ j, j < c3Trace.length →
        (fun e => e.regUseStartIndex) (c3Trace.getD j default) ≤
          [2].getD 0 0 → j ≤ tt := by
  refine ⟨tableWF_freshInit, ?_⟩
  exact resolveUse_spec [2] [⟨0, 9⟩, ⟨1, 9⟩, ⟨2, 9⟩] PartialUses.freshInit
    c3Trace (fun e => e.regUseStartIndex) 0 tableWF_freshInit (by decide)
    (by decide)
    (by
      intro i j hij hj
      have hj3 : j < 3 := by simpa [c3Trace] using hj
      have hi3 : i < 3 := by omega
      interval_cases j <;> interval_cases i <;> decide)
    (by decide)

/-- Overlap of the accessed range with one live entry, as computed inside
the `AddUses` loop (`Def{max(startAddr, entry.startAddr),
min(endAddr, entryEndAddr)}`). -/
def overlapDef (startAddr endAddr : Nat) (en : Nat × EntryValue) : Def :=
  ⟨max startAddr en.2.startAddr, min endAddr en.1⟩

/-- Partial-use entry the `AddUses` loop leaves for one walked entry:
none when the stored def equals the overlap, the overlap otherwise. -/
def addUsesExpected (defs : List Def) (startAddr endAddr : Nat)
    (en : Nat × EntryValue) : Option Def :=
  let d := defs.getD en.2.defIndex ⟨0, 0⟩
  let ov := overlapDef startAddr endAddr en
  if d.startAddr = ov.startAddr ∧ d.endAddr = ov.endAddr then none
  else some ov

/-- Structure equality on defs is componentwise. -/
theorem def_eq_iff (d1 d2 : Def) :
    d1 = d2 ↔ d1.startAddr = d2.startAddr ∧ d1.endAddr = d2.endAddr := by
  cases d1
  cases d2
  simp

/-- Specification of the `AddUses` loop over any entry list: it succeeds,
appends one use per entry, touches neither defs nor the map, keeps the
table invariant, leaves keys outside the fresh index range unchanged, and
stores for the i-th entry exactly the expected partial-use content. -/
theorem addUsesFold_spec (startAddr endAddr : Nat)
    (l : List (Nat × EntryValue)) :
    ∀ st : UdState, tableWF st.partialUses →
    (∀ k, k ≠ kEmpty → st.uses.length ≤ k →
      keyLookup st.partialUses.entries k = none) →
    st.uses.length + l.length < kEmpty →
    ∃ st2, l.foldlM (UdState.addUsesStep startAddr endAddr) st = some st2 ∧
      st2.uses = st.uses ++ l.map (fun en => en.2.defIndex) ∧
      st2.defs = st.defs ∧
      st2.addressSpace = st.addressSpace ∧
      tableWF st2.partialUses ∧
      (∀ k, k ≠ kEmpty → st.uses.length + l.length ≤ k →
        keyLookup st2.partialUses.entries k = none) ∧
      (∀ k, k ≠ kEmpty → k < st.uses.length →
        keyLookup st2.partialUses.entries k =
          keyLookup st.partialUses.entries k) ∧
      ∀ i, i < l.length →
        keyLookup st2.partialUses.entries (st.uses.length + i) =
          addUsesExpected st.defs startAddr endAddr
            (l.getD i (0, ⟨0, 0⟩)) := by
  induction l with
  | nil =>
    intro st hWF hfresh hcount
    refine ⟨st, rfl, by simp, rfl, rfl, hWF, ?_, ?_, ?_⟩
    · intro k hk hge
      exact hfresh k hk (by simpa using hge)
    · intro k _ _
      rfl
    · intro i hi
      simp at hi
  | cons en rest ih =>
    intro st hWF hfresh hcount
    have hlenk : st.uses.length < kEmpty := by
      simp only [List.length_cons] at hcount
      omega
    by_cases hcond : (st.defs.getD en.2.defIndex ⟨0, 0⟩).startAddr =
        max startAddr en.2.startAddr ∧
        (st.defs.getD en.2.defIndex ⟨0, 0⟩).endAddr = min endAddr en.1
    · have hstep : UdState.addUsesStep startAddr endAddr st en =
          some { st with uses := st.uses ++ [en.2.defIndex] } := by
        simp only [UdState.addUsesStep, if_pos hcond]
      obtain ⟨st2, h2, huses, hdefs, hspace, hWF2, habove, hbelow, hidx⟩ :=
        ih { st with uses := st.uses ++ [en.2.defIndex] } hWF
          (fun k hk hge => hfresh k hk (by
            simp only [List.length_append, List.length_cons,
              List.length_nil] at hge
            omega))
          (by
            simp only [List.length_append, List.length_cons,
              List.length_nil] at hcount ⊢
            omega)
      refine ⟨st2, ?_, ?_, hdefs, hspace, hWF2, ?_, ?_, ?_⟩
      · rw [List.foldlM_cons, hstep]
        exact h2
      · rw [huses]
        simp
      · intro k hk hge
        apply habove k hk
        simp only [List.length_append, List.length_cons, List.length_nil]
        simp only [List.length_cons] at hge
        omega
      · intro k hk hlt
        rw [hbelow k hk (by
          simp only [List.length_append, List.length_cons, List.length_nil]
          omega)]
      · intro i hi
        cases i with
        | zero =>
          have hkey : keyLookup st2.partialUses.entries
              (st.uses.length + 0) = keyLookup st.partialUses.entries
              st.uses.length := by
            rw [Nat.add_zero]
            exact hbelow st.uses.length (by omega) (by
              simp only [List.length_append, List.length_cons,
                List.length_nil]
              omega)
          rw [hkey, hfresh st.uses.length (by omega) le_rfl]
          show _ = addUsesExpected st.defs startAddr endAddr en
          simp only [addUsesExpected, overlapDef]
          rw [if_pos hcond]
        | succ i =>
          simp only [List.length_cons] at hi
          have hkeq : st.uses.length + (i + 1) =
              (st.uses ++ [en.2.defIndex]).length + i := by
            simp only [List.length_append, List.length_cons,
              List.length_nil]
            omega
          rw [hkeq]
          have := hidx i (by omega)
          simp only [List.getD_cons_succ]
          exact this
    · obtain ⟨pu, hset, hWFpu, hcontent, _⟩ :=
        setAt_spec st.partialUses st.uses.length
          ⟨max startAddr en.2.startAddr, min endAddr en.1⟩ hWF (by omega)
      have hstep : UdState.addUsesStep startAddr endAddr st en =
          some { st with
                  uses := st.uses ++ [en.2.defIndex]
                  partialUses := pu } := by
        simp only [UdState.addUsesStep, if_neg hcond, hset]
        rfl
      obtain ⟨st2, h2, huses, hdefs, hspace, hWF2, habove, hbelow, hidx⟩ :=
        ih { st with uses := st.uses ++ [en.2.defIndex], partialUses := pu }
          hWFpu
          (fun k hk hge => by
            show keyLookup pu.entries k = none
            rw [hcontent k hk]
            simp only [List.length_append, List.length_cons,
              List.length_nil] at hge
            rw [if_neg (by omega)]
            exact hfresh k hk (by omega))
          (by
            simp only [List.length_append, List.length_cons,
              List.length_nil] at hcount ⊢
            omega)
      refine ⟨st2, ?_, ?_, hdefs, hspace, hWF2, ?_, ?_, ?_⟩
      · rw [List.foldlM_cons, hstep]
        exact h2
      · rw [huses]
        simp
      · intro k hk hge
        apply habove k hk
        simp only [List.length_append, List.length_cons, List.length_nil]
        simp only [List.length_cons] at hge
        omega
      · intro k hk hlt
        rw [hbelow k hk (by
          simp only [List.length_append, List.length_cons, List.length_nil]
          omega)]
        show keyLookup pu.entries k = _
        rw [hcontent k hk, if_neg (by omega)]
      · intro i hi
        cases i with
        | zero =>
          have hkey : keyLookup st2.partialUses.entries
              (st.uses.length + 0) = keyLookup pu.entries
              st.uses.length := by
            rw [Nat.add_zero]
            exact hbelow st.uses.length (by omega) (by
              simp only [List.length_append, List.length_cons,
                List.length_nil]
              omega)
          rw [hkey, hcontent st.uses.length (by omega), if_pos rfl]
          show _ = addUsesExpected st.defs startAddr endAddr en
          simp only [addUsesExpected, overlapDef]
          rw [if_neg hcond]
        | succ i =>
          simp only [List.length_cons] at hi
          have hkeq : st.uses.length + (i + 1) =
              (st.uses ++ [en.2.defIndex]).length + i := by
            simp only [List.length_append, List.length_cons,
              List.length_nil]
            omega
          rw [hkeq]
          have := hidx i (by omega)
          simp only [List.getD_cons_succ]
          exact this

/-- A nonempty covered interval is a strict subset of the covering one
exactly when the endpoint pairs differ. -/
theorem ico_ssubset_iff (a b c d : Nat) (hca : c ≤ a) (hbd : b ≤ d)
    (hab : a < b) :
    Finset.Ico a b ⊂ Finset.Ico c d ↔ ¬(c = a ∧ d = b) := by
  constructor
  · intro hss hcd
    obtain ⟨hc, hd⟩ := hcd
    subst hc
    subst hd
    exact lt_irrefl _ hss
  · intro hne
    rw [Finset.ssubset_iff_of_subset (Finset.Ico_subset_Ico hca hbd)]
    by_cases hc : c = a
    · have hd : b < d := by
        rcases Nat.lt_or_ge b d with h | h
        · exact h
        · exact absurd ⟨hc, by omega⟩ hne
      refine ⟨b, Finset.mem_Ico.mpr ⟨by omega, hd⟩, ?_⟩
      simp [Finset.mem_Ico]
    · have hca2 : c < a := by omega
      refine ⟨c, Finset.mem_Ico.mpr ⟨le_refl c, by omega⟩, ?_⟩
      simp only [Finset.mem_Ico, not_and, not_lt]
      intro hac
      omega

/-- C1: `AddUses(start, size)` appends one use per live interval walked
from `lower_bound(start+1)` while the interval starts below `start+size`;
for the i-th walked entry, with `ov` the intersection of the read range
with the live interval and `d` the def it was recorded from, no partial
use is left exactly when `d = ov`, a partial use is left exactly when `ov`
is a strict subset of the range of `d`, and any partial use left equals
`ov`; defs and the interval map are untouched. Hypotheses: the table
invariant, freshness of indices at and above `uses.length`, no index
overflow, each walked overlap nonempty and covered by its recorded def
(all maintained by the builder). -/
theorem addUses_spec (M : Nat) (st : UdState) (startAddr size : Nat)
    (hWF : tableWF st.partialUses)
    (hfresh : ∀ k, k ≠ kEmpty → st.uses.length ≤ k →
      keyLookup st.partialUses.entries k = none)
    (hcount : st.uses.length + (affectedEntries st.addressSpace
      ((startAddr + 1) % M) ((startAddr + size) % M)).length < kEmpty)
    (hcover : ∀ en ∈ affectedEntries st.addressSpace ((startAddr + 1) % M)
        ((startAddr + size) % M),
      (st.defs.getD en.2.defIndex ⟨0, 0⟩).startAddr ≤
        max startAddr en.2.startAddr ∧
      min ((startAddr + size) % M) en.1 ≤
        (st.defs.getD en.2.defIndex ⟨0, 0⟩).endAddr)
    (hnon : ∀ en ∈ affectedEntries st.addressSpace ((startAddr + 1) % M)
        ((startAddr + size) % M),
      max startAddr en.2.startAddr < min ((startAddr + size) % M) en.1) :
    ∃ st2, st.addUses M startAddr size = some st2 ∧
      st2.uses = st.uses ++ (affectedEntries st.addressSpace
        ((startAddr + 1) % M) ((startAddr + size) % M)).map
        (fun en => en.2.defIndex) ∧
      st2.defs = st.defs ∧
      st2.addressSpace = st.addressSpace ∧
      tableWF st2.partialUses ∧
      ∀ i, i < (affectedEntries st.addressSpace ((startAddr + 1) % M)
          ((startAddr + size) % M)).length →
        ∀ en, en = (affectedEntries st.addressSpace ((startAddr + 1) % M)
          ((startAddr + size) % M)).getD i (0, ⟨0, 0⟩) →
        keyLookup st2.partialUses.entries (st.uses.length + i) =
          addUsesExpected st.defs startAddr ((startAddr + size) % M) en ∧
        (keyLookup st2.partialUses.entries (st.uses.length + i) = none ↔
          st.defs.getD en.2.defIndex ⟨0, 0⟩ =
            overlapDef startAddr ((startAddr + size) % M) en) ∧
        (keyLookup st2.partialUses.entries (st.uses.length + i) =
            some (overlapDef startAddr ((startAddr + size) % M) en) ↔
          Finset.Ico
            (overlapDef startAddr ((startAddr + size) % M) en).startAddr
            (overlapDef startAddr ((startAddr + size) % M) en).endAddr ⊂
          Finset.Ico (st.defs.getD en.2.defIndex ⟨0, 0⟩).startAddr
            (st.defs.getD en.2.defIndex ⟨0, 0⟩).endAddr) ∧
        ∀ pd, keyLookup st2.partialUses.entries (st.uses.length + i) =
            some pd →
          pd = overlapDef startAddr ((startAddr + size) % M) en := by
  obtain ⟨st2, h2, huses, hdefs, hspace, hWF2, _, _, hidx⟩ :=
    addUsesFold_spec startAddr ((startAddr + size) % M)
      (affectedEntries st.addressSpace ((startAddr + 1) % M)
        ((startAddr + size) % M)) st hWF hfresh hcount
  refine ⟨st2, h2, huses, hdefs, hspace, hWF2, ?_⟩
  intro i hi en hen
  have hmem : en ∈ affectedEntries st.addressSpace ((startAddr + 1) % M)
      ((startAddr + size) % M) := by
    rw [hen, List.getD_eq_getElem _ _ hi]
    exact List.getElem_mem _
  have heq := hidx i hi
  rw [← hen] at heq
  obtain ⟨hcov1, hcov2⟩ := hcover en hmem
  have hne := hnon en hmem
  simp only [overlapDef] at hcov1 hcov2 hne ⊢
  have hss := ico_ssubset_iff (max startAddr en.2.startAddr)
    (min ((startAddr + size) % M) en.1)
    (st.defs.getD en.2.defIndex ⟨0, 0⟩).startAddr
    (st.defs.getD en.2.defIndex ⟨0, 0⟩).endAddr hcov1 hcov2 hne
  rw [heq]
  simp only [addUsesExpected, overlapDef]
  by_cases hcond : (st.defs.getD en.2.defIndex ⟨0, 0⟩).startAddr =
      max startAddr en.2.startAddr ∧
      (st.defs.getD en.2.defIndex ⟨0, 0⟩).endAddr =
        min ((startAddr + size) % M) en.1
  · rw [if_pos hcond]
    refine ⟨trivial, ?_, ?_, ?_⟩
    · exact ⟨fun _ => (def_eq_iff _ _).mpr
        ⟨hcond.1, hcond.2⟩, fun _ => rfl⟩
    · exact ⟨fun h => Option.noConfusion h,
        fun h => absurd hcond (hss.mp h)⟩
    · intro pd h
      exact Option.noConfusion h
  · rw [if_neg hcond]
    refine ⟨trivial, ?_, ?_, ?_⟩
    · exact ⟨fun h => Option.noConfusion h,
        fun h => absurd ⟨((def_eq_iff _ _).mp h).1,
          ((def_eq_iff _ _).mp h).2⟩ hcond⟩
    · exact ⟨fun _ => hss.mpr hcond, fun _ => rfl⟩
    · intro pd h
      exact (Option.some_inj.mp h).symm

/-- Concrete analyzer state for the `AddUses` witness: two live intervals,
`[0, 10)` written by def 0 (`[0, 100)`) and `[10, 15)` written by def 1
(`[10, 15)`). -/
def c1St : UdState :=
  { uses := []
    partialUses := PartialUses.freshInit
    defs := [⟨0, 100⟩, ⟨10, 15⟩]
    addressSpace := [(10, ⟨0, 0⟩), (15, ⟨10, 1⟩)] }

/-- Witness instantiating the C1 statement: reading `[5, 15)` emits two
uses; the first overlap `[5, 10)` is strictly inside def 0 so a partial
use is written, the second overlap `[10, 15)` equals def 1 exactly so none
is. -/
theorem addUses_spec_witness :
    (∀ en ∈ affectedEntries c1St.addressSpace ((5 + 1) % 2 ^ 32)
        ((5 + 10) % 2 ^ 32),
      max 5 en.2.startAddr < min ((5 + 10) % 2 ^ 32) en.1) ∧
    ∃ st2, c1St.addUses (2 ^ 32) 5 10 = some st2 ∧
      st2.uses = [0, 1] ∧
      keyLookup st2.partialUses.entries 0 = some ⟨5, 10⟩ ∧
      keyLookup st2.partialUses.entries 1 = none := by
  refine ⟨by decide, ?_⟩
  obtain ⟨st2, h2, huses, hdefs, hspace, hWF2, hper⟩ :=
    addUses_spec (2 ^ 32) c1St 5 10 tableWF_freshInit
      (fun k hk _ => keyLookup_freshInit k hk) (by decide) (by decide)
      (by decide)
  refine ⟨st2, h2, ?_, ?_, ?_⟩
  · rw [huses]
    decide
  · have h := (hper 0 (by decide) _ rfl).1
    rw [show c1St.uses.length + 0 = 0 by decide] at h
    rw [h]
    decide
  · have h := (hper 1 (by decide) _ rfl).1
    rw [show c1St.uses.length + 1 = 1 by decide] at h
    rw [h]
    decide

/-- Indices of the records at which the seek walk advances `insnIndex`: a
record carrying a sequence number (the `LdSt`, `InsnExec` and `LdStNx`
entry classes, hence also tag `REG`) whose sequence differs from the
previously carried one. -/
def onsetIndicesFrom (prev : Nat) : List Record → List Nat
  | [] => []
  | r :: rest =>
    match recordInsnSeq? r with
    | some q =>
      if q ≠ prev then 0 :: (onsetIndicesFrom q rest).map (· + 1)
      else (onsetIndicesFrom prev rest).map (· + 1)
    | none => (onsetIndicesFrom prev rest).map (· + 1)

/-- Generalised seek-loop characterisation: from a state whose counter has
advanced `c` times and whose previous sequence is `prev`, seeking target
`k ≥ c` stops exactly at the `(k - c)`-th upcoming advance. -/
theorem seekLoop_char (records : List Record) :
    ∀ (prev c k : Nat), c ≤ k → k + 1 < 2 ^ 64 →
      seekLoop ⟨(2 ^ 64 - 1 + c) % 2 ^ 64, prev⟩ k records =
        (onsetIndicesFrom prev records)[k - c]? := by
  induction records with
  | nil =>
    intro prev c k _ _
    simp [seekLoop, onsetIndicesFrom]
  | cons r rest ih =>
    intro prev c k hck hk
    have hnostop : ¬((2 ^ 64 - 1 + c) % 2 ^ 64 = k) := by omega
    rw [seekLoop, onsetIndicesFrom]
    cases hrq : recordInsnSeq? r with
    | none =>
      simp only [SeekState.step, hrq, if_neg hnostop, ih prev c k hck hk,
        List.getElem?_map]
    | some q =>
      by_cases hqp : q = prev
      · have hnn : ¬(q ≠ prev) := fun h => h hqp
        simp only [SeekState.step, hrq, SeekState.handleInsnSeq, if_neg hnn,
          if_neg hnostop, ih prev c k hck hk, List.getElem?_map]
      · have hbump : ((2 ^ 64 - 1 + c) % 2 ^ 64 + 1) % 2 ^ 64 = c := by
          omega
        simp only [SeekState.step, hrq, SeekState.handleInsnSeq,
          if_pos hqp, hbump]
        by_cases hceq : c = k
        · simp [hceq]
        · have h1 : (2 ^ 64 - 1 + (c + 1)) % 2 ^ 64 = c := by omega
          have ih2 := ih q (c + 1) k (by omega) hk
          rw [h1] at ih2
          simp only [if_neg hceq, ih2, List.getElem?_map]
          have hkc : k - c = (k - (c + 1)) + 1 := by omega
          rw [hkc, List.getElem?_cons_succ, List.getElem?_map]

/-- C7 (amended): seeking to instruction `k < 2^64 - 1` walks the records,
advancing `insnIndex` exactly on records of the sequence-bearing classes —
tags LOAD, STORE, REG, GET_REG, PUT_REG, INSN_EXEC, GET_REG_NX,
PUT_REG_NX — whose sequence differs from the previously seen one (MMAP and
INSN never advance), and stops with the cursor at the `(k+1)`-th such
record, failing if the stream ends first; equivalently it returns the
`k`-th advance index. (The original claim is refuted because its tag list
omits REG.) -/
theorem seekInsn_spec (records : List Record) (k : Nat)
    (hk : k + 1 < 2 ^ 64) :
    seekInsn records k = (onsetIndicesFrom (2 ^ 32 - 1) records)[k]? := by
  have h0 : ((2 : Nat) ^ 64 - 1 + 0) % 2 ^ 64 = 2 ^ 64 - 1 := by
    omega
  have := seekLoop_char records (2 ^ 32 - 1) 0 k (Nat.zero_le k) hk
  rw [h0, Nat.sub_zero] at this
  exact this

/-- Concrete record stream for the seek witness: an MMAP that never
advances, then three sequence onsets (5, 5 again merged, 6). -/
def c7Records : List Record :=
  [.mmap 0 0 0, .ldSt .load 5 0 4, .insnExec 5, .ldSt .store 6 0 4]

/-- Witness instantiating the amended C7 statement: on the concrete
stream, seeking instruction 1 lands on record index 3. -/
theorem seekInsn_spec_witness :
    1 + 1 < 2 ^ 64 ∧
    seekInsn c7Records 1 = (onsetIndicesFrom (2 ^ 32 - 1) c7Records)[1]? :=
  ⟨by norm_num, seekInsn_spec c7Records 1 (by norm_num)⟩

/-- The live-writer map invariant: the entries, in key order, tile the
address range `[lo, hi)` without gap or overlap — each entry starts where
the running bound stands, is nonempty, and moves the bound to its key. -/
def isPartition (lo hi : Nat) : AddressSpace → Prop
  | [] => lo = hi
  | (e, v) :: rest => v.startAddr = lo ∧ lo < e ∧ isPartition e hi rest

/-- A partition has a nondecreasing bound. -/
theorem isPartition_le (l : AddressSpace) :
    ∀ lo hi, isPartition lo hi l → lo ≤ hi := by
  induction l with
  | nil => intro lo hi h; exact le_of_eq h
  | cons en rest ih =>
    intro lo hi h
    obtain ⟨e, v⟩ := en
    obtain ⟨_, hlt, hrest⟩ := h
    exact le_trans (le_of_lt hlt) (ih e hi hrest)

/-- Entry bounds inside a partition: keys lie in `(lo, hi]`, starts in
`[lo, hi)`, and every entry is nonempty. -/
theorem isPartition_mem (l : AddressSpace) :
    ∀ lo hi, isPartition lo hi l → ∀ en ∈ l,
      lo < en.1 ∧ en.1 ≤ hi ∧ lo ≤ en.2.startAddr ∧
        en.2.startAddr < en.1 := by
  induction l with
  | nil => intro lo hi _ en hen; cases hen
  | cons a rest ih =>
    intro lo hi h en hen
    obtain ⟨e, v⟩ := a
    obtain ⟨hs, hlt, hrest⟩ := h
    rcases List.mem_cons.mp hen with heq | hmem
    · subst heq
      exact ⟨hlt, isPartition_le rest e hi hrest, le_of_eq hs.symm,
        by show v.startAddr < e; omega⟩
    · obtain ⟨h1, h2, h3, h4⟩ := ih e hi hrest en hmem
      exact ⟨by omega, h2, by omega, h4⟩

/-- The last entry of a nonempty partition carries the upper bound as its
key. -/
theorem isPartition_last (l : AddressSpace) :
    ∀ lo hi d, isPartition lo hi l → l ≠ [] → (l.getLastD d).1 = hi := by
  induction l with
  | nil => intro lo hi d _ hne; exact absurd rfl hne
  | cons a rest ih =>
    intro lo hi d h _
    obtain ⟨e, v⟩ := a
    obtain ⟨_, _, hrest⟩ := h
    cases hr : rest with
    | nil =>
      subst hr
      show e = hi
      exact hrest
    | cons b rest2 =>
      rw [List.getLastD_cons]
      rw [← hr]
      exact ih e hi (e, v) hrest (by rw [hr]; exact List.cons_ne_nil _ _)

/-- Splitting a partition at a concatenation point. -/
theorem isPartition_append (xs : AddressSpace) :
    ∀ lo hi (ys : AddressSpace), isPartition lo hi (xs ++ ys) ↔
      ∃ mid, isPartition lo mid xs ∧ isPartition mid hi ys := by
  induction xs with
  | nil =>
    intro lo hi ys
    constructor
    · intro h
      exact ⟨lo, rfl, h⟩
    · intro ⟨mid, hm, hy⟩
      show isPartition lo hi ys
      have : lo = mid := hm
      rw [this]
      exact hy
  | cons a rest ih =>
    intro lo hi ys
    obtain ⟨e, v⟩ := a
    constructor
    · intro h
      obtain ⟨hs, hlt, htail⟩ := h
      obtain ⟨mid, h1, h2⟩ := (ih e hi ys).mp htail
      exact ⟨mid, ⟨hs, hlt, h1⟩, h2⟩
    · intro ⟨mid, hm, hy⟩
      obtain ⟨hs, hlt, hrest⟩ := hm
      exact ⟨hs, hlt, (ih e hi ys).mpr ⟨mid, hrest, hy⟩⟩

/-- Inserting a key greater than every key of a prefix walks past it. -/
theorem mapInsert_skip (k : Nat) (v : EntryValue) (xs : AddressSpace) :
    ∀ ys, (∀ en ∈ xs, en.1 < k) →
      mapInsert k v (xs ++ ys) = xs ++ mapInsert k v ys := by
  induction xs with
  | nil => intro ys _; rfl
  | cons a rest ih =>
    intro ys h
    obtain ⟨k1, v1⟩ := a
    have hk1 : k1 < k := (h (k1, v1) (List.mem_cons_self _ _))
    show mapInsert k v ((k1, v1) :: (rest ++ ys)) = _
    rw [mapInsert]
    rw [if_neg (by omega), if_neg (by omega)]
    rw [ih ys (fun en hen => h en (List.mem_cons_of_mem _ hen))]
    rfl

/-- Inserting a key smaller than every key present prepends the entry. -/
theorem mapInsert_front (k : Nat) (v : EntryValue) (ys : AddressSpace)
    (h : ∀ en ∈ ys, k < en.1) : mapInsert k v ys = (k, v) :: ys := by
  cases ys with
  | nil => rfl
  | cons a rest =>
    obtain ⟨k1, v1⟩ := a
    rw [mapInsert]
    rw [if_pos (h (k1, v1) (List.mem_cons_self _ _))]

/-- Membership after an insertion. -/
theorem mapInsert_mem (k : Nat) (v : EntryValue) :
    ∀ (m : AddressSpace) en, en ∈ mapInsert k v m →
      en = (k, v) ∨ en ∈ m := by
  intro m
  induction m with
  | nil =>
    intro en hen
    rcases List.mem_cons.mp hen with h | h
    · exact Or.inl h
    · cases h
  | cons a rest ih =>
    intro en hen
    obtain ⟨k1, v1⟩ := a
    rw [mapInsert] at hen
    by_cases h1 : k < k1
    · rw [if_pos h1] at hen
      rcases List.mem_cons.mp hen with h | h
      · exact Or.inl h
      · exact Or.inr h
    · rw [if_neg h1] at hen
      by_cases h2 : k = k1
      · rw [if_pos h2] at hen
        rcases List.mem_cons.mp hen with h | h
        · exact Or.inl h
        · exact Or.inr (List.mem_cons_of_mem _ h)
      · rw [if_neg h2] at hen
        rcases List.mem_cons.mp hen with h | h
        · exact Or.inr (by rw [h]; exact List.mem_cons_self _ _)
        · rcases ih en h with h3 | h3
          · exact Or.inl h3
          · exact Or.inr (List.mem_cons_of_mem _ h3)

/-- Default-independence of `getLastD` on nonempty lists. -/
theorem getLastD_indep {α : Type} (l : List α) :
    ∀ d1 d2 : α, l ≠ [] → l.getLastD d1 = l.getLastD d2 := by
  induction l with
  | nil => intro d1 d2 h; exact absurd rfl h
  | cons a rest ih =>
    intro d1 d2 _
    cases rest with
    | nil => rfl
    | cons b rest2 =>
      exact (List.getLastD_cons _ _ _).trans
        (List.getLastD_cons _ _ _).symm

/-- The defaulted last element of a nonempty list is a member. -/
theorem getLastD_mem {α : Type} (l : List α) :
    ∀ d : α, l ≠ [] → l.getLastD d ∈ l := by
  induction l with
  | nil => intro d h; exact absurd rfl h
  | cons a rest ih =>
    intro d _
    cases rest with
    | nil => exact List.mem_cons_self _ _
    | cons b rest2 =>
      rw [List.getLastD_cons]
      exact List.mem_cons_of_mem _ (ih a (List.cons_ne_nil _ _))

/-- Elements of a `takeWhile` prefix satisfy the predicate. -/
theorem takeWhile_mem_pred {α : Type} (p : α → Bool) :
    ∀ (l : List α) x, x ∈ l.takeWhile p → p x = true := by
  intro l
  induction l with
  | nil => intro x hx; cases hx
  | cons a rest ih =>
    intro x hx
    rw [List.takeWhile_cons] at hx
    by_cases hp : p a
    · rw [if_pos hp] at hx
      rcases List.mem_cons.mp hx with h | h
      · rw [h]; exact hp
      · exact ih x h
    · rw [if_neg hp] at hx
      cases hx

/-- The head surviving a `dropWhile` fails the predicate. -/
theorem dropWhile_head_pred {α : Type} (p : α → Bool) :
    ∀ (l : List α) x xs, l.dropWhile p = x :: xs → p x = false := by
  intro l
  induction l with
  | nil => intro x xs h; cases h
  | cons a rest ih =>
    intro x xs h
    rw [List.dropWhile_cons] at h
    by_cases hp : p a
    · rw [if_pos hp] at h
      exact ih x xs h
    · rw [if_neg hp] at h
      cases h
      simpa using hp

/-- Residue fold over the affected entries past the first: every such
entry starts at or after the written start, so only the final entry can
leave a residue — the clipped tail `[endAddr, b2)` when the write ends
inside it. -/
theorem residueFoldTail (startAddr endAddr : Nat) :
    ∀ (A : AddressSpace) (a : Nat × EntryValue) (b2 : Nat)
      (base : AddressSpace),
      isPartition a.2.startAddr b2 (a :: A) →
      (∀ en ∈ a :: A, en.2.startAddr < endAddr) →
      startAddr ≤ a.2.startAddr → endAddr ≤ b2 →
      (a :: A).foldl (addDefsResidues startAddr endAddr) base =
        (if endAddr < b2 then
          mapInsert b2 ⟨endAddr, ((a :: A).getLastD a).2.defIndex⟩ base
        else base) := by
  intro A
  induction A with
  | nil =>
    intro a b2 base hpart hmem hstart hend
    obtain ⟨e, v⟩ := a
    obtain ⟨_, hlt, hnil⟩ := hpart
    have he : e = b2 := hnil
    show addDefsResidues startAddr endAddr base (e, v) = _
    rw [addDefsResidues]
    rw [if_pos hstart]
    subst he
    rfl
  | cons b A2 ih =>
    intro a b2 base hpart hmem hstart hend
    obtain ⟨e, v⟩ := a
    obtain ⟨_, hlt, htail⟩ := hpart
    have hbs : b.2.startAddr = e := htail.1
    have hbe : e < endAddr := by
      have := hmem b (List.mem_cons_of_mem _ (List.mem_cons_self _ _))
      omega
    have hstep : addDefsResidues startAddr endAddr base (e, v) = base := by
      rw [addDefsResidues]
      rw [if_pos hstart, if_neg (by omega)]
    show List.foldl (addDefsResidues startAddr endAddr)
      (addDefsResidues startAddr endAddr base (e, v)) (b :: A2) = _
    rw [hstep]
    have hpart2 : isPartition b.2.startAddr b2 (b :: A2) := by
      rw [hbs]
      exact htail
    have hres := ih b b2 base hpart2
      (fun en hen => hmem en (List.mem_cons_of_mem _ hen))
      (by omega) hend
    rw [hres]
    simp only [List.getLastD_cons]

/-- Residue fold over all affected entries: the first may leave the
clipped head `[s0, startAddr)`, the last may leave the clipped tail
`[endAddr, b2)`, and every middle entry vanishes. -/
theorem residueFold (startAddr endAddr : Nat) (a : Nat × EntryValue)
    (A : AddressSpace) (b2 : Nat) (base : AddressSpace)
    (hpart : isPartition a.2.startAddr b2 (a :: A))
    (hmem : ∀ en ∈ a :: A, en.2.startAddr < endAddr)
    (hb1 : a.2.startAddr ≤ startAddr) (hend : endAddr ≤ b2)
    (hk : startAddr < a.1) :
    (a :: A).foldl (addDefsResidues startAddr endAddr) base =
      (if endAddr < b2 then
        mapInsert b2 ⟨endAddr, ((a :: A).getLastD a).2.defIndex⟩
          (if a.2.startAddr < startAddr then
            mapInsert startAddr ⟨a.2.startAddr, a.2.defIndex⟩ base
          else base)
      else
        (if a.2.startAddr < startAddr then
          mapInsert startAddr ⟨a.2.startAddr, a.2.defIndex⟩ base
        else base)) := by
  obtain ⟨e, v⟩ := a
  cases A with
  | nil =>
    obtain ⟨_, hlt, hnil⟩ := hpart
    have he : e = b2 := hnil
    show addDefsResidues startAddr endAddr base (e, v) = _
    rw [addDefsResidues]
    subst he
    by_cases hvs : v.startAddr < startAddr
    · rw [if_neg (by show ¬(startAddr ≤ (e, v).2.startAddr); omega)]
      simp only [if_pos hvs]
      rfl
    · rw [if_pos (by show startAddr ≤ (e, v).2.startAddr; omega)]
      simp only [if_neg hvs]
      rfl
  | cons b A2 =>
    obtain ⟨_, hlt, htail⟩ := hpart
    have hbs : b.2.startAddr = e := htail.1
    have hbe : e < endAddr := by
      have := hmem b (List.mem_cons_of_mem _ (List.mem_cons_self _ _))
      omega
    have hstep : addDefsResidues startAddr endAddr base (e, v) =
        (if v.startAddr < startAddr then
          mapInsert startAddr ⟨v.startAddr, v.defIndex⟩ base
        else base) := by
      rw [addDefsResidues]
      by_cases hvs : v.startAddr < startAddr
      · rw [if_neg (by show ¬(startAddr ≤ (e, v).2.startAddr); omega)]
        rw [if_neg (by show ¬(endAddr < (e, v).1); omega)]
        rw [if_pos hvs]
      · rw [if_pos (by show startAddr ≤ (e, v).2.startAddr; omega)]
        rw [if_neg (by show ¬(endAddr < (e, v).1); omega)]
        rw [if_neg hvs]
    show List.foldl (addDefsResidues startAddr endAddr)
      (addDefsResidues startAddr endAddr base (e, v)) (b :: A2) = _
    rw [hstep]
    have hpart2 : isPartition b.2.startAddr b2 (b :: A2) := by
      rw [hbs]
      exact htail
    have hres := residueFoldTail startAddr endAddr A2 b b2
      (if v.startAddr < startAddr then
        mapInsert startAddr ⟨v.startAddr, v.defIndex⟩ base
      else base) hpart2
      (fun en hen => hmem en (List.mem_cons_of_mem _ hen))
      (by omega) hend
    rw [hres]
    simp only [List.getLastD_cons]

/-- Untouched prefix of the map during `AddDefs`: entries with key below
`lower_bound(start+1)`. -/
def mapP (m : AddressSpace) (lb : Nat) : AddressSpace :=
  m.takeWhile fun en => en.1 < lb

/-- Untouched suffix of the map during `AddDefs`: entries past the walk. -/
def mapS (m : AddressSpace) (lb endAddr : Nat) : AddressSpace :=
  (m.dropWhile fun en => en.1 < lb).dropWhile
    fun en => en.2.startAddr < endAddr

/-- Residue the first affected entry leaves: its head `[s, start)` clipped
at the write start, when nonempty. -/
def headResidue (startAddr : Nat) (A : AddressSpace) : AddressSpace :=
  let a := A.headD (0, ⟨0, 0⟩)
  if a.2.startAddr < startAddr then
    [(startAddr, ⟨a.2.startAddr, a.2.defIndex⟩)]
  else []

/-- Residue the last affected entry leaves: its tail `[end, e)` clipped at
the write end, when nonempty. -/
def tailResidue (endAddr : Nat) (A : AddressSpace) : AddressSpace :=
  let a := A.getLastD (0, ⟨0, 0⟩)
  if endAddr < a.1 then [(a.1, ⟨endAddr, a.2.defIndex⟩)] else []
/-- Core specification of `AddDefs` on a partitioned map, for an in-range
nonempty write: the call succeeds, appends exactly `Def{start, start+size}`
to the defs stream, and replaces the walked entries by the head residue of
the first, the new entry, and the tail residue of the last, preserving the
partition invariant. -/
theorem addDefs_partition_core (M : Nat) (st : UdState)
    (startAddr size L : Nat)
    (hpart : isPartition 0 L st.addressSpace)
    (hsize : 0 < size) (hle : startAddr + size ≤ L) (hLM : L < M)
    (hcap : (affectedEntries st.addressSpace (startAddr + 1)
      (startAddr + size)).length ≤ 32) :
    ∃ st2, st.addDefs M startAddr size = some st2 ∧
      st2.uses = st.uses ∧
      st2.partialUses = st.partialUses ∧
      st2.defs = st.defs ++ [⟨startAddr, startAddr + size⟩] ∧
      affectedEntries st.addressSpace (startAddr + 1) (startAddr + size)
        ≠ [] ∧
      st2.addressSpace =
        mapP st.addressSpace (startAddr + 1) ++
        headResidue startAddr (affectedEntries st.addressSpace
          (startAddr + 1) (startAddr + size)) ++
        [(startAddr + size, ⟨startAddr, st.defs.length⟩)] ++
        tailResidue (startAddr + size) (affectedEntries st.addressSpace
          (startAddr + 1) (startAddr + size)) ++
        mapS st.addressSpace (startAddr + 1) (startAddr + size) ∧
      isPartition 0 L st2.addressSpace := by
  have hm1 : (startAddr + 1) % M = startAddr + 1 :=
    Nat.mod_eq_of_lt (by omega)
  have hm2 : (startAddr + size) % M = startAddr + size :=
    Nat.mod_eq_of_lt (by omega)
  have hsplitm : (st.addressSpace.takeWhile fun en =>
        en.1 < startAddr + 1) ++
      (st.addressSpace.dropWhile fun en => en.1 < startAddr + 1) =
      st.addressSpace := List.takeWhile_append_dropWhile _ _
  obtain ⟨mid, hP, hrest⟩ := (isPartition_append
    (st.addressSpace.takeWhile fun en => en.1 < startAddr + 1) 0 L
    (st.addressSpace.dropWhile fun en => en.1 < startAddr + 1)).mp
    (by rw [hsplitm]; exact hpart)
  have hmidle : mid ≤ startAddr := by
    by_cases hPe : (st.addressSpace.takeWhile fun en =>
        en.1 < startAddr + 1) = []
    · rw [hPe] at hP
      have h0 : (0 : Nat) = mid := hP
      omega
    · have hlast := isPartition_last _ 0 mid (0, ⟨0, 0⟩) hP hPe
      have hmemP := getLastD_mem _ (0, ⟨0, 0⟩) hPe
      have hpred := takeWhile_mem_pred _ st.addressSpace _ hmemP
      have : ((st.addressSpace.takeWhile fun en =>
          en.1 < startAddr + 1).getLastD (0, ⟨0, 0⟩)).1 < startAddr + 1 :=
        by simpa using hpred
      omega
  have hrestne : (st.addressSpace.dropWhile fun en =>
      en.1 < startAddr + 1) ≠ [] := by
    intro h
    rw [h] at hrest
    have : mid = L := hrest
    omega
  cases hr : st.addressSpace.dropWhile fun en => en.1 < startAddr + 1 with
  | nil => exact absurd hr hrestne
  | cons r0 rest1 =>
  rw [hr] at hrest
  obtain ⟨hr0s, hr0k, hrest1⟩ := hrest
  have hk0 : ¬(r0.1 < startAddr + 1) := by
    have := dropWhile_head_pred _ st.addressSpace r0 rest1 hr
    simpa using this
  have hAeq : affectedEntries st.addressSpace (startAddr + 1)
      (startAddr + size) =
      r0 :: rest1.takeWhile fun en => en.2.startAddr < startAddr + size
      := by
    show (st.addressSpace.dropWhile fun en =>
      en.1 < startAddr + 1).takeWhile
        (fun en => en.2.startAddr < startAddr + size) = _
    rw [hr, List.takeWhile_cons]
    rw [if_pos (by simp only [decide_eq_true_eq]; omega)]
  have hSeq : mapS st.addressSpace (startAddr + 1) (startAddr + size) =
      rest1.dropWhile fun en => en.2.startAddr < startAddr + size := by
    show (st.addressSpace.dropWhile fun en =>
      en.1 < startAddr + 1).dropWhile
        (fun en => en.2.startAddr < startAddr + size) = _
    rw [hr, List.dropWhile_cons]
    rw [if_pos (by simp only [decide_eq_true_eq]; omega)]
  have hASsplit : affectedEntries st.addressSpace (startAddr + 1)
      (startAddr + size) ++
      mapS st.addressSpace (startAddr + 1) (startAddr + size) =
      r0 :: rest1 := by
    rw [hAeq, hSeq]
    show r0 :: (rest1.takeWhile _ ++ rest1.dropWhile _) = _
    rw [List.takeWhile_append_dropWhile]
  obtain ⟨b2, hA, hS⟩ := (isPartition_append
    (affectedEntries st.addressSpace (startAddr + 1) (startAddr + size))
    mid L
    (mapS st.addressSpace (startAddr + 1) (startAddr + size))).mp
    (by
      rw [hASsplit]
      exact ⟨hr0s, hr0k, hrest1⟩)
  have hAne : affectedEntries st.addressSpace (startAddr + 1)
      (startAddr + size) ≠ [] := by
    rw [hAeq]
    exact List.cons_ne_nil _ _
  have hb2 : ((affectedEntries st.addressSpace (startAddr + 1)
      (startAddr + size)).getLastD (0, ⟨0, 0⟩)).1 = b2 :=
    isPartition_last _ mid b2 (0, ⟨0, 0⟩) hA hAne
  have hendb2 : startAddr + size ≤ b2 := by
    by_cases hSe : mapS st.addressSpace (startAddr + 1)
        (startAddr + size) = []
    · rw [hSe] at hS
      have : b2 = L := hS
      omega
    · cases hs : mapS st.addressSpace (startAddr + 1)
          (startAddr + size) with
      | nil => exact absurd hs hSe
      | cons s0 S1 =>
        have hpred : ¬(s0.2.startAddr < startAddr + size) := by
          have := dropWhile_head_pred _
            (st.addressSpace.dropWhile fun en => en.1 < startAddr + 1)
            s0 S1 (by rw [← hs]; rfl)
          simpa using this
        rw [hs] at hS
        have hs0 : s0.2.startAddr = b2 := hS.1
        omega
  have hApart : isPartition r0.2.startAddr b2
      (r0 :: rest1.takeWhile fun en => en.2.startAddr < startAddr + size)
      := by
    rw [hr0s, ← hAeq]
    exact hA
  have hAmem : ∀ en ∈ (r0 :: rest1.takeWhile fun en =>
      en.2.startAddr < startAddr + size),
      en.2.startAddr < startAddr + size := by
    intro en hen
    rw [← hAeq] at hen
    have hen2 : en ∈ (st.addressSpace.dropWhile fun en =>
        en.1 < startAddr + 1).takeWhile
        (fun en => decide (en.2.startAddr < startAddr + size)) := hen
    have := takeWhile_mem_pred _ _ en hen2
    simpa using this
  have hPmem : ∀ en ∈ mapP st.addressSpace (startAddr + 1), en.1 ≤ mid :=
    fun en hen => (isPartition_mem _ 0 mid hP en hen).2.1
  have hSmem : ∀ en ∈ mapS st.addressSpace (startAddr + 1)
      (startAddr + size), b2 < en.1 :=
    fun en hen => (isPartition_mem _ b2 L hS en hen).1
  have hfold := residueFold startAddr (startAddr + size) r0
    (rest1.takeWhile fun en => en.2.startAddr < startAddr + size) b2
    (mapP st.addressSpace (startAddr + 1) ++
      mapS st.addressSpace (startAddr + 1) (startAddr + size))
    hApart hAmem (by omega) hendb2 (by omega)
  have hX : (if r0.2.startAddr < startAddr then
      mapInsert startAddr ⟨r0.2.startAddr, r0.2.defIndex⟩
        (mapP st.addressSpace (startAddr + 1) ++
         mapS st.addressSpace (startAddr + 1) (startAddr + size))
    else
      (mapP st.addressSpace (startAddr + 1) ++
       mapS st.addressSpace (startAddr + 1) (startAddr + size))) =
      mapP st.addressSpace (startAddr + 1) ++
      headResidue startAddr (affectedEntries st.addressSpace
        (startAddr + 1) (startAddr + size)) ++
      mapS st.addressSpace (startAddr + 1) (startAddr + size) := by
    by_cases hhr : r0.2.startAddr < startAddr
    · rw [if_pos hhr]
      rw [mapInsert_skip _ _ _ _ (fun en hen => by
        have := hPmem en hen
        omega)]
      rw [mapInsert_front _ _ _ (fun en hen => by
        have := hSmem en hen
        omega)]
      rw [headResidue, hAeq]
      simp only [List.headD_cons, if_pos hhr, List.append_assoc,
        List.cons_append, List.nil_append]
    · rw [if_neg hhr]
      rw [headResidue, hAeq]
      simp only [List.headD_cons, if_neg hhr, List.append_nil]
  have hHRmem : ∀ en ∈ headResidue startAddr (affectedEntries
      st.addressSpace (startAddr + 1) (startAddr + size)),
      en.1 = startAddr := by
    intro en hen
    simp only [headResidue] at hen
    by_cases hc : ((affectedEntries st.addressSpace (startAddr + 1)
        (startAddr + size)).headD (0, ⟨0, 0⟩)).2.startAddr < startAddr
    · rw [if_pos hc] at hen
      rcases List.mem_cons.mp hen with h | h
      · rw [h]
      · cases h
    · rw [if_neg hc] at hen
      cases hen
  have hTRmem : ∀ en ∈ tailResidue (startAddr + size) (affectedEntries
      st.addressSpace (startAddr + 1) (startAddr + size)),
      en.1 = b2 := by
    intro en hen
    simp only [tailResidue] at hen
    by_cases hc : startAddr + size < ((affectedEntries st.addressSpace
        (startAddr + 1) (startAddr + size)).getLastD (0, ⟨0, 0⟩)).1
    · rw [if_pos hc] at hen
      rcases List.mem_cons.mp hen with h | h
      · rw [h]
        exact hb2
      · cases h
    · rw [if_neg hc] at hen
      cases hen
  have hm1v : (affectedEntries st.addressSpace (startAddr + 1)
      (startAddr + size)).foldl
      (addDefsResidues startAddr (startAddr + size))
      (mapP st.addressSpace (startAddr + 1) ++
       mapS st.addressSpace (startAddr + 1) (startAddr + size)) =
      mapP st.addressSpace (startAddr + 1) ++
      headResidue startAddr (affectedEntries st.addressSpace
        (startAddr + 1) (startAddr + size)) ++
      tailResidue (startAddr + size) (affectedEntries st.addressSpace
        (startAddr + 1) (startAddr + size)) ++
      mapS st.addressSpace (startAddr + 1) (startAddr + size) := by
    conv_lhs => rw [hAeq]
    rw [hfold]
    simp only [hX]
    have hdz : ((r0 :: rest1.takeWhile fun en =>
        en.2.startAddr < startAddr + size).getLastD r0) =
        ((affectedEntries st.addressSpace (startAddr + 1)
          (startAddr + size)).getLastD (0, ⟨0, 0⟩)) := by
      rw [hAeq]
      exact getLastD_indep _ _ _ (List.cons_ne_nil _ _)
    rw [hdz]
    by_cases htr : startAddr + size < b2
    · rw [if_pos htr]
      rw [show (mapP st.addressSpace (startAddr + 1) ++
          headResidue startAddr (affectedEntries st.addressSpace
            (startAddr + 1) (startAddr + size)) ++
          mapS st.addressSpace (startAddr + 1) (startAddr + size)) =
          (mapP st.addressSpace (startAddr + 1) ++
           headResidue startAddr (affectedEntries st.addressSpace
             (startAddr + 1) (startAddr + size))) ++
          mapS st.addressSpace (startAddr + 1) (startAddr + size)
        from rfl]
      rw [mapInsert_skip _ _ _ _ (fun en hen => by
        rcases List.mem_append.mp hen with h | h
        · have := hPmem en h
          omega
        · have := hHRmem en h
          omega)]
      rw [mapInsert_front _ _ _ (fun en hen => by
        have := hSmem en hen
        omega)]
      rw [tailResidue]
      simp only [hb2, if_pos htr]
      simp only [List.append_assoc, List.cons_append, List.nil_append]
    · rw [if_neg htr]
      rw [tailResidue]
      simp only [hb2, if_neg htr]
      simp only [List.append_assoc, List.append_nil, List.nil_append]
  have hTRlt : ∀ en ∈ tailResidue (startAddr + size) (affectedEntries
      st.addressSpace (startAddr + 1) (startAddr + size)),
      startAddr + size < en.1 := by
    intro en hen
    simp only [tailResidue] at hen
    by_cases hc : startAddr + size < ((affectedEntries st.addressSpace
        (startAddr + 1) (startAddr + size)).getLastD (0, ⟨0, 0⟩)).1
    · rw [if_pos hc] at hen
      rcases List.mem_cons.mp hen with h | h
      · rw [h]
        exact hc
      · cases h
    · rw [if_neg hc] at hen
      cases hen
  have hfinal : mapInsert (startAddr + size) ⟨startAddr, st.defs.length⟩
      (mapP st.addressSpace (startAddr + 1) ++
       headResidue startAddr (affectedEntries st.addressSpace
         (startAddr + 1) (startAddr + size)) ++
       tailResidue (startAddr + size) (affectedEntries st.addressSpace
         (startAddr + 1) (startAddr + size)) ++
       mapS st.addressSpace (startAddr + 1) (startAddr + size)) =
      mapP st.addressSpace (startAddr + 1) ++
      headResidue startAddr (affectedEntries st.addressSpace
        (startAddr + 1) (startAddr + size)) ++
      [(startAddr + size, ⟨startAddr, st.defs.length⟩)] ++
      tailResidue (startAddr + size) (affectedEntries st.addressSpace
        (startAddr + 1) (startAddr + size)) ++
      mapS st.addressSpace (startAddr + 1) (startAddr + size) := by
    rw [List.append_assoc (mapP st.addressSpace (startAddr + 1) ++
      headResidue startAddr (affectedEntries st.addressSpace
        (startAddr + 1) (startAddr + size)))]
    rw [mapInsert_skip _ _ _ _ (fun en hen => by
      rcases List.mem_append.mp hen with h | h
      · have := hPmem en h
        omega
      · have := hHRmem en h
        omega)]
    rw [mapInsert_front _ _ _ (fun en hen => by
      rcases List.mem_append.mp hen with h | h
      · exact hTRlt en h
      · have := hSmem en h
        omega)]
    simp only [List.append_assoc, List.cons_append, List.nil_append]
  have hHRpart : isPartition mid startAddr (headResidue startAddr
      (affectedEntries st.addressSpace (startAddr + 1)
        (startAddr + size))) := by
    have hhead : (affectedEntries st.addressSpace (startAddr + 1)
        (startAddr + size)).headD (0, ⟨0, 0⟩) = r0 := by
      rw [hAeq]
      rfl
    simp only [headResidue, hhead]
    by_cases hhr : r0.2.startAddr < startAddr
    · rw [if_pos hhr]
      exact ⟨hr0s, by omega, rfl⟩
    · rw [if_neg hhr]
      show mid = startAddr
      omega
  have hTRpart : isPartition (startAddr + size) b2
      (tailResidue (startAddr + size) (affectedEntries st.addressSpace
        (startAddr + 1) (startAddr + size))) := by
    simp only [tailResidue, hb2]
    by_cases htr : startAddr + size < b2
    · rw [if_pos htr]
      exact ⟨rfl, htr, rfl⟩
    · rw [if_neg htr]
      show startAddr + size = b2
      omega
  have hparts : isPartition 0 L
      (mapP st.addressSpace (startAddr + 1) ++
       headResidue startAddr (affectedEntries st.addressSpace
         (startAddr + 1) (startAddr + size)) ++
       [(startAddr + size, ⟨startAddr, st.defs.length⟩)] ++
       tailResidue (startAddr + size) (affectedEntries st.addressSpace
         (startAddr + 1) (startAddr + size)) ++
       mapS st.addressSpace (startAddr + 1) (startAddr + size)) := by
    refine (isPartition_append _ _ _ _).mpr ⟨b2, ?_, hS⟩
    refine (isPartition_append _ _ _ _).mpr ⟨startAddr + size, ?_, hTRpart⟩
    refine (isPartition_append _ _ _ _).mpr ⟨startAddr, ?_,
      ⟨rfl, by omega, rfl⟩⟩
    exact (isPartition_append _ _ _ _).mpr ⟨mid, hP, hHRpart⟩
  have haddDefs : st.addDefs M startAddr size = some
      (UdState.addDef { st with addressSpace :=
        ((affectedEntries st.addressSpace (startAddr + 1)
          (startAddr + size)).foldl
          (addDefsResidues startAddr (startAddr + size))
          ((st.addressSpace.takeWhile fun en => en.1 < startAddr + 1) ++
           ((st.addressSpace.dropWhile fun en =>
             en.1 < startAddr + 1).dropWhile
             fun en => en.2.startAddr < startAddr + size))) }
        startAddr (startAddr + size)) := by
    simp only [UdState.addDefs, hm1, hm2]
    rw [if_neg (by omega)]
  refine ⟨_, haddDefs, rfl, rfl, rfl, hAne, ?_, ?_⟩
  · show mapInsert (startAddr + size) ⟨startAddr, st.defs.length⟩
      ((affectedEntries st.addressSpace (startAddr + 1)
        (startAddr + size)).foldl
        (addDefsResidues startAddr (startAddr + size))
        (mapP st.addressSpace (startAddr + 1) ++
         mapS st.addressSpace (startAddr + 1) (startAddr + size))) = _
    rw [hm1v]
    exact hfinal
  · show isPartition 0 L (mapInsert (startAddr + size)
      ⟨startAddr, st.defs.length⟩
      ((affectedEntries st.addressSpace (startAddr + 1)
        (startAddr + size)).foldl
        (addDefsResidues startAddr (startAddr + size))
        (mapP st.addressSpace (startAddr + 1) ++
         mapS st.addressSpace (startAddr + 1) (startAddr + size))))
    rw [hm1v, hfinal]
    exact hparts

/-- C2 (amended): for a nonempty in-range write, `AddDefs(start, size)`
erases every live interval the walk visits and reinserts exactly the
non-overlapping residues with the old def: the first visited entry leaves
its head `[entry.start, start)` when `start > entry.start`, the last
leaves its tail `[end, entry.end)` when `end < entry.end`, fully covered
middle entries vanish, a new `Def{start, end}` is appended to defs and
`[start, end)` is inserted at the new def index, and the map stays a
disjoint cover. (The original claim is refuted at `size = 0`, where the
reinserted head residue keyed at `start` is overwritten by the
zero-length new def and an interval is lost.) -/
theorem addDefs_residues_spec (M : Nat) (st : UdState)
    (startAddr size L : Nat)
    (hpart : isPartition 0 L st.addressSpace)
    (hsize : 0 < size) (hle : startAddr + size ≤ L) (hLM : L < M)
    (hcap : (affectedEntries st.addressSpace (startAddr + 1)
      (startAddr + size)).length ≤ 32) :
    ∃ st2, st.addDefs M startAddr size = some st2 ∧
      st2.uses = st.uses ∧
      st2.partialUses = st.partialUses ∧
      st2.defs = st.defs ++ [⟨startAddr, startAddr + size⟩] ∧
      affectedEntries st.addressSpace (startAddr + 1) (startAddr + size)
        ≠ [] ∧
      st2.addressSpace =
        mapP st.addressSpace (startAddr + 1) ++
        headResidue startAddr (affectedEntries st.addressSpace
          (startAddr + 1) (startAddr + size)) ++
        [(startAddr + size, ⟨startAddr, st.defs.length⟩)] ++
        tailResidue (startAddr + size) (affectedEntries st.addressSpace
          (startAddr + 1) (startAddr + size)) ++
        mapS st.addressSpace (startAddr + 1) (startAddr + size) ∧
      isPartition 0 L st2.addressSpace :=
  addDefs_partition_core M st startAddr size L hpart hsize hle hLM hcap

/-- Concrete analyzer state for the `AddDefs` witness: one live interval
`[0, 20)` from def 0. -/
def c2PartSt : UdState :=
  { uses := []
    partialUses := PartialUses.freshInit
    defs := [⟨0, 20⟩]
    addressSpace := [(20, ⟨0, 0⟩)] }

/-- Witness instantiating the amended C2 statement: writing `[5, 15)` into
the single live interval `[0, 20)` produces the inner-overlap result: head
residue `[0, 5)`, new def `[5, 15)`, tail residue `[15, 20)`. -/
theorem addDefs_residues_spec_witness :
    isPartition 0 20 c2PartSt.addressSpace ∧
    ∃ st2, c2PartSt.addDefs 100 5 10 = some st2 ∧
      st2.uses = c2PartSt.uses ∧
      st2.partialUses = c2PartSt.partialUses ∧
      st2.defs = c2PartSt.defs ++ [⟨5, 5 + 10⟩] ∧
      affectedEntries c2PartSt.addressSpace (5 + 1) (5 + 10) ≠ [] ∧
      st2.addressSpace =
        mapP c2PartSt.addressSpace (5 + 1) ++
        headResidue 5 (affectedEntries c2PartSt.addressSpace (5 + 1)
          (5 + 10)) ++
        [(5 + 10, ⟨5, c2PartSt.defs.length⟩)] ++
        tailResidue (5 + 10) (affectedEntries c2PartSt.addressSpace
          (5 + 1) (5 + 10)) ++
        mapS c2PartSt.addressSpace (5 + 1) (5 + 10) ∧
      isPartition 0 20 st2.addressSpace :=
  ⟨⟨rfl, by omega, rfl⟩,
    addDefs_residues_spec 100 c2PartSt 5 10 20 ⟨rfl, by omega, rfl⟩
      (by omega) (by omega) (by omega) (by decide)⟩

/-- Shape of a successful `AddUses` loop, with no assumption on the
partial-use table: defs and the interval map are untouched and one use is
appended per walked entry. -/
theorem addUsesFold_shape (startAddr endAddr : Nat) :
    ∀ (l : List (Nat × EntryValue)) (st st2 : UdState),
      l.foldlM (UdState.addUsesStep startAddr endAddr) st = some st2 →
      st2.defs = st.defs ∧ st2.addressSpace = st.addressSpace ∧
      st2.uses = st.uses ++ l.map (fun en => en.2.defIndex) := by
  intro l
  induction l with
  | nil =>
    intro st st2 h
    cases h
    exact ⟨rfl, rfl, by simp⟩
  | cons en rest ih =>
    intro st st2 h
    rw [List.foldlM_cons] at h
    cases h1 : UdState.addUsesStep startAddr endAddr st en with
    | none => rw [h1] at h; cases h
    | some st1 =>
      rw [h1] at h
      have hshape : st1.defs = st.defs ∧ st1.addressSpace =
          st.addressSpace ∧ st1.uses = st.uses ++ [en.2.defIndex] := by
        rw [UdState.addUsesStep] at h1
        split at h1
        · cases h1
          exact ⟨rfl, rfl, rfl⟩
        · rw [Option.map_eq_some'] at h1
          obtain ⟨pu, _, hfu⟩ := h1
          rw [← hfu]
          exact ⟨rfl, rfl, rfl⟩
      obtain ⟨hd, ha, hu⟩ := hshape
      obtain ⟨hd2, ha2, hu2⟩ := ih st1 st2 h
      refine ⟨hd2.trans hd, ha2.trans ha, ?_⟩
      rw [hu2, hu]
      simp

/-- A successful `AddDefs` implies the affected-count cap held. -/
theorem addDefs_some_le (M : Nat) (st : UdState) (startAddr size : Nat)
    (st2 : UdState) (h : st.addDefs M startAddr size = some st2) :
    (affectedEntries st.addressSpace ((startAddr + 1) % M)
      ((startAddr + size) % M)).length ≤ 32 := by
  rw [UdState.addDefs] at h
  by_cases hc : 32 < (affectedEntries st.addressSpace ((startAddr + 1) % M)
      ((startAddr + size) % M)).length
  · rw [if_pos hc] at h
    cases h
  · omega

/-- C5 (amended): before replaying any record the builder installs, in
each address space, the catch-all `Def(0, 2^(8W) - 1)` — i.e. up to
`numeric_limits<W>::max()`, so the top address is not covered — with
`defIndex = 0`; the live-writer map is then a disjoint, gap-free cover of
`[0, 2^(8W) - 1)` by nonempty intervals, `AddUses` never changes the map,
and every successful in-range nonempty `AddDefs` preserves the cover. (The
original claim's catch-all `Def(0, 2^(8W))` is refuted: the installed end
is `2^(8W) - 1`.) -/
theorem catchall_partition_spec (M : Nat) (hM : 2 ≤ M) :
    (∀ e ud, Ud.mkInit M e = some ud →
      ud.regState.defs = [⟨0, M - 1⟩] ∧
      ud.regState.addressSpace = [(M - 1, ⟨0, 0⟩)] ∧
      isPartition 0 (M - 1) ud.regState.addressSpace ∧
      ud.memState.defs = [⟨0, M - 1⟩] ∧
      ud.memState.addressSpace = [(M - 1, ⟨0, 0⟩)] ∧
      isPartition 0 (M - 1) ud.memState.addressSpace) ∧
    (∀ (st : UdState) (a n : Nat) (st2 : UdState),
      st.addUses M a n = some st2 → st2.addressSpace = st.addressSpace) ∧
    (∀ (st : UdState) (s n : Nat) (st2 : UdState),
      isPartition 0 (M - 1) st.addressSpace → 0 < n → s + n ≤ M - 1 →
      st.addDefs M s n = some st2 →
      isPartition 0 (M - 1) st2.addressSpace) := by
  refine ⟨?_, ?_, ?_⟩
  · intro e ud h
    rw [Ud.mkInit] at h
    cases hreg : UdState.mkInit (e / 10) with
    | none => rw [hreg] at h; cases h
    | some reg =>
      cases hmem : UdState.mkInit (e / 20) with
      | none => rw [hreg, hmem] at h; cases h
      | some mem =>
        rw [hreg, hmem] at h
        have hregsh : reg.uses = [] ∧ reg.defs = [] ∧
            reg.addressSpace = [] := by
          rw [UdState.mkInit] at hreg
          cases hres : PartialUses.freshInit.reserve (e / 10) with
          | none => rw [hres] at hreg; cases hreg
          | some pu =>
            rw [hres] at hreg
            cases hreg
            exact ⟨rfl, rfl, rfl⟩
        have hmemsh : mem.uses = [] ∧ mem.defs = [] ∧
            mem.addressSpace = [] := by
          rw [UdState.mkInit] at hmem
          cases hres : PartialUses.freshInit.reserve (e / 20) with
          | none => rw [hres] at hmem; cases hmem
          | some pu =>
            rw [hres] at hmem
            cases hmem
            exact ⟨rfl, rfl, rfl⟩
        cases h
        refine ⟨?_, ?_, ?_, ?_, ?_, ?_⟩
        · show (reg.addDef 0 (M - 1)).defs = _
          rw [UdState.addDef]
          rw [hregsh.2.1]
          rfl
        · show (reg.addDef 0 (M - 1)).addressSpace = _
          rw [UdState.addDef]
          rw [hregsh.2.2, hregsh.2.1]
          rfl
        · show isPartition 0 (M - 1) (reg.addDef 0 (M - 1)).addressSpace
          rw [UdState.addDef]
          show isPartition 0 (M - 1)
            (mapInsert (M - 1) ⟨0, reg.defs.length⟩ reg.addressSpace)
          rw [hregsh.2.2, hregsh.2.1]
          exact ⟨rfl, by omega, rfl⟩
        · show (mem.addDef 0 (M - 1)).defs = _
          rw [UdState.addDef]
          rw [hmemsh.2.1]
          rfl
        · show (mem.addDef 0 (M - 1)).addressSpace = _
          rw [UdState.addDef]
          rw [hmemsh.2.2, hmemsh.2.1]
          rfl
        · show isPartition 0 (M - 1) (mem.addDef 0 (M - 1)).addressSpace
          rw [UdState.addDef]
          show isPartition 0 (M - 1)
            (mapInsert (M - 1) ⟨0, mem.defs.length⟩ mem.addressSpace)
          rw [hmemsh.2.2, hmemsh.2.1]
          exact ⟨rfl, by omega, rfl⟩
  · intro st a n st2 h
    exact (addUsesFold_shape a ((a + n) % M) _ st st2 h).2.1
  · intro st s n st2 hpart hn hle hsome
    have hcap := addDefs_some_le M st s n st2 hsome
    rw [Nat.mod_eq_of_lt (by omega), Nat.mod_eq_of_lt (by omega)] at hcap
    obtain ⟨st3, heq, _, _, _, _, _, hpart3⟩ :=
      addDefs_partition_core M st s n (M - 1) hpart hn hle (by omega) hcap
    rw [hsome] at heq
    cases heq
    exact hpart3

/-- Witness instantiating the amended C5 statement at a concrete width
modulus. -/
theorem catchall_partition_spec_witness :
    2 ≤ 100 ∧
    ((∀ e ud, Ud.mkInit 100 e = some ud →
      ud.regState.defs = [⟨0, 100 - 1⟩] ∧
      ud.regState.addressSpace = [(100 - 1, ⟨0, 0⟩)] ∧
      isPartition 0 (100 - 1) ud.regState.addressSpace ∧
      ud.memState.defs = [⟨0, 100 - 1⟩] ∧
      ud.memState.addressSpace = [(100 - 1, ⟨0, 0⟩)] ∧
      isPartition 0 (100 - 1) ud.memState.addressSpace) ∧
    (∀ (st : UdState) (a n : Nat) (st2 : UdState),
      st.addUses 100 a n = some st2 →
      st2.addressSpace = st.addressSpace) ∧
    (∀ (st : UdState) (s n : Nat) (st2 : UdState),
      isPartition 0 (100 - 1) st.addressSpace → 0 < n → s + n ≤ 100 - 1 →
      st.addDefs 100 s n = some st2 →
      isPartition 0 (100 - 1) st2.addressSpace)) :=
  ⟨by omega, catchall_partition_spec 100 (by omega)⟩

/-- An entry exceeding the key bounds the upper-bound search. -/
theorem upperBoundIdx_le_of {α : Type} [Inhabited α] (fld : α → Nat)
    (x : Nat) : ∀ (l : List α) i, i < l.length →
      x < fld (l.getD i default) → upperBoundIdx fld x l ≤ i := by
  intro l
  induction l with
  | nil => intro i hi _; simp at hi
  | cons a rest ih =>
    intro i hi hx
    rw [upperBoundIdx]
    by_cases hcond : x < fld a
    · rw [if_pos hcond]
      omega
    · rw [if_neg hcond]
      cases i with
      | zero =>
        simp only [List.getD_cons_zero] at hx
        omega
      | succ i =>
        simp only [List.getD_cons_succ] at hx
        have := ih i (by simpa using hi) hx
        omega

/-- The defaulted last element as a positional lookup. -/
theorem getLast_getD {α : Type} (l : List α) :
    ∀ d : α, l ≠ [] → l.getLast?.getD d = l.getD (l.length - 1) d := by
  induction l with
  | nil => intro d h; exact absurd rfl h
  | cons a rest ih =>
    intro d _
    cases rest with
    | nil => rfl
    | cons b rest2 =>
      rw [List.getLast?_cons_cons]
      rw [ih d (List.cons_ne_nil _ _)]
      show (b :: rest2).getD ((b :: rest2).length - 1) d =
        (a :: b :: rest2).getD ((a :: b :: rest2).length - 1) d
      simp only [List.length_cons]
      rw [show rest2.length + 1 + 1 - 1 = rest2.length + 1 from rfl]
      rw [show rest2.length + 1 - 1 = rest2.length from rfl]
      rw [List.getD_cons_succ]

/-- Elements of a `takeWhile` prefix belong to the list. -/
theorem takeWhile_mem_self {α : Type} (p : α → Bool) :
    ∀ (l : List α) x, x ∈ l.takeWhile p → x ∈ l := by
  intro l
  induction l with
  | nil => intro x hx; cases hx
  | cons a rest ih =>
    intro x hx
    rw [List.takeWhile_cons] at hx
    by_cases hp : p a
    · rw [if_pos hp] at hx
      rcases List.mem_cons.mp hx with h | h
      · rw [h]; exact List.mem_cons_self _ _
      · exact List.mem_cons_of_mem _ (ih x h)
    · rw [if_neg hp] at hx
      cases hx

/-- Elements of a `dropWhile` suffix belong to the list. -/
theorem dropWhile_mem_self {α : Type} (p : α → Bool) :
    ∀ (l : List α) x, x ∈ l.dropWhile p → x ∈ l := by
  intro l
  induction l with
  | nil => intro x hx; cases hx
  | cons a rest ih =>
    intro x hx
    rw [List.dropWhile_cons] at hx
    by_cases hp : p a
    · rw [if_pos hp] at hx
      exact List.mem_cons_of_mem _ (ih x hx)
    · rw [if_neg hp] at hx
      exact hx

/-- Per-address-space builder invariant over the trace, parametrised by
the use-start and def-start field of the space: start indices never exceed
the current stream lengths, uses recorded before a trace entry opened
point at defs recorded before it opened, every recorded use points at an
existing def, and every live map entry points at an existing def. -/
def spInv (useF defF : InsnInTrace → Nat) (trace : List InsnInTrace)
    (st : UdState) : Prop :=
  (∀ j, j < trace.length →
    useF (trace.getD j default) ≤ st.uses.length ∧
    defF (trace.getD j default) ≤ st.defs.length) ∧
  (∀ j, j < trace.length → ∀ u, u < useF (trace.getD j default) →
    st.uses.getD u 0 < defF (trace.getD j default)) ∧
  (∀ v ∈ st.uses, v < st.defs.length) ∧
  (∀ en ∈ st.addressSpace, en.2.defIndex < st.defs.length)

/-- Whole-builder invariant: a nonempty trace and both per-space
invariants. -/
def udInv (st : Ud) : Prop :=
  0 < st.trace.length ∧
  spInv (fun tr => tr.regUseStartIndex) (fun tr => tr.regDefStartIndex)
    st.trace st.regState ∧
  spInv (fun tr => tr.memUseStartIndex) (fun tr => tr.memDefStartIndex)
    st.trace st.memState

/-- The per-space invariant survives appending uses that point at existing
defs, growing the defs stream, and replacing the map by one whose entries
point at existing defs. -/
theorem spInv_extend (useF defF : InsnInTrace → Nat)
    (trace : List InsnInTrace) (st st2 : UdState) (ext : List Nat)
    (hI : spInv useF defF trace st)
    (huses : st2.uses = st.uses ++ ext)
    (hext : ∀ v ∈ ext, v < st2.defs.length)
    (hdefs : st.defs.length ≤ st2.defs.length)
    (hspace : ∀ en ∈ st2.addressSpace, en.2.defIndex < st2.defs.length) :
    spInv useF defF trace st2 := by
  obtain ⟨hI4, hI1, hI2, _⟩ := hI
  refine ⟨?_, ?_, ?_, hspace⟩
  · intro j hj
    obtain ⟨h1, h2⟩ := hI4 j hj
    rw [huses]
    rw [List.length_append]
    exact ⟨by omega, by omega⟩
  · intro j hj u hu
    obtain ⟨h1, _⟩ := hI4 j hj
    have := hI1 j hj u hu
    rw [huses]
    rw [List.getD_append _ _ _ _ (by omega)]
    omega
  · intro v hv
    rw [huses] at hv
    rcases List.mem_append.mp hv with h | h
    · have := hI2 v h
      omega
    · exact hext v h

/-- The per-space invariant only depends on the start fields of the trace
entries. -/
theorem spInv_trace_congr (useF defF : InsnInTrace → Nat)
    (trace trace2 : List InsnInTrace) (st : UdState)
    (hlen : trace2.length = trace.length)
    (hfields : ∀ j, j < trace.length →
      useF (trace2.getD j default) = useF (trace.getD j default) ∧
      defF (trace2.getD j default) = defF (trace.getD j default))
    (hI : spInv useF defF trace st) : spInv useF defF trace2 st := by
  obtain ⟨hI4, hI1, hI2, hI3⟩ := hI
  refine ⟨?_, ?_, hI2, hI3⟩
  · intro j hj
    rw [hlen] at hj
    obtain ⟨hu, hd⟩ := hfields j hj
    rw [hu, hd]
    exact hI4 j hj
  · intro j hj u hu
    rw [hlen] at hj
    obtain ⟨hu2, hd2⟩ := hfields j hj
    rw [hu2] at hu
    rw [hd2]
    exact hI1 j hj u hu

/-- A successful `AddUses` preserves the per-space invariant. -/
theorem spInv_addUses (useF defF : InsnInTrace → Nat)
    (trace : List InsnInTrace) (st st2 : UdState) (M a n : Nat)
    (hI : spInv useF defF trace st) (h : st.addUses M a n = some st2) :
    spInv useF defF trace st2 := by
  obtain ⟨hd, hsp, hu⟩ := addUsesFold_shape a ((a + n) % M) _ st st2 h
  refine spInv_extend useF defF trace st st2 _ hI hu ?_ (by rw [hd]) ?_
  · intro v hv
    obtain ⟨en, hen, hv2⟩ := List.mem_map.mp hv
    have hen2 : en ∈ st.addressSpace :=
      dropWhile_mem_self _ _ en (takeWhile_mem_self _ _ en hen)
    rw [hd, ← hv2]
    exact hI.2.2.2 en hen2
  · rw [hsp, hd]
    exact hI.2.2.2

/-- Entries produced by one residue reinsertion point at existing defs. -/
theorem addDefsResidues_defIndex (s e B : Nat) (base : AddressSpace)
    (a : Nat × EntryValue) (hb : ∀ en ∈ base, en.2.defIndex < B)
    (ha : a.2.defIndex < B) :
    ∀ en ∈ addDefsResidues s e base a, en.2.defIndex < B := by
  intro en hen
  rw [addDefsResidues] at hen
  by_cases h1 : s ≤ a.2.startAddr
  · rw [if_pos h1] at hen
    by_cases h2 : e < a.1
    · rw [if_pos h2] at hen
      rcases mapInsert_mem _ _ _ en hen with h | h
      · rw [h]
        exact ha
      · exact hb en h
    · rw [if_neg h2] at hen
      exact hb en hen
  · rw [if_neg h1] at hen
    by_cases h2 : e < a.1
    · rw [if_pos h2] at hen
      rcases mapInsert_mem _ _ _ en hen with h | h
      · rw [h]
        exact ha
      · rcases mapInsert_mem _ _ _ en h with h3 | h3
        · rw [h3]
          exact ha
        · exact hb en h3
    · rw [if_neg h2] at hen
      rcases mapInsert_mem _ _ _ en hen with h | h
      · rw [h]
        exact ha
      · exact hb en h

/-- Entries produced by the whole residue fold point at existing defs. -/
theorem addDefsFold_defIndex (s e B : Nat) :
    ∀ (A : AddressSpace) (base : AddressSpace),
      (∀ en ∈ base, en.2.defIndex < B) →
      (∀ a ∈ A, a.2.defIndex < B) →
      ∀ en ∈ A.foldl (addDefsResidues s e) base, en.2.defIndex < B := by
  intro A
  induction A with
  | nil => intro base hb _ en hen; exact hb en hen
  | cons a A2 ih =>
    intro base hb hA en hen
    exact ih (addDefsResidues s e base a)
      (addDefsResidues_defIndex s e B base a hb
        (hA a (List.mem_cons_self _ _)))
      (fun x hx => hA x (List.mem_cons_of_mem _ hx)) en hen

/-- A successful `AddDefs` preserves the per-space invariant. -/
theorem spInv_addDefs (useF defF : InsnInTrace → Nat)
    (trace : List InsnInTrace) (st st2 : UdState) (M s n : Nat)
    (hI : spInv useF defF trace st) (h : st.addDefs M s n = some st2) :
    spInv useF defF trace st2 := by
  rw [UdState.addDefs] at h
  split at h
  · cases h
  · cases h
    refine spInv_extend useF defF trace st _ [] hI
      (by show st.uses = st.uses ++ []; simp)
      (by intro v hv; cases hv) ?_ ?_
    · show st.defs.length ≤ (st.defs ++ [_]).length
      rw [List.length_append]
      omega
    · intro en hen
      show en.2.defIndex < (st.defs ++ [_]).length
      rw [List.length_append, List.length_cons, List.length_nil]
      have hbase : ∀ x ∈ (st.addressSpace.takeWhile fun x =>
          x.1 < (s + 1) % M) ++
          ((st.addressSpace.dropWhile fun x => x.1 < (s + 1) % M).dropWhile
            fun x => x.2.startAddr < (s + n) % M),
          x.2.defIndex < st.defs.length := by
        intro x hx
        rcases List.mem_append.mp hx with h2 | h2
        · exact hI.2.2.2 x (takeWhile_mem_self _ _ x h2)
        · exact hI.2.2.2 x (dropWhile_mem_self _ _ x
            (dropWhile_mem_self _ _ x h2))
      have hAmem2 : ∀ x ∈ affectedEntries st.addressSpace ((s + 1) % M)
          ((s + n) % M), x.2.defIndex < st.defs.length := by
        intro x hx
        exact hI.2.2.2 x (dropWhile_mem_self _ _ x
          (takeWhile_mem_self _ _ x hx))
      rcases mapInsert_mem _ _ _ en hen with h2 | h2
      · rw [h2]
        show st.defs.length < st.defs.length + 1
        omega
      · have := addDefsFold_defIndex s ((s + n) % M) st.defs.length _ _
          hbase hAmem2 en h2
        omega

/-- Positional lookup at the appended element. -/
theorem getD_append_last {α : Type} (x d : α) :
    ∀ l : List α, (l ++ [x]).getD l.length d = x := by
  intro l
  induction l with
  | nil => rfl
  | cons a rest ih =>
    show (rest ++ [x]).getD rest.length d = x
    exact ih

/-- Dropping the last element keeps earlier positions. -/
theorem getD_dropLast {α : Type} (d : α) :
    ∀ (l : List α) j, j < l.length - 1 → l.dropLast.getD j d = l.getD j d
    := by
  intro l
  induction l with
  | nil => intro j hj; simp at hj
  | cons a rest ih =>
    intro j hj
    cases rest with
    | nil => simp at hj
    | cons b rest2 =>
      show ((a :: (b :: rest2).dropLast) : List α).getD j d = _
      cases j with
      | zero => rfl
      | succ j =>
        show (b :: rest2).dropLast.getD j d = (b :: rest2).getD j d
        refine ih j ?_
        simp only [List.length_cons] at hj ⊢
        omega

/-- Opening a new trace entry whose start fields equal the current stream
lengths preserves the per-space invariant. -/
theorem spInv_addTrace (useF defF : InsnInTrace → Nat)
    (trace : List InsnInTrace) (st : UdState) (entry : InsnInTrace)
    (hI : spInv useF defF trace st)
    (hu : useF entry = st.uses.length) (hd : defF entry = st.defs.length) :
    spInv useF defF (trace ++ [entry]) st := by
  obtain ⟨hI4, hI1, hI2, hI3⟩ := hI
  refine ⟨?_, ?_, hI2, hI3⟩
  · intro j hj
    rw [List.length_append, List.length_cons, List.length_nil] at hj
    by_cases hjl : j < trace.length
    · rw [List.getD_append _ _ _ _ hjl]
      exact hI4 j hjl
    · have hje : j = trace.length := by omega
      rw [hje, getD_append_last]
      rw [hu, hd]
      exact ⟨le_refl _, le_refl _⟩
  · intro j hj u hu2
    rw [List.length_append, List.length_cons, List.length_nil] at hj
    by_cases hjl : j < trace.length
    · rw [List.getD_append _ _ _ _ hjl] at hu2 ⊢
      exact hI1 j hjl u hu2
    · have hje : j = trace.length := by omega
      rw [hje, getD_append_last] at hu2 ⊢
      rw [hu] at hu2
      rw [hd]
      have hmem : st.uses.getD u 0 ∈ st.uses := by
        rw [List.getD_eq_getElem _ _ hu2]
        exact List.getElem_mem _
      exact hI2 _ hmem

/-- Opening a new trace entry preserves the builder invariant. -/
theorem udInv_addTrace (st : Ud) (c : Nat) (hI : udInv st) :
    udInv (st.addTrace c) := by
  obtain ⟨hne, hreg, hmem⟩ := hI
  refine ⟨?_, ?_, ?_⟩
  · show 0 < (st.trace ++ [_]).length
    rw [List.length_append]
    omega
  · exact spInv_addTrace _ _ st.trace st.regState _ hreg rfl rfl
  · exact spInv_addTrace _ _ st.trace st.memState _ hmem rfl rfl

/-- Closing the open trace entry preserves the builder invariant: only end
fields change. -/
theorem udInv_flush (st : Ud) (hI : udInv st) : udInv st.flush := by
  obtain ⟨hne, hreg, hmem⟩ := hI
  rw [Ud.flush]
  cases hL : st.trace.getLast? with
  | none => exact ⟨hne, hreg, hmem⟩
  | some last =>
    have htne : st.trace ≠ [] := by
      intro h
      rw [h] at hne
      simp at hne
    have hlast : last = st.trace.getD (st.trace.length - 1) default := by
      have := getLast_getD st.trace default htne
      rw [hL] at this
      exact this
    set upd : InsnInTrace := { last with
      regUseEndIndex := st.regState.uses.length
      memUseEndIndex := st.memState.uses.length
      regDefEndIndex := st.regState.defs.length
      memDefEndIndex := st.memState.defs.length } with hupd
    have hlen : (st.trace.dropLast ++ [upd]).length = st.trace.length := by
      rw [List.length_append, List.length_dropLast]
      simp only [List.length_cons, List.length_nil]
      omega
    have hfields : ∀ j, j < st.trace.length →
        (st.trace.dropLast ++ [upd]).getD j default =
          st.trace.getD j default ∨
        ((st.trace.dropLast ++ [upd]).getD j default = upd ∧
          j = st.trace.length - 1) := by
      intro j hj
      by_cases hjl : j < st.trace.length - 1
      · left
        rw [List.getD_append _ _ _ _ (by
          rw [List.length_dropLast]
          omega)]
        exact getD_dropLast default st.trace j hjl
      · right
        have hje : j = st.trace.length - 1 := by omega
        refine ⟨?_, hje⟩
        rw [hje]
        rw [show st.trace.length - 1 = st.trace.dropLast.length from by
          rw [List.length_dropLast]]
        exact getD_append_last _ _ _
    refine ⟨by rw [hlen]; omega, ?_, ?_⟩
    · refine spInv_trace_congr _ _ st.trace _ st.regState hlen ?_ hreg
      intro j hj
      rcases hfields j hj with h | ⟨h, hje⟩
      · rw [h]
        exact ⟨rfl, rfl⟩
      · rw [h, hje]
        exact ⟨by rw [← hlast], by rw [← hlast]⟩
    · refine spInv_trace_congr _ _ st.trace _ st.memState hlen ?_ hmem
      intro j hj
      rcases hfields j hj with h | ⟨h, hje⟩
      · rw [h]
        exact ⟨rfl, rfl⟩
      · rw [h, hje]
        exact ⟨by rw [← hlast], by rw [← hlast]⟩

/-- Instruction-boundary handling preserves the builder invariant. -/
theorem udInv_handleInsnSeq (st : Ud) (q : Nat) (hI : udInv st) :
    udInv (st.handleInsnSeq q) := by
  rw [Ud.handleInsnSeq]
  split
  · exact hI
  · exact udInv_addTrace _ _ (udInv_flush st hI)

/-- Replaying one record preserves the builder invariant. -/
theorem udInv_step (M : Nat) (st : Ud) (r : Record) (st2 : Ud)
    (hI : udInv st) (h : Ud.step M st r = some st2) : udInv st2 := by
  cases r with
  | ldSt tag q a n =>
    have hI2 := udInv_handleInsnSeq st q hI
    simp only [Ud.step] at h
    cases tag with
    | load =>
      rw [Option.map_eq_some'] at h
      obtain ⟨s, hs, hst2⟩ := h
      rw [← hst2]
      exact ⟨hI2.1, hI2.2.1,
        spInv_addUses _ _ _ _ _ M a n hI2.2.2 hs⟩
    | store =>
      rw [Option.map_eq_some'] at h
      obtain ⟨s, hs, hst2⟩ := h
      rw [← hst2]
      exact ⟨hI2.1, hI2.2.1,
        spInv_addDefs _ _ _ _ _ M a n hI2.2.2 hs⟩
    | reg =>
      cases h
      exact hI2
    | getReg =>
      rw [Option.map_eq_some'] at h
      obtain ⟨s, hs, hst2⟩ := h
      rw [← hst2]
      exact ⟨hI2.1, spInv_addUses _ _ _ _ _ M a n hI2.2.1 hs, hI2.2.2⟩
    | putReg =>
      rw [Option.map_eq_some'] at h
      obtain ⟨s, hs, hst2⟩ := h
      rw [← hst2]
      exact ⟨hI2.1, spInv_addDefs _ _ _ _ _ M a n hI2.2.1 hs, hI2.2.2⟩
    | _ => cases h
  | insn q pc v =>
    simp only [Ud.step] at h
    split at h
    · cases h
      exact ⟨hI.1, hI.2.1, hI.2.2⟩
    · cases h
  | insnExec q =>
    simp only [Ud.step] at h
    cases h
    exact udInv_handleInsnSeq st q hI
  | ldStNx tag q a n =>
    have hI2 := udInv_handleInsnSeq st q hI
    simp only [Ud.step] at h
    cases tag with
    | getRegNx =>
      rw [Option.map_eq_some'] at h
      obtain ⟨s, hs, hst2⟩ := h
      rw [← hst2]
      exact ⟨hI2.1, spInv_addUses _ _ _ _ _ M a n hI2.2.1 hs, hI2.2.2⟩
    | putRegNx =>
      rw [Option.map_eq_some'] at h
      obtain ⟨s, hs, hst2⟩ := h
      rw [← hst2]
      exact ⟨hI2.1, spInv_addDefs _ _ _ _ _ M a n hI2.2.1 hs, hI2.2.2⟩
    | _ => cases h
  | mmap a b c =>
    simp only [Ud.step] at h
    cases h
    exact hI

/-- The initialized builder satisfies the invariant. -/
theorem udInv_init (M e : Nat) (ud : Ud) (h : Ud.mkInit M e = some ud) :
    udInv ud := by
  rw [Ud.mkInit] at h
  cases hreg : UdState.mkInit (e / 10) with
  | none => rw [hreg] at h; cases h
  | some reg =>
    cases hmem : UdState.mkInit (e / 20) with
    | none => rw [hreg, hmem] at h; cases h
    | some mem =>
      rw [hreg, hmem] at h
      have hregsh : reg.uses = [] ∧ reg.defs = [] ∧
          reg.addressSpace = [] := by
        rw [UdState.mkInit] at hreg
        cases hres : PartialUses.freshInit.reserve (e / 10) with
        | none => rw [hres] at hreg; cases hreg
        | some pu =>
          rw [hres] at hreg
          cases hreg
          exact ⟨rfl, rfl, rfl⟩
      have hmemsh : mem.uses = [] ∧ mem.defs = [] ∧
          mem.addressSpace = [] := by
        rw [UdState.mkInit] at hmem
        cases hres : PartialUses.freshInit.reserve (e / 20) with
        | none => rw [hres] at hmem; cases hmem
        | some pu =>
          rw [hres] at hmem
          cases hmem
          exact ⟨rfl, rfl, rfl⟩
      cases h
      refine ⟨by simp [Ud.addTrace], ?_, ?_⟩
      · refine ⟨?_, ?_, ?_, ?_⟩
        · intro j hj
          have hj0 : j = 0 := by
            simp only [Ud.addTrace, List.length_append] at hj
            simpa using hj
          subst hj0
          constructor
          · show reg.uses.length ≤ (reg.addDef 0 (M - 1)).uses.length
            rw [UdState.addDef]
          · show reg.defs.length ≤ (reg.addDef 0 (M - 1)).defs.length
            rw [UdState.addDef]
            rw [List.length_append]
            omega
        · intro j hj u hu
          have hj0 : j = 0 := by
            simp only [Ud.addTrace, List.length_append] at hj
            simpa using hj
          subst hj0
          have hu2 : u < reg.uses.length := hu
          rw [hregsh.1] at hu2
          simp at hu2
        · intro v hv
          show v < (reg.addDef 0 (M - 1)).defs.length
          have : v ∈ reg.uses := hv
          rw [hregsh.1] at this
          cases this
        · intro en hen
          have hen2 : en ∈ mapInsert (M - 1) ⟨0, reg.defs.length⟩
              reg.addressSpace := hen
          rw [hregsh.2.2] at hen2
          show en.2.defIndex < (reg.defs ++ [(⟨0, M - 1⟩ : Def)]).length
          rcases mapInsert_mem _ _ _ en hen2 with h2 | h2
          · rw [h2, hregsh.2.1]
            simp
          · cases h2
      · refine ⟨?_, ?_, ?_, ?_⟩
        · intro j hj
          have hj0 : j = 0 := by
            simp only [Ud.addTrace, List.length_append] at hj
            simpa using hj
          subst hj0
          constructor
          · show mem.uses.length ≤ (mem.addDef 0 (M - 1)).uses.length
            rw [UdState.addDef]
          · show mem.defs.length ≤ (mem.addDef 0 (M - 1)).defs.length
            rw [UdState.addDef]
            rw [List.length_append]
            omega
        · intro j hj u hu
          have hj0 : j = 0 := by
            simp only [Ud.addTrace, List.length_append] at hj
            simpa using hj
          subst hj0
          have hu2 : u < mem.uses.length := hu
          rw [hmemsh.1] at hu2
          simp at hu2
        · intro v hv
          show v < (mem.addDef 0 (M - 1)).defs.length
          have : v ∈ mem.uses := hv
          rw [hmemsh.1] at this
          cases this
        · intro en hen
          have hen2 : en ∈ mapInsert (M - 1) ⟨0, mem.defs.length⟩
              mem.addressSpace := hen
          rw [hmemsh.2.2] at hen2
          show en.2.defIndex < (mem.defs ++ [(⟨0, M - 1⟩ : Def)]).length
          rcases mapInsert_mem _ _ _ en hen2 with h2 | h2
          · rw [h2, hmemsh.2.1]
            simp
          · cases h2

/-- The builder invariant holds for every successfully built graph. -/
theorem udInv_build (M e : Nat) (records : List Record) (ud : Ud)
    (h : buildUd M e records = some ud) : udInv ud := by
  rw [buildUd] at h
  cases hinit : Ud.mkInit M e with
  | none => rw [hinit] at h; cases h
  | some st0 =>
    rw [hinit] at h
    simp only [Option.bind_eq_bind, Option.some_bind] at h
    have hfold : ∀ (rs : List Record) (st : Ud), udInv st →
        ∀ st2, rs.foldlM (Ud.step M) st = some st2 → udInv st2 := by
      intro rs
      induction rs with
      | nil =>
        intro st hI st2 h2
        cases h2
        exact hI
      | cons r rest ih =>
        intro st hI st2 h2
        rw [List.foldlM_cons] at h2
        cases hstep : Ud.step M st r with
        | none => rw [hstep] at h2; cases h2
        | some st1 =>
          rw [hstep] at h2
          simp only [Option.bind_eq_bind, Option.some_bind] at h2
          exact ih st1 (udInv_step M st r st1 hI hstep) st2 h2
    cases hfold2 : records.foldlM (Ud.step M) st0 with
    | none => rw [hfold2] at h; cases h
    | some stf =>
      rw [hfold2] at h
      simp only [Option.bind_eq_bind, Option.some_bind] at h
      cases h
      exact udInv_flush stf
        (hfold records st0 (udInv_init M e st0 hinit) stf hfold2)

/-- The trace index `ResolveUse` returns is always `upper_bound - 1`. -/
theorem resolveUseRaw_snd (uses : List Nat) (defs : List Def)
    (pes : List PartialUse) (trace : List InsnInTrace)
    (fld : InsnInTrace → Nat) (u : Nat) (p : Def × Nat)
    (h : resolveUseRaw uses defs pes trace fld u = some p) :
    p.2 = upperBoundIdx fld (uses.getD u 0) trace - 1 := by
  rw [resolveUseRaw] at h
  cases hf : findPartialUse pes u with
  | none => rw [hf] at h; cases h
  | some i =>
    rw [hf] at h
    cases h
    rfl

/-- C4 (amended): for every graph the builder produces, the producing
trace index resolved for a use `u` recorded while trace entry `t` was
open satisfies `t2 ≤ t` — at most the open entry, in both address
spaces; when the entry is not the last one, "recorded while `t` was open"
is `u < trace[t+1].useStartIndex`. (The original strict `t2 < t` is
refuted: an instruction that reads a location it itself wrote resolves to
its own trace entry.) -/
theorem resolve_le_open_entry (M e : Nat) (records : List Record)
    (ud : Ud) (h : buildUd M e records = some ud) :
    0 < ud.trace.length ∧
    (∀ u t2, ud.getTraceForRegUse u = some t2 → t2 < ud.trace.length) ∧
    (∀ u t2, ud.getTraceForMemUse u = some t2 → t2 < ud.trace.length) ∧
    (∀ t u t2, t + 1 < ud.trace.length →
      u < (ud.trace.getD (t + 1) default).regUseStartIndex →
      ud.getTraceForRegUse u = some t2 → t2 ≤ t) ∧
    (∀ t u t2, t + 1 < ud.trace.length →
      u < (ud.trace.getD (t + 1) default).memUseStartIndex →
      ud.getTraceForMemUse u = some t2 → t2 ≤ t) := by
  obtain ⟨hne, hreg, hmem⟩ := udInv_build M e records ud h
  refine ⟨hne, ?_, ?_, ?_, ?_⟩
  · intro u t2 h2
    rw [Ud.getTraceForRegUse, UdState.resolveUse] at h2
    rw [Option.map_eq_some'] at h2
    obtain ⟨p, hp, hpt⟩ := h2
    have hsnd := resolveUseRaw_snd _ _ _ _ _ _ p hp
    have hub := upperBoundIdx_le_length
      (fun tr => tr.regDefStartIndex)
      (ud.regState.uses.getD u 0) ud.trace
    omega
  · intro u t2 h2
    rw [Ud.getTraceForMemUse, UdState.resolveUse] at h2
    rw [Option.map_eq_some'] at h2
    obtain ⟨p, hp, hpt⟩ := h2
    have hsnd := resolveUseRaw_snd _ _ _ _ _ _ p hp
    have hub := upperBoundIdx_le_length
      (fun tr => tr.memDefStartIndex)
      (ud.memState.uses.getD u 0) ud.trace
    omega
  · intro t u t2 ht hu h2
    rw [Ud.getTraceForRegUse, UdState.resolveUse] at h2
    rw [Option.map_eq_some'] at h2
    obtain ⟨p, hp, hpt⟩ := h2
    have hsnd := resolveUseRaw_snd _ _ _ _ _ _ p hp
    have hlt := hreg.2.1 (t + 1) ht u hu
    have hle := upperBoundIdx_le_of
      (fun tr => tr.regDefStartIndex)
      (ud.regState.uses.getD u 0) ud.trace (t + 1) ht hlt
    omega
  · intro t u t2 ht hu h2
    rw [Ud.getTraceForMemUse, UdState.resolveUse] at h2
    rw [Option.map_eq_some'] at h2
    obtain ⟨p, hp, hpt⟩ := h2
    have hsnd := resolveUseRaw_snd _ _ _ _ _ _ p hp
    have hlt := hmem.2.1 (t + 1) ht u hu
    have hle := upperBoundIdx_le_of
      (fun tr => tr.memDefStartIndex)
      (ud.memState.uses.getD u 0) ud.trace (t + 1) ht hlt
    omega

/-- Concrete record stream for the temporal-ordering witness: two
instructions, the first writing register byte range `[0, 4)` and the
second reading it back. -/
def c4WRecords : List Record :=
  [.ldSt .putReg 1 0 4, .insnExec 1, .ldSt .getReg 2 0 4, .insnExec 2]

/-- Witness instantiating the amended C4 statement on a concrete build. -/
theorem resolve_le_open_entry_witness :
    ∃ ud, buildUd (2 ^ 32) 0 c4WRecords = some ud ∧
      0 < ud.trace.length ∧
      (∀ u t2, ud.getTraceForRegUse u = some t2 →
        t2 < ud.trace.length) ∧
      (∀ u t2, ud.getTraceForMemUse u = some t2 →
        t2 < ud.trace.length) ∧
      (∀ t u t2, t + 1 < ud.trace.length →
        u < (ud.trace.getD (t + 1) default).regUseStartIndex →
        ud.getTraceForRegUse u = some t2 → t2 ≤ t) ∧
      (∀ t u t2, t + 1 < ud.trace.length →
        u < (ud.trace.getD (t + 1) default).memUseStartIndex →
        ud.getTraceForMemUse u = some t2 → t2 ≤ t) := by
  have hsome : (buildUd (2 ^ 32) 0 c4WRecords).isSome = true := by decide
  refine ⟨(buildUd (2 ^ 32) 0 c4WRecords).get hsome,
    (Option.some_get hsome).symm, ?_⟩
  exact resolve_le_open_entry (2 ^ 32) 0 c4WRecords _
    (Option.some_get hsome).symm
